import Mathlib

/-!
Verification development for the `bevy_reflect` structural reflection and
diffing engine (crates/bevy_reflect/src/diff/*, tuple.rs, impls/smallvec.rs,
enums/enum_trait.rs).

The embedding models a type-erased reflected value (`dyn Reflect`) as the
inductive `RValue`: one constructor per reflection shape (`ReflectRef`
variant).  Rust's `type_name()` string is carried in every node, since the
diff engine compares type identity through `type_name()`.  Opaque leaf
values (`ReflectRef::Value`) are modelled as an integer payload together
with a flag recording whether the concrete type supports the
`reflect_partial_eq` equality capability.  Enum values are flattened into
three constructors, one per `VariantType` (unit / tuple / struct variants).
-/

namespace BevyDiff

inductive RValue where
  | value (tyName : String) (payload : Int) (comparable : Bool)
  | tuple (tyName : String) (fields : List RValue)
  | array (tyName : String) (elements : List RValue)
  | list (tyName : String) (elements : List RValue)
  | map (tyName : String) (entries : List (RValue × RValue))
  | tupleStruct (tyName : String) (fields : List RValue)
  | struct (tyName : String) (fields : List (String × RValue))
  | enumUnit (tyName : String) (variantName : String)
  | enumTuple (tyName : String) (variantName : String) (fields : List RValue)
  | enumStruct (tyName : String) (variantName : String) (fields : List (String × RValue))

/-- The `Reflect::type_name` accessor: every reflected value reports the type
name of its concrete backing type. -/
def RValue.typeName : RValue → String
  | .value tn _ _ => tn
  | .tuple tn _ => tn
  | .array tn _ => tn
  | .list tn _ => tn
  | .map tn _ => tn
  | .tupleStruct tn _ => tn
  | .struct tn _ => tn
  | .enumUnit tn _ => tn
  | .enumTuple tn _ _ => tn
  | .enumStruct tn _ _ => tn

/-- The `VariantType` enum from `bevy_reflect` (unit, tuple or struct enum
variants). -/
inductive VariantType where
  | unit
  | tuple
  | struct
  deriving DecidableEq, Repr

/-!
Structural (decidable) equality on reflected values, playing the role of
the `Eq`-based lookup a concrete Rust `HashMap` key performs (downcast to the
concrete key type followed by `==`).
-/

mutual

def RValue.beq : RValue → RValue → Bool
  | .value tn p c, .value tn' p' c' => tn == tn' && p == p' && c == c'
  | .tuple tn fs, .tuple tn' fs' => tn == tn' && RValue.beqList fs fs'
  | .array tn es, .array tn' es' => tn == tn' && RValue.beqList es es'
  | .list tn es, .list tn' es' => tn == tn' && RValue.beqList es es'
  | .map tn es, .map tn' es' => tn == tn' && RValue.beqPairs es es'
  | .tupleStruct tn fs, .tupleStruct tn' fs' => tn == tn' && RValue.beqList fs fs'
  | .struct tn fs, .struct tn' fs' => tn == tn' && RValue.beqNamed fs fs'
  | .enumUnit tn vn, .enumUnit tn' vn' => tn == tn' && vn == vn'
  | .enumTuple tn vn fs, .enumTuple tn' vn' fs' =>
      tn == tn' && vn == vn' && RValue.beqList fs fs'
  | .enumStruct tn vn fs, .enumStruct tn' vn' fs' =>
      tn == tn' && vn == vn' && RValue.beqNamed fs fs'
  | _, _ => false

def RValue.beqList : List RValue → List RValue → Bool
  | [], [] => true
  | a :: as, b :: bs => RValue.beq a b && RValue.beqList as bs
  | _, _ => false

def RValue.beqPairs : List (RValue × RValue) → List (RValue × RValue) → Bool
  | [], [] => true
  | (k, v) :: as, (k', v') :: bs =>
      RValue.beq k k' && RValue.beq v v' && RValue.beqPairs as bs
  | _, _ => false

def RValue.beqNamed : List (String × RValue) → List (String × RValue) → Bool
  | [], [] => true
  | (n, v) :: as, (n', v') :: bs =>
      n == n' && RValue.beq v v' && RValue.beqNamed as bs
  | _, _ => false

end

/-- Member-wise induction principle for `RValue`, unfolding the nested lists
of children.  Proved by strong induction on `sizeOf`. -/
theorem RValue.inductionOn {P : RValue → Prop}
    (hvalue : ∀ tn p c, P (.value tn p c))
    (htuple : ∀ tn fs, (∀ x ∈ fs, P x) → P (.tuple tn fs))
    (harray : ∀ tn es, (∀ x ∈ es, P x) → P (.array tn es))
    (hlist : ∀ tn es, (∀ x ∈ es, P x) → P (.list tn es))
    (hmap : ∀ tn es, (∀ kv ∈ es, P (Prod.fst kv) ∧ P (Prod.snd kv)) → P (.map tn es))
    (htupleStruct : ∀ tn fs, (∀ x ∈ fs, P x) → P (.tupleStruct tn fs))
    (hstruct : ∀ tn fs, (∀ nv ∈ fs, P (Prod.snd nv)) → P (.struct tn fs))
    (henumUnit : ∀ tn vn, P (.enumUnit tn vn))
    (henumTuple : ∀ tn vn fs, (∀ x ∈ fs, P x) → P (.enumTuple tn vn fs))
    (henumStruct : ∀ tn vn fs, (∀ nv ∈ fs, P (Prod.snd nv)) → P (.enumStruct tn vn fs)) :
    ∀ v, P v := by
  have key : ∀ n : ℕ, ∀ v : RValue, sizeOf v ≤ n → P v := by
    intro n
    induction n with
    | zero =>
      intro v hv
      exfalso
      cases v <;>
        simp only [RValue.value.sizeOf_spec, RValue.tuple.sizeOf_spec,
          RValue.array.sizeOf_spec, RValue.list.sizeOf_spec, RValue.map.sizeOf_spec,
          RValue.tupleStruct.sizeOf_spec, RValue.struct.sizeOf_spec,
          RValue.enumUnit.sizeOf_spec, RValue.enumTuple.sizeOf_spec,
          RValue.enumStruct.sizeOf_spec] at hv <;> omega
    | succ n ih =>
      intro v hv
      cases v with
      | value tn p c => exact hvalue tn p c
      | tuple tn fs =>
        exact htuple tn fs (fun x hx => ih x
          (by have := List.sizeOf_lt_of_mem hx
              simp only [RValue.tuple.sizeOf_spec, RValue.array.sizeOf_spec,
                RValue.list.sizeOf_spec, RValue.tupleStruct.sizeOf_spec,
                RValue.enumTuple.sizeOf_spec] at hv
              omega))
      | array tn es =>
        exact harray tn es (fun x hx => ih x
          (by have := List.sizeOf_lt_of_mem hx
              simp only [RValue.tuple.sizeOf_spec, RValue.array.sizeOf_spec,
                RValue.list.sizeOf_spec, RValue.tupleStruct.sizeOf_spec,
                RValue.enumTuple.sizeOf_spec] at hv
              omega))
      | list tn es =>
        exact hlist tn es (fun x hx => ih x
          (by have := List.sizeOf_lt_of_mem hx
              simp only [RValue.tuple.sizeOf_spec, RValue.array.sizeOf_spec,
                RValue.list.sizeOf_spec, RValue.tupleStruct.sizeOf_spec,
                RValue.enumTuple.sizeOf_spec] at hv
              omega))
      | map tn es =>
        refine hmap tn es (fun kv hkv => ?_)
        have h1 := List.sizeOf_lt_of_mem hkv
        obtain ⟨k, v'⟩ := kv
        simp only [RValue.map.sizeOf_spec] at hv
        simp only [Prod.mk.sizeOf_spec] at h1
        exact ⟨ih k (by omega), ih v' (by omega)⟩
      | tupleStruct tn fs =>
        exact htupleStruct tn fs (fun x hx => ih x
          (by have := List.sizeOf_lt_of_mem hx
              simp only [RValue.tuple.sizeOf_spec, RValue.array.sizeOf_spec,
                RValue.list.sizeOf_spec, RValue.tupleStruct.sizeOf_spec,
                RValue.enumTuple.sizeOf_spec] at hv
              omega))
      | struct tn fs =>
        refine hstruct tn fs (fun nv hnv => ?_)
        have h1 := List.sizeOf_lt_of_mem hnv
        obtain ⟨nm, v'⟩ := nv
        simp only [RValue.struct.sizeOf_spec] at hv
        simp only [Prod.mk.sizeOf_spec] at h1
        exact ih v' (by omega)
      | enumUnit tn vn => exact henumUnit tn vn
      | enumTuple tn vn fs =>
        exact henumTuple tn vn fs (fun x hx => ih x
          (by have := List.sizeOf_lt_of_mem hx
              simp only [RValue.tuple.sizeOf_spec, RValue.array.sizeOf_spec,
                RValue.list.sizeOf_spec, RValue.tupleStruct.sizeOf_spec,
                RValue.enumTuple.sizeOf_spec] at hv
              omega))
      | enumStruct tn vn fs =>
        refine henumStruct tn vn fs (fun nv hnv => ?_)
        have h1 := List.sizeOf_lt_of_mem hnv
        obtain ⟨nm, v'⟩ := nv
        simp only [RValue.enumStruct.sizeOf_spec] at hv
        simp only [Prod.mk.sizeOf_spec] at h1
        exact ih v' (by omega)
  exact fun v => key (sizeOf v) v le_rfl

theorem RValue.beqList_iff {as : List RValue}
    (h : ∀ x ∈ as, ∀ b, RValue.beq x b = true ↔ x = b) :
    ∀ bs, RValue.beqList as bs = true ↔ as = bs := by
  induction as with
  | nil => intro bs; cases bs <;> simp [RValue.beqList]
  | cons a as ih =>
    intro bs
    cases bs with
    | nil => simp [RValue.beqList]
    | cons b bs =>
      have ha := h a (by simp) b
      have hrest := ih (fun x hx => h x (by simp [hx])) bs
      simp [RValue.beqList, ha, hrest]

theorem RValue.beqPairs_iff {as : List (RValue × RValue)}
    (h : ∀ kv ∈ as, (∀ b, RValue.beq (Prod.fst kv) b = true ↔ Prod.fst kv = b) ∧
      (∀ b, RValue.beq (Prod.snd kv) b = true ↔ Prod.snd kv = b)) :
    ∀ bs, RValue.beqPairs as bs = true ↔ as = bs := by
  induction as with
  | nil => intro bs; cases bs <;> simp [RValue.beqPairs]
  | cons a as ih =>
    intro bs
    obtain ⟨k, v⟩ := a
    cases bs with
    | nil => simp [RValue.beqPairs]
    | cons b bs =>
      obtain ⟨k', v'⟩ := b
      have hk := (h (k, v) (by simp)).1 k'
      have hv := (h (k, v) (by simp)).2 v'
      have hrest := ih (fun kv hkv => h kv (by simp [hkv])) bs
      simp [RValue.beqPairs, hk, hv, hrest]

theorem RValue.beqNamed_iff {as : List (String × RValue)}
    (h : ∀ nv ∈ as, ∀ b, RValue.beq (Prod.snd nv) b = true ↔ Prod.snd nv = b) :
    ∀ bs, RValue.beqNamed as bs = true ↔ as = bs := by
  induction as with
  | nil => intro bs; cases bs <;> simp [RValue.beqNamed]
  | cons a as ih =>
    intro bs
    obtain ⟨n, v⟩ := a
    cases bs with
    | nil => simp [RValue.beqNamed]
    | cons b bs =>
      obtain ⟨n', v'⟩ := b
      have hv := h (n, v) (by simp) v'
      have hrest := ih (fun nv hnv => h nv (by simp [hnv])) bs
      simp [RValue.beqNamed, hv, hrest]

/-- Structural equality `RValue.beq` decides propositional equality. -/
theorem RValue.beq_iff : ∀ a b : RValue, RValue.beq a b = true ↔ a = b := by
  intro a
  induction a using RValue.inductionOn with
  | hvalue tn p c => intro b; cases b <;> simp [RValue.beq, and_assoc]
  | htuple tn fs ih =>
    intro b
    cases b <;> simp [RValue.beq, RValue.beqList_iff ih]
  | harray tn es ih =>
    intro b
    cases b <;> simp [RValue.beq, RValue.beqList_iff ih]
  | hlist tn es ih =>
    intro b
    cases b <;> simp [RValue.beq, RValue.beqList_iff ih]
  | hmap tn es ih =>
    intro b
    cases b <;> simp [RValue.beq, RValue.beqPairs_iff ih]
  | htupleStruct tn fs ih =>
    intro b
    cases b <;> simp [RValue.beq, RValue.beqList_iff ih]
  | hstruct tn fs ih =>
    intro b
    cases b <;> simp [RValue.beq, RValue.beqNamed_iff ih]
  | henumUnit tn vn => intro b; cases b <;> simp [RValue.beq]
  | henumTuple tn vn fs ih =>
    intro b
    cases b <;> simp [RValue.beq, RValue.beqList_iff ih, and_assoc]
  | henumStruct tn vn fs ih =>
    intro b
    cases b <;> simp [RValue.beq, RValue.beqNamed_iff ih, and_assoc]

theorem RValue.beq_refl (a : RValue) : RValue.beq a a = true :=
  (RValue.beq_iff a a).mpr rfl

/-- Key lookup in a reflected map (`Map::get` through the key's equality),
modelling the concrete `HashMap` lookup by key equality. -/
def mapGet : List (RValue × RValue) → RValue → Option RValue
  | [], _ => none
  | (k, v) :: rest, key => if RValue.beq k key then some v else mapGet rest key

/-- Field lookup by name in a struct-shaped value (`Struct::field`). -/
def namedGet : List (String × RValue) → String → Option RValue
  | [], _ => none
  | (n, v) :: rest, name => if n == name then some v else namedGet rest name

theorem sizeOf_of_mapGet {entries : List (RValue × RValue)} {k v : RValue}
    (h : mapGet entries k = some v) : sizeOf v < sizeOf entries := by
  induction entries with
  | nil => simp [mapGet] at h
  | cons e rest ih =>
    obtain ⟨k', v'⟩ := e
    simp only [mapGet] at h
    by_cases hb : RValue.beq k' k = true
    · simp [hb] at h
      subst h
      simp [Prod.mk.sizeOf_spec]
      omega
    · simp [hb] at h
      have := ih h
      simp
      omega

theorem sizeOf_of_namedGet {fields : List (String × RValue)} {n : String} {v : RValue}
    (h : namedGet fields n = some v) : sizeOf v < sizeOf fields := by
  induction fields with
  | nil => simp [namedGet] at h
  | cons e rest ih =>
    obtain ⟨n', v'⟩ := e
    simp only [namedGet] at h
    by_cases hb : (n' == n) = true
    · simp [hb] at h
      subst h
      simp [Prod.mk.sizeOf_spec]
      omega
    · simp [hb] at h
      have := ih h
      simp
      omega

/-- Error enum for diffing (`diff/error.rs`, `DiffError`). -/
inductive DiffError where
  | expectedTuple
  | expectedArray
  | expectedList
  | expectedMap
  | expectedTupleStruct
  | expectedStruct
  | expectedEnum
  | missingField
  | incomparable
  deriving DecidableEq, Repr

/-- Error enum for applying a diff (`diff/error.rs`, `DiffApplyError`). -/
inductive DiffApplyError where
  | expectedValue
  | expectedTuple
  | expectedArray
  | expectedList
  | expectedMap
  | expectedTupleStruct
  | expectedStruct
  | expectedEnum
  | expectedTupleVariant
  | expectedStructVariant
  | missingField
  | typeMismatch
  | failed (reason : String)
  deriving DecidableEq, Repr

/-- A single edit of a list diff (`ListDiff` in `diff/list_diff.rs`, a file of
this repository that is not part of the sources; its shape is fixed by the
module documentation of `diff/mod.rs` and by the spec: `Deleted(old_index)`
deletes the "old" element at that index, `Inserted(before_old_index, value)`
inserts `value` before the "old" element at that index, and multiple inserts
may share the same index. -/
inductive ListDiff where
  | deleted (index : Nat)
  | inserted (index : Nat) (value : RValue)

mutual

inductive Diff where
  | noChange
  | replaced (value : RValue)
  | modified (d : DiffType)

inductive DiffType where
  | value (v : RValue)
  | tuple (tyName : String) (fields : List Diff)
  | array (tyName : String) (elements : List Diff)
  | list (tyName : String) (changes : List ListDiff)
  | map (tyName : String) (changes : List MapDiff)
  | tupleStruct (tyName : String) (fields : List Diff)
  | struct (tyName : String) (fields : List (String × Diff))
  | enum (e : EnumDiff)

inductive EnumDiff where
  | tuple (tyName : String) (fields : List Diff)
  | struct (tyName : String) (fields : List (String × Diff))

inductive MapDiff where
  | deleted (key : RValue)
  | inserted (key : RValue) (value : RValue)
  | modified (key : RValue) (d : Diff)

end

/-- Whether a diff is `Diff::NoChange` (the `matches!(diff, Diff::NoChange)`
checks that drive the `was_modified` flags in the diff routines). -/
def Diff.isNoChange : Diff → Bool
  | .noChange => true
  | _ => false

/-!
The per-shape equality capability `Reflect::reflect_partial_eq`.

`tuple_partial_eq` is taken from `src/crates/bevy_reflect/src/tuple.rs`; the
`value` case models the `impl_reflect_value!` expansion (downcast then `==`,
`Some(false)` when the downcast fails, and the default `None` when the
concrete type registered no `PartialEq` capability, recorded here by the
`comparable` flag).  `enum_partial_eq` is taken verbatim from
`src/crates/bevy_reflect/src/enums/enum_trait.rs`, where it is a stub that
always returns `Some(true)`.  The remaining shapes (array, list, map,
tuple-struct, struct) live in repository files that are not part of the
sources; they are modelled from the spec (§4.1/§8 "observably equal"): same
shape, same length, and member-wise equality, with `None` propagated.
-/

mutual

def reflectPartialEq : RValue → RValue → Option Bool
  | .value tn p c, b =>
      if c then
        match b with
        | .value tn' p' _ => some (tn == tn' && p == p')
        | _ => some false
      else none
  | .tuple _ fs, b =>
      match b with
      | .tuple _ fs' =>
          if fs.length ≠ fs'.length then some false else partialEqList fs fs'
      | _ => some false
  | .array _ es, b =>
      match b with
      | .array _ es' =>
          if es.length ≠ es'.length then some false else partialEqList es es'
      | _ => some false
  | .list _ es, b =>
      match b with
      | .list _ es' =>
          if es.length ≠ es'.length then some false else partialEqList es es'
      | _ => some false
  | .map _ es, b =>
      match b with
      | .map _ es' =>
          if es.length ≠ es'.length then some false else partialEqEntries es es'
      | _ => some false
  | .tupleStruct _ fs, b =>
      match b with
      | .tupleStruct _ fs' =>
          if fs.length ≠ fs'.length then some false else partialEqList fs fs'
      | _ => some false
  | .struct _ fs, b =>
      match b with
      | .struct _ fs' =>
          if fs.length ≠ fs'.length then some false else partialEqNamed fs fs'
      | _ => some false
  | .enumUnit _ _, _ => some true
  | .enumTuple _ _ _, _ => some true
  | .enumStruct _ _ _, _ => some true

def partialEqList : List RValue → List RValue → Option Bool
  | [], _ => some true
  | _, [] => some true
  | a :: as, b :: bs =>
      match reflectPartialEq a b with
      | none => none
      | some false => some false
      | some true => partialEqList as bs

def partialEqEntries : List (RValue × RValue) → List (RValue × RValue) → Option Bool
  | [], _ => some true
  | (k, v) :: rest, bs =>
      match mapGet bs k with
      | none => some false
      | some bv =>
          match reflectPartialEq v bv with
          | none => none
          | some false => some false
          | some true => partialEqEntries rest bs

def partialEqNamed : List (String × RValue) → List (String × RValue) → Option Bool
  | [], _ => some true
  | (n, v) :: rest, bs =>
      match namedGet bs n with
      | none => some false
      | some bv =>
          match reflectPartialEq v bv with
          | none => none
          | some false => some false
          | some true => partialEqNamed rest bs

end

/-!
Modelled from the spec: the Myers / LCS list diff of `diff/list_diff.rs`, a
file of this repository that is not part of the sources (only its module
docs, its tests in `diff/mod.rs` and its consumer `List::apply_list_diff`
are).  Per the spec (§4.4.5) the list diff computes "the minimum number of
single-element insertions and deletions needed to transform `old`'s sequence
into `new`'s sequence", treating elements as equal when the recursive
structural diff between them is `NoChange`, emitting `Deleted(old_index)` /
`Inserted(before_old_index, value)` edits in order, with the tie-break that
insertions at a shared anchor stay contiguous and in `new`'s order.

`dist eq xs ys` is the minimal number of single-element edits transforming
`xs` into `ys` when `eq` decides element equality, and `myersScript` is a
backtrace of that recurrence preferring keep, then delete, then insert.
Two elements whose recursive diff fails are simply not equal (only a
`NoChange` result makes them equal, per the spec's wording).
-/

def dist (eq : RValue → RValue → Bool) : List RValue → List RValue → Nat
  | [], ys => ys.length
  | _ :: xs, [] => xs.length + 1
  | x :: xs, y :: ys =>
      if eq x y then
        min (dist eq xs ys)
          (min (dist eq xs (y :: ys)) (dist eq (x :: xs) ys) + 1)
      else
        min (dist eq xs (y :: ys)) (dist eq (x :: xs) ys) + 1
termination_by xs ys => xs.length + ys.length
decreasing_by all_goals simp +arith [List.length]

def myersScript (eq : RValue → RValue → Bool) :
    List RValue → List RValue → Nat → List ListDiff
  | [], ys, i => ys.map (fun y => ListDiff.inserted i y)
  | _ :: xs, [], i => ListDiff.deleted i :: myersScript eq xs [] (i + 1)
  | x :: xs, y :: ys, i =>
      if eq x y = true ∧ dist eq xs ys = dist eq (x :: xs) (y :: ys) then
        myersScript eq xs ys (i + 1)
      else if dist eq xs (y :: ys) + 1 = dist eq (x :: xs) (y :: ys) then
        ListDiff.deleted i :: myersScript eq xs (y :: ys) (i + 1)
      else
        ListDiff.inserted i y :: myersScript eq (x :: xs) ys i
termination_by xs ys _ => xs.length + ys.length
decreasing_by all_goals simp +arith [List.length]

/-- Element equality used by the list diff, looked up in a precomputed table
of pairwise element diffs: `rows` holds, for every element of the old list
and every element of the new list, whether the recursive structural diff
between them is `NoChange`. -/
def tableEq (olds news : List RValue) (rows : List (List Bool)) (a b : RValue) : Bool :=
  match olds.findIdx? (fun x => RValue.beq x a), news.findIdx? (fun y => RValue.beq y b) with
  | some i, some j => (rows.getD i []).getD j false
  | _, _ => false

/-- Insertion edits of a map diff: one `MapDiff::Inserted` per entry of the
new map whose key is absent from the old map, in the new map's entry order
(the second loop of `diff_map` in `diff/map_diff.rs`). -/
def mapInsertedChanges (olds news : List (RValue × RValue)) : List MapDiff :=
  (news.filter (fun kv => (mapGet olds (Prod.fst kv)).isNone)).map
    (fun kv => MapDiff.inserted (Prod.fst kv) (Prod.snd kv))

/-!
The recursive diff engine.

`diff` dispatches on the old value's shape the way each `Reflect`
implementation's `diff` method delegates to the per-shape utility function
(`diff_tuple`, `diff_array`, `diff_list`, `diff_map`, `diff_tuple_struct`,
`diff_struct`, `diff_enum`); the `value` arm is modelled from the spec
(§4.4.1), since `diff_value` lives in a repository file that is not part of
the sources.  Each container arm follows the corresponding source file in
`src/crates/bevy_reflect/src/diff/`; the `was_modified` flags of the source
are replaced by the equivalent test that every collected sub-diff is
`NoChange` (respectively that the collected change list is empty).
-/

mutual

def diff : RValue → RValue → Except DiffError Diff
  | .value tn p c, new =>
      if tn ≠ new.typeName then .ok (.replaced new)
      else
        match reflectPartialEq (.value tn p c) new with
        | none => .error .incomparable
        | some true => .ok .noChange
        | some false => .ok (.modified (.value new))
  | .tuple tn fs, new =>
      match new with
      | .tuple tn' fs' =>
          if fs.length ≠ fs'.length ∨ tn ≠ tn' then .ok (.replaced (.tuple tn' fs'))
          else do
            let ds ← diffFields fs fs'
            if ds.all Diff.isNoChange then pure .noChange
            else pure (.modified (.tuple tn' ds))
      | _ => .error .expectedTuple
  | .array tn es, new =>
      match new with
      | .array tn' es' =>
          if es.length ≠ es'.length ∨ tn ≠ tn' then .ok (.replaced (.array tn' es'))
          else do
            let ds ← diffFields es es'
            if ds.all Diff.isNoChange then pure .noChange
            else pure (.modified (.array tn' ds))
      | _ => .error .expectedArray
  | .list tn es, new =>
      match new with
      | .list tn' es' =>
          if tn ≠ tn' then .ok (.replaced (.list tn' es'))
          else
            let changes := myersScript (tableEq es es' (diffMatrix es es')) es es' 0
            if changes.isEmpty then .ok .noChange
            else .ok (.modified (.list tn' changes))
      | _ => .error .expectedList
  | .map tn es, new =>
      match new with
      | .map tn' es' =>
          if tn ≠ tn' then .ok (.replaced (.map tn' es'))
          else do
            let oldPass ← diffMapEntries es es'
            let changes := oldPass ++ mapInsertedChanges es es'
            if changes.isEmpty then pure .noChange
            else pure (.modified (.map tn' changes))
      | _ => .error .expectedMap
  | .tupleStruct tn fs, new =>
      match new with
      | .tupleStruct tn' fs' =>
          if fs.length ≠ fs'.length ∨ tn ≠ tn' then
            .ok (.replaced (.tupleStruct tn' fs'))
          else do
            let ds ← diffFields fs fs'
            if ds.all Diff.isNoChange then pure .noChange
            else pure (.modified (.tupleStruct tn' ds))
      | _ => .error .expectedTupleStruct
  | .struct tn fs, new =>
      match new with
      | .struct tn' fs' =>
          if tn ≠ tn' then .ok (.replaced (.struct tn' fs'))
          else do
            let ds ← diffNamedFields fs fs'
            if (ds.map Prod.snd).all Diff.isNoChange then pure .noChange
            else pure (.modified (.struct tn' ds))
      | _ => .error .expectedStruct
  | .enumUnit tn vn, new =>
      match new with
      | .enumUnit tn' vn' =>
          if vn ≠ vn' ∨ tn ≠ tn' then .ok (.replaced (.enumUnit tn' vn'))
          else .ok .noChange
      | .enumTuple tn' vn' fs' => .ok (.replaced (.enumTuple tn' vn' fs'))
      | .enumStruct tn' vn' fs' => .ok (.replaced (.enumStruct tn' vn' fs'))
      | _ => .error .expectedEnum
  | .enumTuple tn vn fs, new =>
      match new with
      | .enumTuple tn' vn' fs' =>
          if vn ≠ vn' ∨ tn ≠ tn' then .ok (.replaced (.enumTuple tn' vn' fs'))
          else do
            let ds ← diffFields fs fs'
            if ds.all Diff.isNoChange then pure .noChange
            else pure (.modified (.enum (.tuple tn' ds)))
      | .enumUnit tn' vn' => .ok (.replaced (.enumUnit tn' vn'))
      | .enumStruct tn' vn' fs' => .ok (.replaced (.enumStruct tn' vn' fs'))
      | _ => .error .expectedEnum
  | .enumStruct tn vn fs, new =>
      match new with
      | .enumStruct tn' vn' fs' =>
          if vn ≠ vn' ∨ tn ≠ tn' then .ok (.replaced (.enumStruct tn' vn' fs'))
          else do
            let ds ← diffNamedFields fs fs'
            if (ds.map Prod.snd).all Diff.isNoChange then pure .noChange
            else pure (.modified (.enum (.struct tn' ds)))
      | .enumUnit tn' vn' => .ok (.replaced (.enumUnit tn' vn'))
      | .enumTuple tn' vn' fs' => .ok (.replaced (.enumTuple tn' vn' fs'))
      | _ => .error .expectedEnum

def diffFields : List RValue → List RValue → Except DiffError (List Diff)
  | [], _ => .ok []
  | _, [] => .ok []
  | o :: os, n :: ns => do
      let d ← diff o n
      let ds ← diffFields os ns
      pure (d :: ds)

def diffRow : RValue → List RValue → List Bool
  | _, [] => []
  | a, b :: bs =>
      (match diff a b with
       | .ok d => d.isNoChange
       | .error _ => false) :: diffRow a bs

def diffMatrix : List RValue → List RValue → List (List Bool)
  | [], _ => []
  | a :: as, bs => diffRow a bs :: diffMatrix as bs

def diffMapEntries :
    List (RValue × RValue) → List (RValue × RValue) → Except DiffError (List MapDiff)
  | [], _ => .ok []
  | (k, v) :: olds, news =>
      match mapGet news k with
      | some nv => do
          let d ← diff v nv
          let rest ← diffMapEntries olds news
          if d.isNoChange then pure rest else pure (.modified k d :: rest)
      | none => do
          let rest ← diffMapEntries olds news
          pure (.deleted k :: rest)

def diffNamedFields :
    List (String × RValue) → List (String × RValue) → Except DiffError (List (String × Diff))
  | [], _ => .ok []
  | (n, v) :: olds, news =>
      match namedGet news n with
      | none => .error .missingField
      | some nv => do
          let d ← diff v nv
          let rest ← diffNamedFields olds news
          pure ((n, d) :: rest)

end

/-!
The list-diff replay of `List::apply_list_diff`, taken from the `SmallVec`
implementation in `src/crates/bevy_reflect/src/impls/smallvec.rs`: walk the
base list element by element; while the head of the change queue is anchored
at the current old index, splice in insertions and skip the element on a
deletion; after the walk, append the trailing insertions.  The `FromReflect`
conversion of an inserted value into the element type is modelled as the
identity (the embedding has a single value type, so a converted value is the
value itself).
-/

/-- Trailing phase of `apply_list_diff`: pop changes while they are
`ListDiff::Inserted` and push their values. -/
def trailingInserts : List ListDiff → List RValue
  | ListDiff.inserted _ v :: cs => v :: trailingInserts cs
  | _ => []

/-- Main walk of `apply_list_diff` over the base list, with `i` the current
old index. -/
def replayList : List ListDiff → List RValue → Nat → List RValue
  | cs, [], _ => trailingInserts cs
  | [], x :: rest, _ => x :: rest
  | ListDiff.inserted j v :: cs, x :: rest, i =>
      if j = i then v :: replayList cs (x :: rest) i
      else x :: replayList (ListDiff.inserted j v :: cs) rest (i + 1)
  | ListDiff.deleted j :: cs, x :: rest, i =>
      if j = i then replayList cs rest (i + 1)
      else x :: replayList (ListDiff.deleted j :: cs) rest (i + 1)
termination_by cs base _ => cs.length + base.length
decreasing_by all_goals simp +arith [List.length]

/-- Remove the entry with the given key (`Map::remove`). -/
def mapRemove : List (RValue × RValue) → RValue → List (RValue × RValue)
  | [], _ => []
  | (k', v) :: rest, k =>
      if RValue.beq k' k then rest else (k', v) :: mapRemove rest k

/-- Insert or overwrite the entry with the given key (`Map::insert`,
last-write-wins). -/
def mapInsert : List (RValue × RValue) → RValue → RValue → List (RValue × RValue)
  | [], k, v => [(k, v)]
  | (k', v') :: rest, k, v =>
      if RValue.beq k' k then (k', v) :: rest
      else (k', v') :: mapInsert rest k v

/-- Overwrite the value of the field with the given name. -/
def namedSet : List (String × RValue) → String → RValue → List (String × RValue)
  | [], _, _ => []
  | (n', v') :: rest, n, v =>
      if n' == n then (n', v) :: rest else (n', v') :: namedSet rest n v

/-!
The apply engine, `Diff::apply` from `src/crates/bevy_reflect/src/diff/diff.rs`:
`NoChange` returns the base, `Replaced` returns the carried value (cloning is
unobservable in the embedding), and `Modified` dispatches on the base's shape,
which must match the delta's tag exactly, returning the matching
`Expected<Shape>` error otherwise (the `(_, DiffType::X(_))` arms).

The per-shape bodies (`apply_tuple_diff`, `apply_array_diff`,
`apply_map_diff`, `apply_tuple_struct_diff`, `apply_struct_diff`,
`apply_enum_diff`) live in repository files that are not part of the sources
(only `apply_list_diff` is, via `impls/smallvec.rs`); they are modelled from
the spec (§4.5): positional sub-diffs are applied position by position with a
count mismatch being an error; named sub-diffs are applied to the same-named
field; map edits delete the key, insert the entry, or apply the nested diff
to the value at the key; an enum variant delta requires the base to be in a
variant of the delta's kind (`ExpectedTupleVariant` / `ExpectedStructVariant`
otherwise).
-/

mutual

def Diff.apply : Diff → RValue → Except DiffApplyError RValue
  | .noChange, base => .ok base
  | .replaced v, _ => .ok v
  | .modified dt, base => applyDiffType dt base

def applyDiffType : DiffType → RValue → Except DiffApplyError RValue
  | .value v, base =>
      match base with
      | .value _ _ _ => .ok v
      | _ => .error .expectedValue
  | .tuple _ ds, base =>
      match base with
      | .tuple tn fs => do
          let rs ← applyFields ds fs
          pure (.tuple tn rs)
      | _ => .error .expectedTuple
  | .array _ ds, base =>
      match base with
      | .array tn es => do
          let rs ← applyFields ds es
          pure (.array tn rs)
      | _ => .error .expectedArray
  | .list tn' cs, base =>
      match base with
      | .list tn es =>
          if tn ≠ tn' then .error .typeMismatch
          else .ok (.list tn (replayList cs es 0))
      | _ => .error .expectedList
  | .map _ cs, base =>
      match base with
      | .map tn es => do
          let es' ← applyMapChanges cs es
          pure (.map tn es')
      | _ => .error .expectedMap
  | .tupleStruct _ ds, base =>
      match base with
      | .tupleStruct tn fs => do
          let rs ← applyFields ds fs
          pure (.tupleStruct tn rs)
      | _ => .error .expectedTupleStruct
  | .struct _ ds, base =>
      match base with
      | .struct tn fs => do
          let fs' ← applyNamedFields ds fs
          pure (.struct tn fs')
      | _ => .error .expectedStruct
  | .enum (.tuple _ ds), base =>
      match base with
      | .enumTuple tn vn fs => do
          let rs ← applyFields ds fs
          pure (.enumTuple tn vn rs)
      | .enumUnit _ _ => .error .expectedTupleVariant
      | .enumStruct _ _ _ => .error .expectedTupleVariant
      | _ => .error .expectedEnum
  | .enum (.struct _ ds), base =>
      match base with
      | .enumStruct tn vn fs => do
          let fs' ← applyNamedFields ds fs
          pure (.enumStruct tn vn fs')
      | .enumUnit _ _ => .error .expectedStructVariant
      | .enumTuple _ _ _ => .error .expectedStructVariant
      | _ => .error .expectedEnum

def applyFields : List Diff → List RValue → Except DiffApplyError (List RValue)
  | [], [] => .ok []
  | d :: ds, f :: fs => do
      let r ← Diff.apply d f
      let rs ← applyFields ds fs
      pure (r :: rs)
  | _, _ => .error (.failed "positional sub-diff count mismatch")

def applyNamedFields :
    List (String × Diff) → List (String × RValue) → Except DiffApplyError (List (String × RValue))
  | [], fs => .ok fs
  | (n, d) :: ds, fs =>
      match namedGet fs n with
      | none => .error .missingField
      | some v => do
          let r ← Diff.apply d v
          applyNamedFields ds (namedSet fs n r)

def applyMapChanges :
    List MapDiff → List (RValue × RValue) → Except DiffApplyError (List (RValue × RValue))
  | [], es => .ok es
  | MapDiff.deleted k :: cs, es => applyMapChanges cs (mapRemove es k)
  | MapDiff.inserted k v :: cs, es => applyMapChanges cs (mapInsert es k v)
  | MapDiff.modified k d :: cs, es =>
      match mapGet es k with
      | none => .error .missingField
      | some v => do
          let r ← Diff.apply d v
          applyMapChanges cs (mapInsert es k r)

end

/-!
The `DynamicTuple` container from `src/crates/bevy_reflect/src/tuple.rs`:
a runtime-constructible tuple holding a synthesized name, an optional
represented-type tag, and the boxed elements.  `TypeInfo` is reduced to the
piece the container consults: the represented type's name (the
`set_represented_type` assertion that the info is `TypeInfo::Tuple` is a
panicking contract check, not modelled).
-/

inductive TypeInfo where
  | tuple (tyName : String)
  | other (tyName : String)

def TypeInfo.typeName : TypeInfo → String
  | .tuple tn => tn
  | .other tn => tn

structure DynamicTuple where
  name : String
  representedType : Option TypeInfo
  fields : List RValue

/-- The name `DynamicTuple::generate_name` rebuilds on every insertion:
a parenthesized, comma-separated list of the current elements' type names. -/
def generateName (fields : List RValue) : String :=
  "(" ++ String.intercalate ", " (fields.map RValue.typeName) ++ ")"

/-- `DynamicTuple::set_represented_type`: tagging with `Some` info also
overwrites the synthesized name with the represented type's name. -/
def DynamicTuple.setRepresentedType (dt : DynamicTuple) (rt : Option TypeInfo) : DynamicTuple :=
  match rt with
  | some info => { dt with name := info.typeName, representedType := some info }
  | none => { dt with representedType := none }

/-- `DynamicTuple::insert_boxed`: clear the represented type, push the value,
regenerate the synthesized name. -/
def DynamicTuple.insertBoxed (dt : DynamicTuple) (v : RValue) : DynamicTuple :=
  { dt with
    representedType := none
    fields := dt.fields ++ [v]
    name := generateName (dt.fields ++ [v]) }

/-- `DynamicTuple::insert`: clear the represented type, delegate to
`insert_boxed`, regenerate the name once more. -/
def DynamicTuple.insert (dt : DynamicTuple) (v : RValue) : DynamicTuple :=
  let dt' := DynamicTuple.insertBoxed { dt with representedType := none } v
  { dt' with name := generateName dt'.fields }

/-- `Reflect::type_name` for `DynamicTuple`: the represented type's name when
tagged, else the synthesized name. -/
def DynamicTuple.typeName (dt : DynamicTuple) : String :=
  match dt.representedType with
  | some info => info.typeName
  | none => dt.name

/-- `Reflect::get_represented_type_info` for `DynamicTuple`. -/
def DynamicTuple.getRepresentedTypeInfo (dt : DynamicTuple) : Option TypeInfo :=
  dt.representedType


/-- The shape taxonomy (`ReflectRef` / `ReflectOwned` tags). -/
inductive ShapeKind where
  | value
  | tuple
  | array
  | list
  | map
  | tupleStruct
  | struct
  | enum
  deriving DecidableEq, Repr

/-- The shape of a reflected value (which `ReflectOwned` variant
`reflect_owned` yields). -/
def RValue.kind : RValue → ShapeKind
  | .value _ _ _ => .value
  | .tuple _ _ => .tuple
  | .array _ _ => .array
  | .list _ _ => .list
  | .map _ _ => .map
  | .tupleStruct _ _ => .tupleStruct
  | .struct _ _ => .struct
  | .enumUnit _ _ => .enum
  | .enumTuple _ _ _ => .enum
  | .enumStruct _ _ _ => .enum

/-- The shape tag of a `Modified` delta payload (which `DiffType` variant it
is). -/
def DiffType.kind : DiffType → ShapeKind
  | .value _ => .value
  | .tuple _ _ => .tuple
  | .array _ _ => .array
  | .list _ _ => .list
  | .map _ _ => .map
  | .tupleStruct _ _ => .tupleStruct
  | .struct _ _ => .struct
  | .enum _ => .enum

/-- The `Expected<Shape>` apply error corresponding to each delta tag (the
`(_, DiffType::X(_))` arms of `Diff::apply`). -/
def expectedErr : ShapeKind → DiffApplyError
  | .value => .expectedValue
  | .tuple => .expectedTuple
  | .array => .expectedArray
  | .list => .expectedList
  | .map => .expectedMap
  | .tupleStruct => .expectedTupleStruct
  | .struct => .expectedStruct
  | .enum => .expectedEnum

/-- No two entries of a reflected map share a key (true of every map built
from a concrete Rust `Map`, whose keys are unique). -/
def nodupKeys : List (RValue × RValue) → Bool
  | [] => true
  | (k, _) :: rest =>
      !(rest.any (fun kv => RValue.beq (Prod.fst kv) k)) && nodupKeys rest

/-- No two fields of a struct-shaped value share a name (true of every value
of a real struct type). -/
def nodupNames : List (String × RValue) → Bool
  | [] => true
  | (n, _) :: rest => !(rest.any (fun nv => Prod.fst nv == n)) && nodupNames rest

/-!
Well-formedness of a reflected value: it looks like a value of a real
reflected Rust type whose leaves all support the `reflect_partial_eq`
equality capability — every leaf is comparable, map keys are unique, and
struct field names are unique, recursively.
-/

mutual

def WellFormed : RValue → Bool
  | .value _ _ c => c
  | .tuple _ fs => wfList fs
  | .array _ es => wfList es
  | .list _ es => wfList es
  | .map _ es => nodupKeys es && wfPairs es
  | .tupleStruct _ fs => wfList fs
  | .struct _ fs => nodupNames fs && wfNamed fs
  | .enumUnit _ _ => true
  | .enumTuple _ _ fs => wfList fs
  | .enumStruct _ _ fs => nodupNames fs && wfNamed fs

def wfList : List RValue → Bool
  | [] => true
  | v :: vs => WellFormed v && wfList vs

def wfPairs : List (RValue × RValue) → Bool
  | [] => true
  | (k, v) :: rest => WellFormed k && WellFormed v && wfPairs rest

def wfNamed : List (String × RValue) → Bool
  | [] => true
  | (_, v) :: rest => WellFormed v && wfNamed rest

end

/-!
Reflected types and the typing relation.  `RType` is the static shape of a
concrete Rust type as the reflection metadata exposes it: a leaf with its
equality capability, a tuple / tuple-struct with its positional field types,
an array with element type and compile-time length, a list with element
type, a map with key and value types, a struct with named field types in
declaration order, or an enum with its named variants.  `WellTyped v t` says
the value `v` is a faithful reflected value of type `t`; two values of the
same `RType` are exactly what the spec calls values "of matching type".
-/

mutual

inductive RType where
  | value (tyName : String) (comparable : Bool)
  | tuple (tyName : String) (fields : List RType)
  | array (tyName : String) (elem : RType) (size : Nat)
  | list (tyName : String) (elem : RType)
  | map (tyName : String) (key : RType) (val : RType)
  | tupleStruct (tyName : String) (fields : List RType)
  | struct (tyName : String) (fields : List (String × RType))
  | enum (tyName : String) (variants : List (String × VariantSig))

inductive VariantSig where
  | unit
  | tuple (fields : List RType)
  | struct (fields : List (String × RType))

end

/-- Variant lookup by name in an enum type's variant list. -/
def sigGet : List (String × VariantSig) → String → Option VariantSig
  | [], _ => none
  | (n, s) :: rest, name => if n == name then some s else sigGet rest name

mutual

def WellTyped : RValue → RType → Bool
  | .value tn _ c, .value tn' c' => tn == tn' && c == c'
  | .tuple tn fs, .tuple tn' ts => tn == tn' && wtList fs ts
  | .array tn es, .array tn' t n => tn == tn' && es.length == n && wtAll es t
  | .list tn es, .list tn' t => tn == tn' && wtAll es t
  | .map tn es, .map tn' kt vt => tn == tn' && nodupKeys es && wtPairs es kt vt
  | .tupleStruct tn fs, .tupleStruct tn' ts => tn == tn' && wtList fs ts
  | .struct tn fs, .struct tn' ts => tn == tn' && nodupNames fs && wtNamed fs ts
  | .enumUnit tn vn, .enum tn' vars =>
      tn == tn' &&
        match sigGet vars vn with
        | some .unit => true
        | _ => false
  | .enumTuple tn vn fs, .enum tn' vars =>
      tn == tn' &&
        match sigGet vars vn with
        | some (.tuple ts) => wtList fs ts
        | _ => false
  | .enumStruct tn vn fs, .enum tn' vars =>
      tn == tn' &&
        match sigGet vars vn with
        | some (.struct ts) => nodupNames fs && wtNamed fs ts
        | _ => false
  | _, _ => false

def wtList : List RValue → List RType → Bool
  | [], [] => true
  | v :: vs, t :: ts => WellTyped v t && wtList vs ts
  | _, _ => false

def wtAll : List RValue → RType → Bool
  | [], _ => true
  | v :: vs, t => WellTyped v t && wtAll vs t

def wtPairs : List (RValue × RValue) → RType → RType → Bool
  | [], _, _ => true
  | (k, v) :: rest, kt, vt => WellTyped k kt && WellTyped v vt && wtPairs rest kt vt

def wtNamed : List (String × RValue) → List (String × RType) → Bool
  | [], [] => true
  | (n, v) :: fs, (n', t) :: ts => n == n' && WellTyped v t && wtNamed fs ts
  | _, _ => false

end


/-!
Small rewrite lemmas for the `Except` monad operations, used to unfold the
`do` blocks of the diff and apply routines in proofs.
-/

theorem bindOk {α β ε : Type} (a : α) (f : α → Except ε β) :
    (Except.ok a >>= f) = f a := rfl

theorem bindErr {α β ε : Type} (e : ε) (f : α → Except ε β) :
    ((Except.error e : Except ε α) >>= f) = Except.error e := rfl

theorem mapOk {α β ε : Type} (a : α) (f : α → β) :
    (f <$> (Except.ok a : Except ε α)) = Except.ok (f a) := rfl

theorem mapErr {α β ε : Type} (e : ε) (f : α → β) :
    (f <$> (Except.error e : Except ε α)) = Except.error e := rfl

theorem pureOk {α ε : Type} (a : α) :
    (pure a : Except ε α) = Except.ok a := rfl

/-!
Claim theorems.
-/

/-- C10: for every `DynamicTuple`, any element insertion (`insert` or
`insert_boxed`) clears the represented-type tag: afterwards
`get_represented_type_info()` is `None` and `type_name()` is the synthesized
name built from the current elements' type names, even when
`set_represented_type` had previously been called with a concrete tuple
type. -/
theorem dynamicTuple_insert_clears_represented_type :
    ∀ (dt : DynamicTuple) (v : RValue) (info : TypeInfo),
      (dt.insertBoxed v).getRepresentedTypeInfo = none ∧
      (dt.insertBoxed v).typeName = generateName (dt.fields ++ [v]) ∧
      (dt.insert v).getRepresentedTypeInfo = none ∧
      (dt.insert v).typeName = generateName (dt.fields ++ [v]) ∧
      ((dt.setRepresentedType (some info)).insertBoxed v).getRepresentedTypeInfo = none ∧
      ((dt.setRepresentedType (some info)).insertBoxed v).typeName
        = generateName (dt.fields ++ [v]) := by
  intro dt v info
  refine ⟨rfl, rfl, rfl, rfl, rfl, rfl⟩

/-- C8: applying a `NoChange` diff returns the base unchanged, and applying a
`Replaced(value)` diff returns the carried value, discarding the base
entirely. -/
theorem apply_noChange_identity_replaced_carries :
    ∀ (base v : RValue),
      Diff.apply Diff.noChange base = .ok base ∧
      Diff.apply (Diff.replaced v) base = .ok v := by
  intro base v
  constructor
  · simp [Diff.apply]
  · simp [Diff.apply]

/-- C9: applying a `Modified` diff to a base whose shape does not match the
delta's shape tag returns the corresponding `Expected<Shape>` error rather
than a value. -/
theorem apply_shape_mismatch_expected_error :
    ∀ (dt : DiffType) (base : RValue), RValue.kind base ≠ DiffType.kind dt →
      Diff.apply (Diff.modified dt) base = .error (expectedErr (DiffType.kind dt)) := by
  intro dt base h
  cases dt with
  | enum e =>
    cases e <;> cases base <;>
      simp_all [Diff.apply, applyDiffType, RValue.kind, DiffType.kind, expectedErr]
  | _ =>
    cases base <;>
      simp_all [Diff.apply, applyDiffType, RValue.kind, DiffType.kind, expectedErr]

/-- C9 witness: a `Value` delta applied to a tuple base yields
`ExpectedValue`. -/
theorem apply_shape_mismatch_expected_error_witness :
    RValue.kind (RValue.tuple "t" []) ≠ DiffType.kind (DiffType.value (RValue.value "i32" 1 true)) ∧
      Diff.apply (Diff.modified (DiffType.value (RValue.value "i32" 1 true)))
        (RValue.tuple "t" []) = .error DiffApplyError.expectedValue :=
  ⟨by simp [RValue.kind, DiffType.kind],
    apply_shape_mismatch_expected_error _ _ (by simp [RValue.kind, DiffType.kind])⟩

/-- C2 (divergence witness): for the unit variants `A` and `B` of one enum
type, `diff_enum` in the sources returns `Diff::Replaced` — the source
`EnumDiff` has no `Swapped` variant at all — while the repository's own test
`should_diff_unit_variant` (and the spec) demand
`Diff::Modified(DiffType::Enum(EnumDiff::Swapped(..)))`. -/
theorem diff_unit_variant_switch_is_replaced :
    diff (RValue.enumUnit "Foo" "A") (RValue.enumUnit "Foo" "B")
      = .ok (Diff.replaced (RValue.enumUnit "Foo" "B")) := by
  simp [diff]


/-- A leaf `i32` value (used by the concrete test vectors). -/
def iv (n : Int) : RValue := RValue.value "i32" n true

theorem diffFields_spec :
    ∀ {os ns : List RValue} {ds : List Diff}, diffFields os ns = .ok ds →
      ds.length = min os.length ns.length ∧
      ∀ k (h1 : k < os.length) (h2 : k < ns.length) (h3 : k < ds.length),
        diff (os.get ⟨k, h1⟩) (ns.get ⟨k, h2⟩) = .ok (ds.get ⟨k, h3⟩) := by
  intro os
  induction os with
  | nil =>
    intro ns ds h
    simp [diffFields] at h
    subst h
    simp
  | cons o os ih =>
    intro ns ds h
    cases ns with
    | nil =>
      simp [diffFields] at h
      subst h
      simp
    | cons n ns =>
      rw [diffFields] at h
      cases hd : diff o n with
      | error e => rw [hd] at h; simp [bindErr] at h
      | ok d =>
        rw [hd] at h
        cases hds : diffFields os ns with
        | error e => rw [hds] at h; simp [bindOk, bindErr, mapErr] at h
        | ok ds' =>
          rw [hds] at h
          simp only [bindOk, mapOk, pureOk, Except.ok.injEq] at h
          subst h
          obtain ⟨hlen, hpt⟩ := ih hds
          constructor
          · simp [hlen]
            omega
          · intro k h1 h2 h3
            cases k with
            | zero => simpa using hd
            | succ k =>
              simp only [List.get_cons_succ]
              exact hpt k (by simpa using h1) (by simpa using h2) (by simpa using h3)

/-- C5: for tuples of equal type identity, equal field count and at least one
differing position, `diff_tuple` returns `Modified` carrying exactly one
sub-diff per position in order (`NoChange` entries retained); differing field
counts give `Replaced`, and all-`NoChange` positions give `NoChange`.  The
test vector `diff((1,2,3), (1,0,3))` yields exactly
`[NoChange, Modified(Value), NoChange]`. -/
theorem tuple_diff_positional (tn : String) (fs fs' : List RValue) :
    (fs.length ≠ fs'.length →
       diff (.tuple tn fs) (.tuple tn fs') = .ok (.replaced (.tuple tn fs'))) ∧
    (∀ ds, fs.length = fs'.length → diffFields fs fs' = .ok ds →
       diff (.tuple tn fs) (.tuple tn fs')
         = .ok (if ds.all Diff.isNoChange then Diff.noChange
                else Diff.modified (DiffType.tuple tn ds)) ∧
       ds.length = fs.length ∧
       ∀ k (h1 : k < fs.length) (h2 : k < fs'.length) (h3 : k < ds.length),
         diff (fs.get ⟨k, h1⟩) (fs'.get ⟨k, h2⟩) = .ok (ds.get ⟨k, h3⟩)) ∧
    diff (.tuple "(i32, i32, i32)" [iv 1, iv 2, iv 3])
        (.tuple "(i32, i32, i32)" [iv 1, iv 0, iv 3])
      = .ok (.modified (.tuple "(i32, i32, i32)"
          [Diff.noChange, Diff.modified (DiffType.value (iv 0)), Diff.noChange])) := by
  refine ⟨?_, ?_, ?_⟩
  · intro hne
    rw [diff]
    simp [hne]
  · intro ds hlen hds
    obtain ⟨hdslen, hpt⟩ := diffFields_spec hds
    refine ⟨?_, by omega, hpt⟩
    rw [diff]
    simp [hlen, hds, bindOk, mapOk, pureOk]
    split <;> rfl
  · simp [diff, diffFields, iv, reflectPartialEq, RValue.typeName, bindOk, mapOk,
      pureOk, Diff.isNoChange]

/-- C5 witness: instantiation of the positional tuple-diff theorem at
concrete inputs, discharging its hypotheses by evaluation. -/
theorem tuple_diff_positional_witness :
    diff (.tuple "t" [iv 1, iv 2]) (.tuple "t" [iv 1, iv 9])
      = .ok (.modified (.tuple "t" [Diff.noChange, Diff.modified (DiffType.value (iv 9))])) ∧
    diff (.tuple "t" [iv 1]) (.tuple "t" [iv 1, iv 2]) = .ok (.replaced (.tuple "t" [iv 1, iv 2])) := by
  constructor
  · have h := ((tuple_diff_positional "t" [iv 1, iv 2] [iv 1, iv 9]).2.1
      [Diff.noChange, Diff.modified (DiffType.value (iv 9))] (by simp)
      (by simp [diffFields, diff, iv, reflectPartialEq, RValue.typeName, bindOk, mapOk, pureOk])).1
    simpa [Diff.isNoChange] using h
  · exact (tuple_diff_positional "t" [iv 1] [iv 1, iv 2]).1 (by simp)


theorem diffNamedFields_spec :
    ∀ {fs : List (String × RValue)} {fs' : List (String × RValue)} {ds : List (String × Diff)},
      diffNamedFields fs fs' = .ok ds →
      ds.map Prod.fst = fs.map Prod.fst ∧
      List.Forall₂ (fun (nv : String × RValue) (nd : String × Diff) =>
        nv.1 = nd.1 ∧ ∃ nv', namedGet fs' nv.1 = some nv' ∧ diff nv.2 nv' = .ok nd.2) fs ds := by
  intro fs
  induction fs with
  | nil =>
    intro fs' ds h
    simp [diffNamedFields] at h
    subst h
    simp
  | cons nv fs ih =>
    intro fs' ds h
    obtain ⟨n, v⟩ := nv
    rw [diffNamedFields] at h
    cases hg : namedGet fs' n with
    | none => rw [hg] at h; simp at h
    | some nv' =>
      rw [hg] at h
      dsimp only at h
      cases hd : diff v nv' with
      | error e => rw [hd] at h; simp [bindErr] at h
      | ok d =>
        rw [hd] at h
        cases hds : diffNamedFields fs fs' with
        | error e => rw [hds] at h; simp [bindOk, bindErr] at h
        | ok ds' =>
          rw [hds] at h
          simp only [bindOk, pureOk, Except.ok.injEq] at h
          subst h
          obtain ⟨hnames, hpt⟩ := ih hds
          refine ⟨by simp [hnames], ?_⟩
          exact List.Forall₂.cons ⟨rfl, nv', hg, hd⟩ hpt

theorem diffNamedFields_missing :
    ∀ {fs fs' : List (String × RValue)},
      (∀ nv ∈ fs, ∀ v', namedGet fs' (Prod.fst nv) = some v' →
        ∃ d, diff (Prod.snd nv) v' = .ok d) →
      (∃ nv ∈ fs, namedGet fs' (Prod.fst nv) = none) →
      diffNamedFields fs fs' = .error .missingField := by
  intro fs
  induction fs with
  | nil =>
    intro fs' _ habs
    simp at habs
  | cons nv fs ih =>
    intro fs' hok habs
    obtain ⟨n, v⟩ := nv
    rw [diffNamedFields]
    cases hg : namedGet fs' n with
    | none => rfl
    | some nv' =>
      dsimp only
      obtain ⟨d, hd⟩ := hok (n, v) (by simp) nv' hg
      dsimp only at hd
      rw [hd]
      have hmiss : ∃ nv ∈ fs, namedGet fs' (Prod.fst nv) = none := by
        obtain ⟨x, hx, hxn⟩ := habs
        rcases List.mem_cons.mp hx with h | h
        · subst h; simp [hg] at hxn
        · exact ⟨x, h, hxn⟩
      rw [bindOk, ih (fun x hx => hok x (by simp [hx])) hmiss]
      rfl

/-- C6: when two structs share their type identity, a field of `old` (in
declaration order) with no same-named field in `new` makes `diff_struct`
return the `MissingField` error; otherwise every old field is recursively
diffed against the same-named new field, with the per-field diffs recorded in
old's declaration order. -/
theorem struct_diff_missing_field_and_order (tn : String) (fs fs' : List (String × RValue)) :
    ((∀ nv ∈ fs, ∀ v', namedGet fs' (Prod.fst nv) = some v' →
        ∃ d, diff (Prod.snd nv) v' = .ok d) →
     (∃ nv ∈ fs, namedGet fs' (Prod.fst nv) = none) →
     diff (.struct tn fs) (.struct tn fs') = .error .missingField) ∧
    (∀ ds, diffNamedFields fs fs' = .ok ds →
       diff (.struct tn fs) (.struct tn fs')
         = .ok (if (ds.map Prod.snd).all Diff.isNoChange then Diff.noChange
                else .modified (.struct tn ds)) ∧
       ds.map Prod.fst = fs.map Prod.fst ∧
       List.Forall₂ (fun (nv : String × RValue) (nd : String × Diff) =>
         nv.1 = nd.1 ∧ ∃ nv', namedGet fs' nv.1 = some nv' ∧ diff nv.2 nv' = .ok nd.2) fs ds) := by
  constructor
  · intro hok hmiss
    rw [diff]
    simp [diffNamedFields_missing hok hmiss, bindErr]
  · intro ds hds
    obtain ⟨hnames, hpt⟩ := diffNamedFields_spec hds
    refine ⟨?_, hnames, hpt⟩
    rw [diff]
    simp [hds, bindOk, pureOk]
    split <;> rfl

/-- C6 witness: instantiation of the struct-diff theorem at concrete inputs,
discharging its hypotheses by evaluation. -/
theorem struct_diff_missing_field_and_order_witness :
    diff (.struct "S" [("a", iv 1)]) (.struct "S" [("b", iv 1)]) = .error .missingField ∧
    diff (.struct "S" [("a", iv 1)]) (.struct "S" [("a", iv 2)])
      = .ok (.modified (.struct "S" [("a", Diff.modified (DiffType.value (iv 2)))])) := by
  constructor
  · exact (struct_diff_missing_field_and_order "S" [("a", iv 1)] [("b", iv 1)]).1
      (by simp [namedGet]) ⟨("a", iv 1), by simp, by simp [namedGet]⟩
  · have h := ((struct_diff_missing_field_and_order "S" [("a", iv 1)] [("a", iv 2)]).2
      [("a", Diff.modified (DiffType.value (iv 2)))]
      (by simp [diffNamedFields, namedGet, diff, iv, reflectPartialEq, RValue.typeName,
        bindOk, pureOk])).1
    simpa [Diff.isNoChange] using h


/-- The key targeted by a map edit. -/
def MapDiff.key : MapDiff → RValue
  | .deleted k => k
  | .inserted k _ => k
  | .modified k _ => k

theorem mapGet_isSome_of_mem {es : List (RValue × RValue)} {k v : RValue}
    (h : (k, v) ∈ es) : (mapGet es k).isSome := by
  induction es with
  | nil => simp at h
  | cons e rest ih =>
    obtain ⟨k', v'⟩ := e
    rw [mapGet]
    by_cases hb : RValue.beq k' k = true
    · simp [hb]
    · simp only [hb, if_false]
      rcases List.mem_cons.mp h with he | he
      · exfalso
        simp only [Prod.mk.injEq] at he
        rw [← he.1] at hb
        simp [RValue.beq_refl] at hb
      · exact ih he

theorem nodupKeys_unique {es : List (RValue × RValue)} {k v v' : RValue}
    (hnd : nodupKeys es = true) (h1 : (k, v) ∈ es) (h2 : (k, v') ∈ es) : v = v' := by
  induction es with
  | nil => simp at h1
  | cons e rest ih =>
    obtain ⟨k0, v0⟩ := e
    rw [nodupKeys] at hnd
    simp only [Bool.and_eq_true, Bool.not_eq_true'] at hnd
    obtain ⟨hany, hnd'⟩ := hnd
    rcases List.mem_cons.mp h1 with ha | ha <;> rcases List.mem_cons.mp h2 with hb | hb
    · simp only [Prod.mk.injEq] at ha hb
      exact ha.2.trans hb.2.symm
    · exfalso
      simp only [Prod.mk.injEq] at ha
      have hk : RValue.beq k k0 = true := (RValue.beq_iff k k0).mpr ha.1
      have : (rest.any fun kv => RValue.beq (Prod.fst kv) k0) = true :=
        List.any_eq_true.mpr ⟨(k, v'), hb, hk⟩
      simp [this] at hany
    · exfalso
      simp only [Prod.mk.injEq] at hb
      have hk : RValue.beq k k0 = true := (RValue.beq_iff k k0).mpr hb.1
      have : (rest.any fun kv => RValue.beq (Prod.fst kv) k0) = true :=
        List.any_eq_true.mpr ⟨(k, v), ha, hk⟩
      simp [this] at hany
    · exact ih hnd' ha hb

theorem diffMapEntries_spec :
    ∀ {es es' : List (RValue × RValue)} {cs : List MapDiff},
      diffMapEntries es es' = .ok cs →
      ((∀ k v, (k, v) ∈ es → mapGet es' k = none → MapDiff.deleted k ∈ cs) ∧
       (∀ k v nv d, (k, v) ∈ es → mapGet es' k = some nv → diff v nv = .ok d →
          d.isNoChange = false → MapDiff.modified k d ∈ cs) ∧
       (∀ c ∈ cs,
          (∃ k v, (k, v) ∈ es ∧ mapGet es' k = none ∧ c = MapDiff.deleted k) ∨
          (∃ k v nv d, (k, v) ∈ es ∧ mapGet es' k = some nv ∧ diff v nv = .ok d ∧
            d.isNoChange = false ∧ c = MapDiff.modified k d))) := by
  intro es
  induction es with
  | nil =>
    intro es' cs h
    simp [diffMapEntries] at h
    subst h
    simp
  | cons e es ih =>
    intro es' cs h
    obtain ⟨k0, v0⟩ := e
    rw [diffMapEntries] at h
    cases hg : mapGet es' k0 with
    | none =>
      rw [hg] at h
      dsimp only at h
      cases hrest : diffMapEntries es es' with
      | error e0 => rw [hrest] at h; simp [bindErr] at h
      | ok rest =>
        rw [hrest] at h
        simp only [bindOk, pureOk, Except.ok.injEq] at h
        subst h
        obtain ⟨ihdel, ihmod, ihcomp⟩ := ih hrest
        refine ⟨?_, ?_, ?_⟩
        · intro k v hm hn
          rcases List.mem_cons.mp hm with hh | hh
          · simp only [Prod.mk.injEq] at hh
            simp [hh.1]
          · exact List.mem_cons_of_mem _ (ihdel k v hh hn)
        · intro k v nv d hm hnv hd hnc
          rcases List.mem_cons.mp hm with hh | hh
          · simp only [Prod.mk.injEq] at hh
            rw [hh.1] at hnv
            rw [hnv] at hg
            cases hg
          · exact List.mem_cons_of_mem _ (ihmod k v nv d hh hnv hd hnc)
        · intro c hc
          rcases List.mem_cons.mp hc with hh | hh
          · exact Or.inl ⟨k0, v0, by simp, hg, hh⟩
          · rcases ihcomp c hh with ⟨k, v, hm, hn, hcc⟩ | ⟨k, v, nv, d, hm, hnv, hd, hnc, hcc⟩
            · exact Or.inl ⟨k, v, List.mem_cons_of_mem _ hm, hn, hcc⟩
            · exact Or.inr ⟨k, v, nv, d, List.mem_cons_of_mem _ hm, hnv, hd, hnc, hcc⟩
    | some nv0 =>
      rw [hg] at h
      dsimp only at h
      cases hd0 : diff v0 nv0 with
      | error e0 => rw [hd0] at h; simp [bindErr] at h
      | ok d0 =>
        rw [hd0] at h
        cases hrest : diffMapEntries es es' with
        | error e0 => rw [hrest] at h; simp [bindOk, bindErr] at h
        | ok rest =>
          rw [hrest] at h
          simp only [bindOk] at h
          obtain ⟨ihdel, ihmod, ihcomp⟩ := ih hrest
          have hsplit : cs = (if d0.isNoChange then rest else MapDiff.modified k0 d0 :: rest) := by
            by_cases hnc : d0.isNoChange = true
            · simp [hnc, pureOk] at h
              simp [hnc, ← h]
            · simp only [Bool.not_eq_true] at hnc
              simp [hnc, pureOk] at h
              simp [hnc, ← h]
          subst hsplit
          refine ⟨?_, ?_, ?_⟩
          · intro k v hm hn
            rcases List.mem_cons.mp hm with hh | hh
            · simp only [Prod.mk.injEq] at hh
              rw [hh.1] at hn
              rw [hn] at hg
              cases hg
            · have := ihdel k v hh hn
              split <;> [exact this; exact List.mem_cons_of_mem _ this]
          · intro k v nv d hm hnv hd hnc
            rcases List.mem_cons.mp hm with hh | hh
            · simp only [Prod.mk.injEq] at hh
              obtain ⟨hk, hv⟩ := hh
              subst hk
              subst hv
              rw [hg] at hnv
              injection hnv with hnveq
              subst hnveq
              rw [hd] at hd0
              injection hd0 with hdeq
              subst hdeq
              simp [hnc]
            · have := ihmod k v nv d hh hnv hd hnc
              split <;> [exact this; exact List.mem_cons_of_mem _ this]
          · intro c hc
            have hcomp' : ∀ c ∈ rest, _ := fun c hc => ihcomp c hc
            by_cases hnc : d0.isNoChange = true
            · rw [if_pos hnc] at hc
              rcases ihcomp c hc with ⟨k, v, hm, hn, hcc⟩ | ⟨k, v, nv, d, hm, hnv, hd, hnc2, hcc⟩
              · exact Or.inl ⟨k, v, List.mem_cons_of_mem _ hm, hn, hcc⟩
              · exact Or.inr ⟨k, v, nv, d, List.mem_cons_of_mem _ hm, hnv, hd, hnc2, hcc⟩
            · simp only [Bool.not_eq_true] at hnc
              rw [if_neg (by simp [hnc])] at hc
              rcases List.mem_cons.mp hc with hh | hh
              · exact Or.inr ⟨k0, v0, nv0, d0, by simp, hg, hd0, hnc, hh⟩
              · rcases ihcomp c hh with ⟨k, v, hm, hn, hcc⟩ | ⟨k, v, nv, d, hm, hnv, hd, hnc2, hcc⟩
                · exact Or.inl ⟨k, v, List.mem_cons_of_mem _ hm, hn, hcc⟩
                · exact Or.inr ⟨k, v, nv, d, List.mem_cons_of_mem _ hm, hnv, hd, hnc2, hcc⟩

theorem mapInsertedChanges_mem {es es' : List (RValue × RValue)} {c : MapDiff} :
    c ∈ mapInsertedChanges es es' ↔
      ∃ k v, (k, v) ∈ es' ∧ mapGet es k = none ∧ c = MapDiff.inserted k v := by
  simp only [mapInsertedChanges, List.mem_map, List.mem_filter]
  constructor
  · rintro ⟨⟨k, v⟩, ⟨hm, hn⟩, rfl⟩
    exact ⟨k, v, hm, by simpa [Option.isNone_iff_eq_none] using hn, rfl⟩
  · rintro ⟨k, v, hm, hn, rfl⟩
    exact ⟨(k, v), ⟨hm, by simp [hn]⟩, rfl⟩


/-- C4: for two maps of equal type identity, the diff's edit set contains
exactly `Deleted(key)` for old keys absent from new, `Modified(key, diff)`
for old keys whose value diff is not `NoChange`, and `Inserted(key, value)`
for new-only keys; keys present in both with equal values produce no edit,
and an empty edit set yields `NoChange`.  The test vector
`diff({1:111,2:222,3:333}, {3:333,1:111,4:444,2:222})` yields exactly one
edit, `Inserted(4,444)`. -/
theorem map_diff_edit_set (tn : String) (es es' : List (RValue × RValue))
    (cs : List MapDiff) (hnd : nodupKeys es = true)
    (hcs : diffMapEntries es es' = .ok cs) :
    ∀ changes, changes = cs ++ mapInsertedChanges es es' →
    (diff (.map tn es) (.map tn es')
       = .ok (if changes.isEmpty then Diff.noChange
              else Diff.modified (DiffType.map tn changes)) ∧
     (∀ k v, (k, v) ∈ es → mapGet es' k = none → MapDiff.deleted k ∈ changes) ∧
     (∀ k v nv d, (k, v) ∈ es → mapGet es' k = some nv → diff v nv = .ok d →
        d.isNoChange = false → MapDiff.modified k d ∈ changes) ∧
     (∀ k v nv, (k, v) ∈ es → mapGet es' k = some nv → diff v nv = .ok Diff.noChange →
        ∀ c ∈ changes, MapDiff.key c ≠ k) ∧
     (∀ k v, (k, v) ∈ es' → mapGet es k = none → MapDiff.inserted k v ∈ changes) ∧
     (∀ c ∈ changes,
        (∃ k v, (k, v) ∈ es ∧ mapGet es' k = none ∧ c = MapDiff.deleted k) ∨
        (∃ k v nv d, (k, v) ∈ es ∧ mapGet es' k = some nv ∧ diff v nv = .ok d ∧
          d.isNoChange = false ∧ c = MapDiff.modified k d) ∨
        (∃ k v, (k, v) ∈ es' ∧ mapGet es k = none ∧ c = MapDiff.inserted k v))) := by
  intro changes hch
  obtain ⟨hdel, hmod, hcomp⟩ := diffMapEntries_spec hcs
  subst hch
  refine ⟨?_, ?_, ?_, ?_, ?_, ?_⟩
  · rw [diff]
    simp [hcs, bindOk, pureOk]
    split <;> rfl
  · intro k v hm hn
    exact List.mem_append_left _ (hdel k v hm hn)
  · intro k v nv d hm hnv hd hnc
    exact List.mem_append_left _ (hmod k v nv d hm hnv hd hnc)
  · intro k v nv hm hnv hd c hc heq
    rcases List.mem_append.mp hc with hc | hc
    · rcases hcomp c hc with ⟨k1, v1, hm1, hn1, hcc⟩ | ⟨k1, v1, nv1, d1, hm1, hnv1, hd1, hnc1, hcc⟩
      · subst hcc
        simp only [MapDiff.key] at heq
        subst heq
        rw [hn1] at hnv
        cases hnv
      · subst hcc
        simp only [MapDiff.key] at heq
        subst heq
        have hveq : v1 = v := nodupKeys_unique hnd hm1 hm
        subst hveq
        rw [hnv1] at hnv
        injection hnv with hnveq
        subst hnveq
        rw [hd1] at hd
        injection hd with hdeq
        subst hdeq
        simp [Diff.isNoChange] at hnc1
    · rcases mapInsertedChanges_mem.mp hc with ⟨k1, v1, hm1, hn1, hcc⟩
      subst hcc
      simp only [MapDiff.key] at heq
      subst heq
      have := mapGet_isSome_of_mem hm
      rw [hn1] at this
      simp at this
  · intro k v hm hn
    exact List.mem_append_right _ (mapInsertedChanges_mem.mpr ⟨k, v, hm, hn, rfl⟩)
  · intro c hc
    rcases List.mem_append.mp hc with hc | hc
    · rcases hcomp c hc with ⟨k, v, hm, hn, hcc⟩ | ⟨k, v, nv, d, hm, hnv, hd, hnc, hcc⟩
      · exact Or.inl ⟨k, v, hm, hn, hcc⟩
      · exact Or.inr (Or.inl ⟨k, v, nv, d, hm, hnv, hd, hnc, hcc⟩)
    · rcases mapInsertedChanges_mem.mp hc with ⟨k, v, hm, hn, hcc⟩
      exact Or.inr (Or.inr ⟨k, v, hm, hn, hcc⟩)

/-- C4 witness: instantiation of the map edit-set theorem at the spec's test
vector `diff({1:111,2:222,3:333}, {3:333,1:111,4:444,2:222})`, whose edit set
is exactly one `Inserted(4,444)`; all hypotheses are discharged by
evaluation. -/
theorem map_diff_edit_set_witness :
    diff (.map "m" [(iv 1, iv 111), (iv 2, iv 222), (iv 3, iv 333)])
        (.map "m" [(iv 3, iv 333), (iv 1, iv 111), (iv 4, iv 444), (iv 2, iv 222)])
      = .ok (.modified (.map "m" [MapDiff.inserted (iv 4) (iv 444)])) ∧
    MapDiff.inserted (iv 4) (iv 444) ∈ ([MapDiff.inserted (iv 4) (iv 444)] : List MapDiff) := by
  have h := map_diff_edit_set "m"
      [(iv 1, iv 111), (iv 2, iv 222), (iv 3, iv 333)]
      [(iv 3, iv 333), (iv 1, iv 111), (iv 4, iv 444), (iv 2, iv 222)]
      []
      (by simp [nodupKeys, RValue.beq, iv])
      (by simp [diffMapEntries, mapGet, RValue.beq, iv, diff, reflectPartialEq,
        RValue.typeName, bindOk, pureOk, Diff.isNoChange])
      [MapDiff.inserted (iv 4) (iv 444)]
      (by simp [mapInsertedChanges, mapGet, RValue.beq, iv])
  refine ⟨?_, by simp⟩
  have h1 := h.1
  simpa using h1


/-- Whether the recursive structural diff of two elements is `NoChange`
(the element equality of the list diff). -/
def noChangeB (a b : RValue) : Bool :=
  match diff a b with
  | .ok d => d.isNoChange
  | .error _ => false

theorem diffRow_getD :
    ∀ {bs : List RValue} (a : RValue) (j : Nat) (h : j < bs.length),
      (diffRow a bs).getD j false = noChangeB a (bs.get ⟨j, h⟩) := by
  intro bs
  induction bs with
  | nil => intro a j h; simp at h
  | cons b bs ih =>
    intro a j h
    cases j with
    | zero => rw [diffRow]; simp [noChangeB]
    | succ j => rw [diffRow]; simpa using ih a j (by simpa using h)

theorem diffMatrix_getD :
    ∀ {es : List RValue} (es' : List RValue) (i : Nat) (h : i < es.length),
      (diffMatrix es es').getD i [] = diffRow (es.get ⟨i, h⟩) es' := by
  intro es
  induction es with
  | nil => intro es' i h; simp at h
  | cons e es ih =>
    intro es' i h
    cases i with
    | zero => rw [diffMatrix]; simp
    | succ i => rw [diffMatrix]; simpa using ih es' i (by simpa using h)

theorem findIdx_beq_of_mem :
    ∀ {es : List RValue} {a : RValue}, a ∈ es →
      ∃ i, es.findIdx? (fun x => RValue.beq x a) = some i ∧
        ∃ h : i < es.length, es.get ⟨i, h⟩ = a := by
  intro es
  induction es with
  | nil => intro a h; simp at h
  | cons e es ih =>
    intro a h
    by_cases hb : RValue.beq e a = true
    · exact ⟨0, by simp [List.findIdx?_cons, hb], by simp, (RValue.beq_iff e a).mp hb⟩
    · have hmem : a ∈ es := by
        rcases List.mem_cons.mp h with he | he
        · exact absurd ((RValue.beq_iff e a).mpr he.symm) hb
        · exact he
      obtain ⟨i, hfind, hlt, hget⟩ := ih hmem
      refine ⟨i + 1, ?_, by simpa using hlt, by simpa using hget⟩
      simp [List.findIdx?_cons, hb, hfind]

/-- On elements of the two lists, the table-backed equality of the list diff
is exactly "the recursive diff is `NoChange`". -/
theorem tableEq_spec {es es' : List RValue} {a b : RValue}
    (ha : a ∈ es) (hb : b ∈ es') :
    tableEq es es' (diffMatrix es es') a b = noChangeB a b := by
  obtain ⟨i, hfi, hlt, hget⟩ := findIdx_beq_of_mem ha
  obtain ⟨j, hfj, hlt', hget'⟩ := findIdx_beq_of_mem hb
  rw [tableEq, hfi, hfj]
  dsimp only
  rw [diffMatrix_getD es' i hlt, diffRow_getD _ j hlt', hget, hget']

theorem dist_self {eq : RValue → RValue → Bool} :
    ∀ {l : List RValue}, (∀ a ∈ l, eq a a = true) → dist eq l l = 0 := by
  intro l
  induction l with
  | nil => intro _; rw [dist]; simp
  | cons x xs ih =>
    intro h
    rw [dist]
    simp [h x (by simp), ih (fun a ha => h a (by simp [ha]))]

theorem script_self {eq : RValue → RValue → Bool} :
    ∀ {l : List RValue}, (∀ a ∈ l, eq a a = true) →
      ∀ i, myersScript eq l l i = [] := by
  intro l
  induction l with
  | nil => intro _ i; rw [myersScript]; simp
  | cons x xs ih =>
    intro h i
    rw [myersScript]
    have h0 : dist eq xs xs = 0 := dist_self (fun a ha => h a (by simp [ha]))
    have h1 : dist eq (x :: xs) (x :: xs) = 0 := dist_self h
    rw [if_pos ⟨h x (by simp), by rw [h0, h1]⟩]
    exact ih (fun a ha => h a (by simp [ha])) (i + 1)

theorem diffFields_self :
    ∀ {fs : List RValue}, (∀ x ∈ fs, diff x x = .ok .noChange) →
      diffFields fs fs = .ok (List.replicate fs.length Diff.noChange) := by
  intro fs
  induction fs with
  | nil => intro _; rw [diffFields]; rfl
  | cons x xs ih =>
    intro h
    rw [diffFields, h x (by simp), bindOk, ih (fun a ha => h a (by simp [ha])), bindOk]
    simp [pureOk, List.replicate_succ]

theorem diffNamedFields_frame :
    ∀ {olds : List (String × RValue)} {news : List (String × RValue)} {n : String} {v : RValue},
      (∀ nv ∈ olds, (Prod.fst nv == n) = false) →
      diffNamedFields olds ((n, v) :: news) = diffNamedFields olds news := by
  intro olds
  induction olds with
  | nil => intro news n v _; rw [diffNamedFields, diffNamedFields]
  | cons nv olds ih =>
    intro news n v h
    obtain ⟨n1, v1⟩ := nv
    have hne : (n == n1) = false := by
      have := h (n1, v1) (by simp)
      simp at this ⊢
      exact fun he => this he.symm
    rw [diffNamedFields, diffNamedFields]
    rw [show namedGet ((n, v) :: news) n1 = namedGet news n1 by rw [namedGet]; simp [hne]]
    cases namedGet news n1 with
    | none => rfl
    | some nv' =>
      dsimp only
      rw [ih (fun x hx => h x (by simp [hx]))]

theorem diffMapEntries_frame :
    ∀ {olds : List (RValue × RValue)} {news : List (RValue × RValue)} {k v : RValue},
      (∀ kv ∈ olds, RValue.beq (Prod.fst kv) k = false) →
      diffMapEntries olds ((k, v) :: news) = diffMapEntries olds news := by
  intro olds
  induction olds with
  | nil => intro news k v _; rw [diffMapEntries, diffMapEntries]
  | cons kv olds ih =>
    intro news k v h
    obtain ⟨k1, v1⟩ := kv
    have hne : RValue.beq k k1 = false := by
      have h1 := h (k1, v1) (by simp)
      by_cases hb : RValue.beq k k1 = true
      · rw [(RValue.beq_iff k k1).mp hb] at h1
        rw [RValue.beq_refl] at h1
        cases h1
      · simpa using hb
    rw [diffMapEntries, diffMapEntries]
    rw [show mapGet ((k, v) :: news) k1 = mapGet news k1 by rw [mapGet]; simp [hne]]
    cases mapGet news k1 with
    | none =>
      dsimp only
      rw [ih (fun x hx => h x (by simp [hx]))]
    | some nv =>
      dsimp only
      rw [ih (fun x hx => h x (by simp [hx]))]

theorem diffNamedFields_self :
    ∀ {fs : List (String × RValue)}, nodupNames fs = true →
      (∀ nv ∈ fs, diff (Prod.snd nv) (Prod.snd nv) = .ok .noChange) →
      diffNamedFields fs fs = .ok (fs.map (fun nv => (Prod.fst nv, Diff.noChange))) := by
  intro fs
  induction fs with
  | nil => intro _ _; rw [diffNamedFields]; simp
  | cons nv fs ih =>
    intro hnd h
    obtain ⟨n, v⟩ := nv
    rw [nodupNames] at hnd
    simp only [Bool.and_eq_true, Bool.not_eq_true'] at hnd
    obtain ⟨hany, hnd'⟩ := hnd
    have hframe : ∀ x ∈ fs, (Prod.fst x == n) = false := by
      intro x hx
      by_cases hb : (Prod.fst x == n) = true
      · have hcon : (fs.any fun nv => Prod.fst nv == n) = true :=
          List.any_eq_true.mpr ⟨x, hx, hb⟩
        rw [hcon] at hany
        cases hany
      · simpa using hb
    rw [diffNamedFields]
    rw [show namedGet ((n, v) :: fs) n = some v by rw [namedGet]; simp]
    dsimp only
    rw [h (n, v) (by simp), bindOk, diffNamedFields_frame hframe,
      ih hnd' (fun x hx => h x (by simp [hx])), bindOk]
    simp [pureOk]

theorem diffMapEntries_self :
    ∀ {es : List (RValue × RValue)}, nodupKeys es = true →
      (∀ kv ∈ es, diff (Prod.snd kv) (Prod.snd kv) = .ok .noChange) →
      diffMapEntries es es = .ok [] := by
  intro es
  induction es with
  | nil => intro _ _; rw [diffMapEntries]
  | cons kv es ih =>
    intro hnd h
    obtain ⟨k, v⟩ := kv
    rw [nodupKeys] at hnd
    simp only [Bool.and_eq_true, Bool.not_eq_true'] at hnd
    obtain ⟨hany, hnd'⟩ := hnd
    have hframe : ∀ x ∈ es, RValue.beq (Prod.fst x) k = false := by
      intro x hx
      by_cases hb : RValue.beq (Prod.fst x) k = true
      · have hcon : (es.any fun kv => RValue.beq (Prod.fst kv) k) = true :=
          List.any_eq_true.mpr ⟨x, hx, hb⟩
        rw [hcon] at hany
        cases hany
      · simpa using hb
    rw [diffMapEntries]
    rw [show mapGet ((k, v) :: es) k = some v by rw [mapGet]; simp [RValue.beq_refl]]
    dsimp only
    rw [h (k, v) (by simp), bindOk, diffMapEntries_frame hframe,
      ih hnd' (fun x hx => h x (by simp [hx])), bindOk]
    simp [Diff.isNoChange, pureOk]

theorem mapInsertedChanges_self (es : List (RValue × RValue)) :
    mapInsertedChanges es es = [] := by
  rw [mapInsertedChanges]
  rw [List.filter_eq_nil_iff.mpr]
  · rfl
  · intro kv hkv
    obtain ⟨k, v⟩ := kv
    have hs := mapGet_isSome_of_mem hkv
    simp only [Option.isNone_eq_false_iff]
    intro hnone
    rw [Option.isNone_iff_eq_none] at hnone
    rw [hnone] at hs
    cases hs


theorem wfList_mem :
    ∀ {fs : List RValue}, wfList fs = true → ∀ x ∈ fs, WellFormed x = true := by
  intro fs
  induction fs with
  | nil => intro _ x hx; simp at hx
  | cons f fs ih =>
    intro h x hx
    rw [wfList] at h
    simp only [Bool.and_eq_true] at h
    rcases List.mem_cons.mp hx with he | he
    · rw [he]; exact h.1
    · exact ih h.2 x he

theorem wfPairs_mem :
    ∀ {es : List (RValue × RValue)}, wfPairs es = true →
      ∀ kv ∈ es, WellFormed (Prod.fst kv) = true ∧ WellFormed (Prod.snd kv) = true := by
  intro es
  induction es with
  | nil => intro _ kv hkv; simp at hkv
  | cons e es ih =>
    intro h kv hkv
    obtain ⟨k, v⟩ := e
    rw [wfPairs] at h
    simp only [Bool.and_eq_true] at h
    rcases List.mem_cons.mp hkv with he | he
    · rw [he]; exact ⟨h.1.1, h.1.2⟩
    · exact ih h.2 kv he

theorem wfNamed_mem :
    ∀ {fs : List (String × RValue)}, wfNamed fs = true →
      ∀ nv ∈ fs, WellFormed (Prod.snd nv) = true := by
  intro fs
  induction fs with
  | nil => intro _ nv hnv; simp at hnv
  | cons e fs ih =>
    intro h nv hnv
    obtain ⟨n, v⟩ := e
    rw [wfNamed] at h
    simp only [Bool.and_eq_true] at h
    rcases List.mem_cons.mp hnv with he | he
    · rw [he]; exact h.1
    · exact ih h.2 nv he

theorem replicate_noChange_all (n : Nat) :
    (List.replicate n Diff.noChange).all Diff.isNoChange = true := by
  rw [List.all_eq_true]
  intro d hd
  rw [List.eq_of_mem_replicate hd]
  rfl

theorem mapConst_noChange_all (fs : List (String × RValue)) :
    ((fs.map (fun nv => (Prod.fst nv, Diff.noChange))).map Prod.snd).all
      Diff.isNoChange = true := by
  rw [List.map_map, List.all_eq_true]
  intro d hd
  obtain ⟨x, hx, hxe⟩ := List.mem_map.mp hd
  rw [← hxe]
  rfl

/-- C7: for every well-formed value `v` whose type supports the equality
capability, `diff(v, v)` is `NoChange`; moreover the positional diff
routines return `NoChange` whenever every recursive sub-diff is `NoChange`,
and the map routine returns `NoChange` whenever no edit was emitted (no key
added, removed, or changed). -/
theorem diff_reflexive_noChange :
    (∀ v : RValue, WellFormed v = true → diff v v = .ok Diff.noChange) ∧
    (∀ tn (fs fs' : List RValue) ds, fs.length = fs'.length →
       diffFields fs fs' = .ok ds → ds.all Diff.isNoChange = true →
       diff (.tuple tn fs) (.tuple tn fs') = .ok Diff.noChange) ∧
    (∀ tn (es es' : List (RValue × RValue)), diffMapEntries es es' = .ok [] →
       mapInsertedChanges es es' = [] →
       diff (.map tn es) (.map tn es') = .ok Diff.noChange) := by
  refine ⟨?_, ?_, ?_⟩
  · intro v
    induction v using RValue.inductionOn with
    | hvalue tn p c =>
      intro h
      rw [WellFormed] at h
      rw [diff]
      rw [if_neg (by simp [RValue.typeName])]
      rw [reflectPartialEq, h]
      simp
    | htuple tn fs ih =>
      intro h
      rw [WellFormed] at h
      have hpt : ∀ x ∈ fs, diff x x = .ok .noChange :=
        fun x hx => ih x hx (wfList_mem h x hx)
      rw [diff]
      rw [if_neg (by simp)]
      rw [diffFields_self hpt, bindOk, if_pos (replicate_noChange_all _)]
      rfl
    | harray tn es ih =>
      intro h
      rw [WellFormed] at h
      have hpt : ∀ x ∈ es, diff x x = .ok .noChange :=
        fun x hx => ih x hx (wfList_mem h x hx)
      rw [diff]
      rw [if_neg (by simp)]
      rw [diffFields_self hpt, bindOk, if_pos (replicate_noChange_all _)]
      rfl
    | hlist tn es ih =>
      intro h
      rw [WellFormed] at h
      have hpt : ∀ x ∈ es, diff x x = .ok .noChange :=
        fun x hx => ih x hx (wfList_mem h x hx)
      have heq : ∀ a ∈ es, tableEq es es (diffMatrix es es) a a = true := by
        intro a ha
        rw [tableEq_spec ha ha, noChangeB, hpt a ha]
        rfl
      rw [diff]
      rw [if_neg (by simp)]
      rw [script_self heq 0]
      rfl
    | hmap tn es ih =>
      intro h
      rw [WellFormed] at h
      simp only [Bool.and_eq_true] at h
      have hpt : ∀ kv ∈ es, diff (Prod.snd kv) (Prod.snd kv) = .ok .noChange :=
        fun kv hkv => (ih kv hkv).2 ((wfPairs_mem h.2 kv hkv).2)
      rw [diff]
      rw [if_neg (by simp)]
      rw [diffMapEntries_self h.1 hpt, bindOk, mapInsertedChanges_self]
      rfl
    | htupleStruct tn fs ih =>
      intro h
      rw [WellFormed] at h
      have hpt : ∀ x ∈ fs, diff x x = .ok .noChange :=
        fun x hx => ih x hx (wfList_mem h x hx)
      rw [diff]
      rw [if_neg (by simp)]
      rw [diffFields_self hpt, bindOk, if_pos (replicate_noChange_all _)]
      rfl
    | hstruct tn fs ih =>
      intro h
      rw [WellFormed] at h
      simp only [Bool.and_eq_true] at h
      have hpt : ∀ nv ∈ fs, diff (Prod.snd nv) (Prod.snd nv) = .ok .noChange :=
        fun nv hnv => ih nv hnv (wfNamed_mem h.2 nv hnv)
      rw [diff]
      rw [if_neg (by simp)]
      rw [diffNamedFields_self h.1 hpt, bindOk, if_pos (mapConst_noChange_all _)]
      rfl
    | henumUnit tn vn =>
      intro _
      rw [diff]
      simp
    | henumTuple tn vn fs ih =>
      intro h
      rw [WellFormed] at h
      have hpt : ∀ x ∈ fs, diff x x = .ok .noChange :=
        fun x hx => ih x hx (wfList_mem h x hx)
      rw [diff]
      rw [if_neg (by simp)]
      rw [diffFields_self hpt, bindOk, if_pos (replicate_noChange_all _)]
      rfl
    | henumStruct tn vn fs ih =>
      intro h
      rw [WellFormed] at h
      simp only [Bool.and_eq_true] at h
      have hpt : ∀ nv ∈ fs, diff (Prod.snd nv) (Prod.snd nv) = .ok .noChange :=
        fun nv hnv => ih nv hnv (wfNamed_mem h.2 nv hnv)
      rw [diff]
      rw [if_neg (by simp)]
      rw [diffNamedFields_self h.1 hpt, bindOk, if_pos (mapConst_noChange_all _)]
      rfl
  · intro tn fs fs' ds hlen hds hall
    rw [diff]
    rw [if_neg (by simp [hlen])]
    rw [hds, bindOk, if_pos hall]
    rfl
  · intro tn es es' h1 h2
    rw [diff]
    rw [if_neg (by simp)]
    rw [h1, bindOk, h2]
    rfl

/-- C7 witness: reflexivity at a concrete nested value, the well-formedness
hypothesis discharged by evaluation. -/
theorem diff_reflexive_noChange_witness :
    diff (.map "m" [(iv 1, .tuple "t" [iv 2, iv 3])])
        (.map "m" [(iv 1, .tuple "t" [iv 2, iv 3])]) = .ok Diff.noChange :=
  diff_reflexive_noChange.1 (.map "m" [(iv 1, .tuple "t" [iv 2, iv 3])])
    (by simp [WellFormed, wfPairs, wfList, nodupKeys, iv])


/-- The old-list index an edit is anchored at (`ListDiff::index`). -/
def ListDiff.index : ListDiff → Nat
  | .deleted i => i
  | .inserted i _ => i

/-- Number of `Deleted` edits in a script. -/
def numDeletes : List ListDiff → Nat
  | [] => 0
  | ListDiff.deleted _ :: cs => numDeletes cs + 1
  | ListDiff.inserted _ _ :: cs => numDeletes cs

/-- Number of `Inserted` edits in a script. -/
def numInserts : List ListDiff → Nat
  | [] => 0
  | ListDiff.deleted _ :: cs => numInserts cs
  | ListDiff.inserted _ _ :: cs => numInserts cs + 1

theorem numDeletes_add_numInserts :
    ∀ cs : List ListDiff, numDeletes cs + numInserts cs = cs.length := by
  intro cs
  induction cs with
  | nil => rfl
  | cons c cs ih =>
    cases c <;> simp [numDeletes, numInserts] <;> omega

theorem trailingInserts_length_le :
    ∀ cs : List ListDiff, (trailingInserts cs).length ≤ numInserts cs := by
  intro cs
  induction cs with
  | nil => simp [trailingInserts]
  | cons c cs ih =>
    cases c with
    | deleted i => simp [trailingInserts, numInserts]
    | inserted i v => simp [trailingInserts, numInserts]; omega

theorem trailingInserts_map_inserted (i : Nat) :
    ∀ ys : List RValue, trailingInserts (ys.map (fun y => ListDiff.inserted i y)) = ys := by
  intro ys
  induction ys with
  | nil => rfl
  | cons y ys ih => simp [trailingInserts, ih]

theorem replayList_nil_changes :
    ∀ (base : List RValue) (i : Nat), replayList [] base i = base := by
  intro base i
  cases base with
  | nil => rw [replayList]; rfl
  | cons x rest => rw [replayList]

theorem replayList_skip {e : ListDiff} {cs : List ListDiff} {x : RValue}
    {rest : List RValue} {i : Nat} (h : ListDiff.index e ≠ i) :
    replayList (e :: cs) (x :: rest) i = x :: replayList (e :: cs) rest (i + 1) := by
  cases e with
  | deleted j => rw [replayList]; simp only [ListDiff.index] at h; simp [h]
  | inserted j v => rw [replayList]; simp only [ListDiff.index] at h; simp [h]

theorem replayList_indices_gt {cs : List ListDiff} {x : RValue} {rest : List RValue}
    {i : Nat} (h : ∀ e ∈ cs, i < ListDiff.index e) :
    replayList cs (x :: rest) i = x :: replayList cs rest (i + 1) := by
  cases cs with
  | nil => rw [replayList_nil_changes, replayList_nil_changes]
  | cons e cs =>
    exact replayList_skip (by have := h e (by simp); omega)

/-!
Length and recurrence facts about the edit-distance `dist`.
-/

theorem dist_le_delete {eq : RValue → RValue → Bool} :
    ∀ (x : RValue) (xs ys : List RValue), dist eq (x :: xs) ys ≤ dist eq xs ys + 1 := by
  intro x xs ys
  cases ys with
  | nil => rw [dist]; cases xs <;> rw [dist] <;> simp
  | cons y ys =>
    rw [dist]
    by_cases h : eq x y = true <;> simp [h] <;> omega

theorem dist_le_insert {eq : RValue → RValue → Bool} :
    ∀ (xs : List RValue) (y : RValue) (ys : List RValue),
      dist eq xs (y :: ys) ≤ dist eq xs ys + 1 := by
  intro xs y ys
  cases xs with
  | nil => rw [dist, dist]; simp
  | cons x xs =>
    rw [dist]
    by_cases h : eq x y = true <;> simp [h] <;> omega

theorem dist_le_match {eq : RValue → RValue → Bool} {x y : RValue}
    (h : eq x y = true) (xs ys : List RValue) :
    dist eq (x :: xs) (y :: ys) ≤ dist eq xs ys := by
  rw [dist]
  simp [h]

theorem dist_le_sum {eq : RValue → RValue → Bool} :
    ∀ (xs ys : List RValue), dist eq xs ys ≤ xs.length + ys.length := by
  intro xs
  induction xs with
  | nil => intro ys; rw [dist]; simp
  | cons x xs ih =>
    intro ys
    calc dist eq (x :: xs) ys ≤ dist eq xs ys + 1 := dist_le_delete x xs ys
    _ ≤ xs.length + ys.length + 1 := by have := ih ys; omega
    _ ≤ (x :: xs).length + ys.length := by simp +arith


theorem dist_nil_right {eq : RValue → RValue → Bool} :
    ∀ xs : List RValue, dist eq xs [] = xs.length := by
  intro xs
  cases xs with
  | nil => rw [dist]
  | cons x xs => rw [dist]; simp

/-- When neither keeping the head pair nor deleting the head of the old list
attains the edit distance, inserting the head of the new list does. -/
theorem dist_insert_forced {eq : RValue → RValue → Bool} {x y : RValue}
    {xs ys : List RValue}
    (h1 : ¬(eq x y = true ∧ dist eq xs ys = dist eq (x :: xs) (y :: ys)))
    (h2 : dist eq xs (y :: ys) + 1 ≠ dist eq (x :: xs) (y :: ys)) :
    dist eq (x :: xs) (y :: ys) = dist eq (x :: xs) ys + 1 := by
  have hD : dist eq (x :: xs) (y :: ys)
      = if eq x y = true then
          min (dist eq xs ys) (min (dist eq xs (y :: ys)) (dist eq (x :: xs) ys) + 1)
        else min (dist eq xs (y :: ys)) (dist eq (x :: xs) ys) + 1 := by
    rw [dist]
  by_cases heq : eq x y = true
  · rw [if_pos heq] at hD
    have hne : dist eq xs ys ≠ dist eq (x :: xs) (y :: ys) := fun hcon => h1 ⟨heq, hcon⟩
    rcases Nat.le_total (dist eq xs (y :: ys)) (dist eq (x :: xs) ys) with hle | hle
    · rw [Nat.min_eq_left hle] at hD
      rcases Nat.le_total (dist eq xs ys) (dist eq xs (y :: ys) + 1) with hle2 | hle2
      · rw [Nat.min_eq_left hle2] at hD
        omega
      · rw [Nat.min_eq_right hle2] at hD
        omega
    · rw [Nat.min_eq_right hle] at hD
      rcases Nat.le_total (dist eq xs ys) (dist eq (x :: xs) ys + 1) with hle2 | hle2
      · rw [Nat.min_eq_left hle2] at hD
        omega
      · rw [Nat.min_eq_right hle2] at hD
        omega
  · rw [if_neg heq] at hD
    rcases Nat.le_total (dist eq xs (y :: ys)) (dist eq (x :: xs) ys) with hle | hle
    · rw [Nat.min_eq_left hle] at hD
      omega
    · rw [Nat.min_eq_right hle] at hD
      omega

/-- The generated script attains the edit distance: its length equals
`dist`. -/
theorem myersScript_length {eq : RValue → RValue → Bool} :
    ∀ (xs ys : List RValue) (i : Nat),
      (myersScript eq xs ys i).length = dist eq xs ys := by
  have key : ∀ n xs ys i, xs.length + ys.length ≤ n →
      (myersScript eq xs ys i).length = dist eq xs ys := by
    intro n
    induction n with
    | zero =>
      intro xs ys i h
      have hx : xs = [] := by cases xs <;> simp_all
      have hy : ys = [] := by cases ys <;> simp_all
      subst hx; subst hy
      rw [myersScript, dist]
      simp
    | succ n ih =>
      intro xs ys i h
      cases xs with
      | nil =>
        rw [myersScript, dist]
        simp
      | cons x xs =>
        cases ys with
        | nil =>
          rw [myersScript, dist_nil_right]
          simp only [List.length_cons]
          rw [ih xs [] (i + 1) (by simp at h ⊢; omega), dist_nil_right]
        | cons y ys =>
          rw [myersScript]
          by_cases hb1 : eq x y = true ∧ dist eq xs ys = dist eq (x :: xs) (y :: ys)
          · rw [if_pos hb1, ih xs ys (i + 1) (by simp at h ⊢; omega), hb1.2]
          · rw [if_neg hb1]
            by_cases hb2 : dist eq xs (y :: ys) + 1 = dist eq (x :: xs) (y :: ys)
            · rw [if_pos hb2]
              simp only [List.length_cons]
              rw [ih xs (y :: ys) (i + 1) (by simp at h ⊢; omega)]
              omega
            · rw [if_neg hb2]
              simp only [List.length_cons]
              rw [ih (x :: xs) ys i (by simp at h ⊢; omega)]
              rw [dist_insert_forced hb1 hb2]
  intro xs ys i
  exact key (xs.length + ys.length) xs ys i le_rfl


/-- Every edit the backtrace emits is anchored at or after the current old
index. -/
theorem myersScript_index_ge {eq : RValue → RValue → Bool} :
    ∀ (xs ys : List RValue) (i : Nat) (e : ListDiff),
      e ∈ myersScript eq xs ys i → i ≤ ListDiff.index e := by
  have key : ∀ n xs ys i (e : ListDiff), xs.length + ys.length ≤ n →
      e ∈ myersScript eq xs ys i → i ≤ ListDiff.index e := by
    intro n
    induction n with
    | zero =>
      intro xs ys i e h hm
      have hx : xs = [] := by cases xs <;> simp_all
      have hy : ys = [] := by cases ys <;> simp_all
      subst hx; subst hy
      rw [myersScript] at hm
      simp at hm
    | succ n ih =>
      intro xs ys i e h hm
      cases xs with
      | nil =>
        rw [myersScript] at hm
        obtain ⟨y, _, rfl⟩ := List.mem_map.mp hm
        simp [ListDiff.index]
      | cons x xs =>
        cases ys with
        | nil =>
          rw [myersScript] at hm
          rcases List.mem_cons.mp hm with he | he
          · subst he; simp [ListDiff.index]
          · have := ih xs [] (i + 1) e (by simp at h ⊢; omega) he
            omega
        | cons y ys =>
          rw [myersScript] at hm
          by_cases hb1 : eq x y = true ∧ dist eq xs ys = dist eq (x :: xs) (y :: ys)
          · rw [if_pos hb1] at hm
            have := ih xs ys (i + 1) e (by simp at h ⊢; omega) hm
            omega
          · rw [if_neg hb1] at hm
            by_cases hb2 : dist eq xs (y :: ys) + 1 = dist eq (x :: xs) (y :: ys)
            · rw [if_pos hb2] at hm
              rcases List.mem_cons.mp hm with he | he
              · subst he; simp [ListDiff.index]
              · have := ih xs (y :: ys) (i + 1) e (by simp at h ⊢; omega) he
                omega
            · rw [if_neg hb2] at hm
              rcases List.mem_cons.mp hm with he | he
              · subst he; simp [ListDiff.index]
              · exact ih (x :: xs) ys i e (by simp at h ⊢; omega) he
  intro xs ys i e hm
  exact key (xs.length + ys.length) xs ys i e le_rfl hm

/-- Replaying the generated script on the old list yields the new list,
element-wise: a position is either the literally inserted new element or a
kept old element that the element equality relates to its counterpart. -/
theorem replay_myersScript {eq : RValue → RValue → Bool} :
    ∀ (xs ys : List RValue) (i : Nat),
      List.Forall₂ (fun a b => a = b ∨ eq a b = true)
        (replayList (myersScript eq xs ys i) xs i) ys := by
  have key : ∀ n xs ys i, xs.length + ys.length ≤ n →
      List.Forall₂ (fun a b => a = b ∨ eq a b = true)
        (replayList (myersScript eq xs ys i) xs i) ys := by
    intro n
    induction n with
    | zero =>
      intro xs ys i h
      have hx : xs = [] := by cases xs <;> simp_all
      have hy : ys = [] := by cases ys <;> simp_all
      subst hx; subst hy
      rw [myersScript]
      simp [replayList_nil_changes]
    | succ n ih =>
      intro xs ys i h
      cases xs with
      | nil =>
        rw [myersScript]
        cases ys with
        | nil => simp [replayList_nil_changes]
        | cons y ys =>
          rw [replayList, trailingInserts_map_inserted]
          exact List.forall₂_same.mpr (fun b _ => Or.inl rfl)
      | cons x xs =>
        cases ys with
        | nil =>
          rw [myersScript, replayList]
          rw [if_pos rfl]
          exact ih xs [] (i + 1) (by simp at h ⊢; omega)
        | cons y ys =>
          rw [myersScript]
          by_cases hb1 : eq x y = true ∧ dist eq xs ys = dist eq (x :: xs) (y :: ys)
          · rw [if_pos hb1]
            have hgt : ∀ e ∈ myersScript eq xs ys (i + 1), i < ListDiff.index e :=
              fun e he => myersScript_index_ge xs ys (i + 1) e he
            rw [replayList_indices_gt hgt]
            exact List.Forall₂.cons (Or.inr hb1.1) (ih xs ys (i + 1) (by simp at h ⊢; omega))
          · rw [if_neg hb1]
            by_cases hb2 : dist eq xs (y :: ys) + 1 = dist eq (x :: xs) (y :: ys)
            · rw [if_pos hb2, replayList, if_pos rfl]
              exact ih xs (y :: ys) (i + 1) (by simp at h ⊢; omega)
            · rw [if_neg hb2, replayList, if_pos rfl]
              exact List.Forall₂.cons (Or.inl rfl) (ih (x :: xs) ys i (by simp at h ⊢; omega))
  intro xs ys i
  exact key (xs.length + ys.length) xs ys i le_rfl


/-- Replaying any script keeps a common "kept" sublist: some `ks` is a
sublist of the base and of the result, at most `numDeletes` base elements
are dropped, and at most `numInserts` result elements are new. -/
theorem replayList_decomposition :
    ∀ (cs : List ListDiff) (base : List RValue) (i : Nat),
      ∃ ks : List RValue, List.Sublist ks base ∧
        List.Sublist ks (replayList cs base i) ∧
        base.length - ks.length ≤ numDeletes cs ∧
        (replayList cs base i).length - ks.length ≤ numInserts cs := by
  have key : ∀ n (cs : List ListDiff) (base : List RValue) (i : Nat),
      cs.length + base.length ≤ n →
      ∃ ks : List RValue, List.Sublist ks base ∧
        List.Sublist ks (replayList cs base i) ∧
        base.length - ks.length ≤ numDeletes cs ∧
        (replayList cs base i).length - ks.length ≤ numInserts cs := by
    intro n
    induction n with
    | zero =>
      intro cs base i h
      have hc : cs = [] := by cases cs <;> simp_all
      have hb : base = [] := by cases base <;> simp_all
      subst hc; subst hb
      exact ⟨[], List.nil_sublist _, by rw [replayList]; exact List.nil_sublist _, by simp [numDeletes], by rw [replayList]; simp [trailingInserts, numInserts]⟩
    | succ n ih =>
      intro cs base i h
      cases base with
      | nil =>
        refine ⟨[], List.nil_sublist _, List.nil_sublist _, by simp [numDeletes], ?_⟩
        rw [replayList]
        have h1 := trailingInserts_length_le cs
        omega
      | cons x rest =>
        cases cs with
        | nil =>
          refine ⟨x :: rest, List.Sublist.refl _, ?_, by simp [numDeletes], ?_⟩
          · rw [replayList_nil_changes]
          · rw [replayList_nil_changes]
            simp [numInserts]
        | cons e cs =>
          cases e with
          | inserted j v =>
            by_cases hj : j = i
            · subst hj
              rw [replayList, if_pos rfl]
              obtain ⟨ks, hb, hr, hd, hi⟩ := ih cs (x :: rest) j (by simp at h ⊢; omega)
              refine ⟨ks, hb, List.Sublist.cons v hr, ?_, ?_⟩
              · simpa [numDeletes] using hd
              · simp only [List.length_cons, numInserts]
                have := List.Sublist.length_le hr
                omega
            · rw [replayList_skip (by simp [ListDiff.index, hj])]
              obtain ⟨ks, hb, hr, hd, hi⟩ := ih (ListDiff.inserted j v :: cs) rest (i + 1)
                (by simp at h ⊢; omega)
              refine ⟨x :: ks, List.Sublist.cons₂ x hb, List.Sublist.cons₂ x hr, ?_, ?_⟩
              · simp only [List.length_cons]
                omega
              · simp only [List.length_cons]
                omega
          | deleted j =>
            by_cases hj : j = i
            · subst hj
              rw [replayList, if_pos rfl]
              obtain ⟨ks, hb, hr, hd, hi⟩ := ih cs rest (j + 1) (by simp at h ⊢; omega)
              refine ⟨ks, List.Sublist.cons x hb, hr, ?_, ?_⟩
              · simp only [List.length_cons, numDeletes]
                have := List.Sublist.length_le hb
                omega
              · simpa [numInserts] using hi
            · rw [replayList_skip (by simp [ListDiff.index, hj])]
              obtain ⟨ks, hb, hr, hd, hi⟩ := ih (ListDiff.deleted j :: cs) rest (i + 1)
                (by simp at h ⊢; omega)
              refine ⟨x :: ks, List.Sublist.cons₂ x hb, List.Sublist.cons₂ x hr, ?_, ?_⟩
              · simp only [List.length_cons]
                omega
              · simp only [List.length_cons]
                omega
  intro cs base i
  exact key (cs.length + base.length) cs base i le_rfl

/-- A sublist of the left side of a `Forall₂` corresponds to a sublist of the
right side. -/
theorem sublist_of_forall2 {R : RValue → RValue → Prop} :
    ∀ {zs ys : List RValue}, List.Forall₂ R zs ys →
      ∀ {ks : List RValue}, List.Sublist ks zs →
      ∃ js, List.Sublist js ys ∧ List.Forall₂ R ks js := by
  intro zs ys hf
  induction hf with
  | nil =>
    intro ks hs
    rw [List.sublist_nil.mp hs]
    exact ⟨[], List.nil_sublist _, List.Forall₂.nil⟩
  | @cons z y zs ys hr hf ih =>
    intro ks hs
    cases hs with
    | cons _ hs' =>
      obtain ⟨js, hsub, hf2⟩ := ih hs'
      exact ⟨js, List.Sublist.cons y hsub, hf2⟩
    | cons₂ _ hs' =>
      obtain ⟨js, hsub, hf2⟩ := ih hs'
      exact ⟨y :: js, List.Sublist.cons₂ y hsub, List.Forall₂.cons hr hf2⟩

/-- The edit distance is bounded by any common (relational) subsequence:
with `k` matched pairs, `(|xs| - k) + (|ys| - k)` edits reach `ys` from
`xs`. -/
theorem dist_le_of_common {eq : RValue → RValue → Bool} :
    ∀ (xs ys ks js : List RValue),
      List.Sublist ks xs → List.Sublist js ys →
      List.Forall₂ (fun a b => eq a b = true) ks js →
      dist eq xs ys ≤ (xs.length - ks.length) + (ys.length - js.length) := by
  have key : ∀ n (xs ys ks js : List RValue), xs.length + ys.length ≤ n →
      List.Sublist ks xs → List.Sublist js ys →
      List.Forall₂ (fun a b => eq a b = true) ks js →
      dist eq xs ys ≤ (xs.length - ks.length) + (ys.length - js.length) := by
    intro n
    induction n with
    | zero =>
      intro xs ys ks js h _ _ _
      have hx : xs = [] := by cases xs <;> simp_all
      have hy : ys = [] := by cases ys <;> simp_all
      subst hx; subst hy
      rw [dist]
      simp
    | succ n ih =>
      intro xs ys ks js h hks hjs hf
      cases hf with
      | nil =>
        have := @dist_le_sum eq xs ys
        simp only [List.length_nil]
        omega
      | @cons k j ks' js' hkj hf' =>
        cases xs with
        | nil => exact absurd (List.sublist_nil.mp hks) (by simp)
        | cons x xs' =>
          cases ys with
          | nil => exact absurd (List.sublist_nil.mp hjs) (by simp)
          | cons y ys' =>
            cases hks with
            | cons _ hks' =>
              have hrec := ih xs' (y :: ys') (k :: ks') (j :: js')
                (by simp at h ⊢; omega) hks' hjs (List.Forall₂.cons hkj hf')
              have hdel := @dist_le_delete eq x xs' (y :: ys')
              have hlen := List.Sublist.length_le hks'
              simp only [List.length_cons] at *
              omega
            | cons₂ _ hks' =>
              cases hjs with
              | cons _ hjs' =>
                have hrec := ih (k :: xs') ys' (k :: ks') (j :: js')
                  (by simp at h ⊢; omega) (List.Sublist.cons₂ k hks') hjs'
                  (List.Forall₂.cons hkj hf')
                have hins := @dist_le_insert eq (k :: xs') y ys'
                have hlen := List.Sublist.length_le hjs'
                simp only [List.length_cons] at *
                omega
              | cons₂ _ hjs' =>
                have hrec := ih xs' ys' ks' js'
                  (by simp at h ⊢; omega) hks' hjs' hf'
                have hmatch := dist_le_match hkj xs' ys'
                have hl1 := List.Sublist.length_le hks'
                have hl2 := List.Sublist.length_le hjs'
                simp only [List.length_cons] at *
                omega
  intro xs ys ks js hks hjs hf
  exact key (xs.length + ys.length) xs ys ks js le_rfl hks hjs hf


theorem exists_of_findIdx {p : RValue → Bool} :
    ∀ {l : List RValue} {i : Nat}, l.findIdx? p = some i → ∃ x ∈ l, p x = true := by
  intro l i h
  obtain ⟨hlt, hp, _⟩ := List.findIdx?_eq_some_iff_getElem.mp h
  exact ⟨l[i], by simp, hp⟩

theorem isNoChange_iff {d : Diff} : d.isNoChange = true ↔ d = Diff.noChange := by
  cases d <;> simp [Diff.isNoChange]

theorem noChangeB_iff {a b : RValue} :
    noChangeB a b = true ↔ diff a b = .ok Diff.noChange := by
  rw [noChangeB]
  cases hd : diff a b with
  | error e => simp
  | ok d =>
    simp only [isNoChange_iff]
    constructor
    · intro hcon; rw [hcon]
    · intro hcon; injection hcon

theorem tableEq_true_mem {olds news : List RValue} {rows : List (List Bool)}
    {a b : RValue} (h : tableEq olds news rows a b = true) : a ∈ olds ∧ b ∈ news := by
  rw [tableEq] at h
  cases hfi : olds.findIdx? (fun x => RValue.beq x a) with
  | none => rw [hfi] at h; simp at h
  | some i =>
    cases hfj : news.findIdx? (fun y => RValue.beq y b) with
    | none => rw [hfi, hfj] at h; simp at h
    | some j =>
      obtain ⟨x, hx, hpx⟩ := exists_of_findIdx hfi
      obtain ⟨y, hy, hpy⟩ := exists_of_findIdx hfj
      rw [(RValue.beq_iff x a).mp hpx] at hx
      rw [(RValue.beq_iff y b).mp hpy] at hy
      exact ⟨hx, hy⟩

theorem forall2_mem_tableEq {olds news : List RValue}
    (href : ∀ a ∈ olds, diff a a = .ok Diff.noChange) :
    ∀ {ks js : List RValue},
      List.Forall₂ (fun a b => a = b ∨ diff a b = .ok Diff.noChange) ks js →
      (∀ a ∈ ks, a ∈ olds) → (∀ b ∈ js, b ∈ news) →
      List.Forall₂
        (fun a b => tableEq olds news (diffMatrix olds news) a b = true) ks js := by
  intro ks js hf
  induction hf with
  | nil =>
    intro _ _
    exact List.Forall₂.nil
  | @cons a b ks' js' hab hf' ih =>
    intro hks hjs
    have hamem : a ∈ olds := hks a (by simp)
    have hbmem : b ∈ news := hjs b (by simp)
    refine List.Forall₂.cons ?_
      (ih (fun x hx => hks x (by simp [hx])) (fun y hy => hjs y (by simp [hy])))
    rw [tableEq_spec hamem hbmem]
    rcases hab with hab | hab
    · subst hab
      exact noChangeB_iff.mpr (href a hamem)
    · exact noChangeB_iff.mpr hab

/-- C3: the list diff is a minimum-length script of single-element
`Inserted` / `Deleted` edits, with indices anchored in the old list:
replaying it on the old list reproduces the new list (kept elements are
related to their counterparts by "recursive diff is `NoChange`", inserted
elements are the new elements themselves), and no edit script whose replay
reproduces the new list is shorter.  The spec's two vectors produce exactly
`[Inserted(0, 9)]` and
`[Deleted(1), Inserted(2,0), Inserted(3,6), Inserted(3,8), Deleted(4),
Inserted(5,7)]`. -/
theorem list_diff_minimal_edit_script (tn : String) (olds news : List RValue)
    (href : ∀ a ∈ olds, diff a a = .ok Diff.noChange) :
    (∀ script, script = myersScript (tableEq olds news (diffMatrix olds news)) olds news 0 →
       diff (.list tn olds) (.list tn news)
         = .ok (if script.isEmpty then Diff.noChange
                else Diff.modified (DiffType.list tn script)) ∧
       List.Forall₂ (fun a b => a = b ∨ diff a b = .ok Diff.noChange)
         (replayList script olds 0) news ∧
       (∀ s : List ListDiff,
          List.Forall₂ (fun a b => a = b ∨ diff a b = .ok Diff.noChange)
            (replayList s olds 0) news →
          script.length ≤ s.length)) ∧
    diff (.list "alloc::vec::Vec<i32>" [iv 1, iv 2, iv 3])
        (.list "alloc::vec::Vec<i32>" [iv 9, iv 1, iv 2, iv 3])
      = .ok (.modified (.list "alloc::vec::Vec<i32>" [ListDiff.inserted 0 (iv 9)])) ∧
    diff (.list "alloc::vec::Vec<i32>" [iv 1, iv 2, iv 3, iv 4, iv 5])
        (.list "alloc::vec::Vec<i32>" [iv 1, iv 0, iv 3, iv 6, iv 8, iv 4, iv 7])
      = .ok (.modified (.list "alloc::vec::Vec<i32>"
          [ListDiff.deleted 1, ListDiff.inserted 2 (iv 0), ListDiff.inserted 3 (iv 6),
           ListDiff.inserted 3 (iv 8), ListDiff.deleted 4, ListDiff.inserted 5 (iv 7)])) := by
  refine ⟨?_, ?_, ?_⟩
  · intro script hscript
    have hconv : ∀ a b : RValue,
        (a = b ∨ tableEq olds news (diffMatrix olds news) a b = true) →
        (a = b ∨ diff a b = .ok Diff.noChange) := by
      intro a b hab
      rcases hab with hab | hab
      · exact Or.inl hab
      · obtain ⟨ha, hb⟩ := tableEq_true_mem hab
        rw [tableEq_spec ha hb] at hab
        exact Or.inr (noChangeB_iff.mp hab)
    refine ⟨?_, ?_, ?_⟩
    · rw [diff]
      rw [if_neg (by simp)]
      rw [← hscript]
      by_cases he : script.isEmpty <;> simp [he]
    · exact List.Forall₂.imp hconv (hscript ▸ replay_myersScript olds news 0)
    · intro s hs
      obtain ⟨ks, hkb, hkr, hdel, hins⟩ := replayList_decomposition s olds 0
      obtain ⟨js, hjs, hf2⟩ := sublist_of_forall2 hs hkr
      have hf3 := forall2_mem_tableEq href hf2
        (fun a ha => List.Sublist.subset hkb ha)
        (fun b hb => List.Sublist.subset hjs hb)
      have hlen1 : ks.length = js.length := List.Forall₂.length_eq hf3
      have hdistle := dist_le_of_common olds news ks js hkb hjs hf3
      have hslen : script.length
          = dist (tableEq olds news (diffMatrix olds news)) olds news := by
        rw [hscript]
        exact myersScript_length olds news 0
      have hreslen : (replayList s olds 0).length = news.length :=
        List.Forall₂.length_eq hs
      have hsum := numDeletes_add_numInserts s
      have hl1 := List.Sublist.length_le hkb
      have hl2 := List.Sublist.length_le hjs
      omega
  · simp [diff, iv, myersScript, dist, tableEq, diffMatrix, diffRow, reflectPartialEq,
      RValue.typeName, RValue.beq, Diff.isNoChange, List.findIdx?]
  · simp [diff, iv, myersScript, dist, tableEq, diffMatrix, diffRow, reflectPartialEq,
      RValue.typeName, RValue.beq, Diff.isNoChange, List.findIdx?]

/-- C3 witness: instantiation of the list-diff theorem at a concrete pair of
lists, discharging its hypotheses by evaluation. -/
theorem list_diff_minimal_edit_script_witness :
    diff (.list "v" [iv 1]) (.list "v" [iv 1, iv 2])
      = .ok (.modified (.list "v" [ListDiff.inserted 1 (iv 2)])) := by
  have h := ((list_diff_minimal_edit_script "v" [iv 1] [iv 1, iv 2]
      (by intro a ha
          simp only [List.mem_singleton] at ha
          subst ha
          simp [diff, iv, reflectPartialEq, RValue.typeName])).1
    (myersScript (tableEq [iv 1] [iv 1, iv 2] (diffMatrix [iv 1] [iv 1, iv 2]))
      [iv 1] [iv 1, iv 2] 0) rfl).1
  have hscr : myersScript (tableEq [iv 1] [iv 1, iv 2] (diffMatrix [iv 1] [iv 1, iv 2]))
      [iv 1] [iv 1, iv 2] 0 = [ListDiff.inserted 1 (iv 2)] := by
    simp [iv, myersScript, dist, tableEq, diffMatrix, diffRow, diff, reflectPartialEq,
      RValue.typeName, RValue.beq, Diff.isNoChange, List.findIdx?]
  rw [hscr] at h
  simpa using h


/-!
Reflexivity of the equality capability on well-formed values, and the
pointwise lemmas that feed the per-shape `reflect_partial_eq` helpers.
-/

theorem RValue.beq_comm (a b : RValue) : RValue.beq a b = RValue.beq b a := by
  by_cases h : a = b
  · rw [h]
  · have h1 : RValue.beq a b = false := by
      by_cases hb : RValue.beq a b = true
      · exact absurd ((RValue.beq_iff a b).mp hb) h
      · simpa using hb
    have h2 : RValue.beq b a = false := by
      by_cases hb : RValue.beq b a = true
      · exact absurd ((RValue.beq_iff b a).mp hb).symm h
      · simpa using hb
    rw [h1, h2]

theorem partialEqList_of_pointwise :
    ∀ {ls bs : List RValue},
      (∀ a ∈ ls, ∀ b ∈ bs, True) →
      List.Forall₂ (fun a b => reflectPartialEq a b = some true) ls bs →
      partialEqList ls bs = some true := by
  intro ls bs _ hf
  induction hf with
  | nil => rw [partialEqList]
  | @cons a b ls' bs' hab hf' ih =>
    rw [partialEqList, hab]
    exact ih (fun _ _ _ _ => trivial)

theorem partialEqEntries_of_pointwise :
    ∀ {ls bs : List (RValue × RValue)},
      (∀ kv ∈ ls, ∃ nv, mapGet bs (Prod.fst kv) = some nv ∧
        reflectPartialEq (Prod.snd kv) nv = some true) →
      partialEqEntries ls bs = some true := by
  intro ls
  induction ls with
  | nil => intro bs _; rw [partialEqEntries]
  | cons kv ls ih =>
    intro bs h
    obtain ⟨k, v⟩ := kv
    obtain ⟨nv, hget, heq⟩ := h (k, v) (by simp)
    rw [partialEqEntries]
    dsimp only at hget ⊢
    rw [hget]
    dsimp only
    rw [heq]
    exact ih (fun x hx => h x (by simp [hx]))

theorem partialEqNamed_of_pointwise :
    ∀ {ls bs : List (String × RValue)},
      (∀ nv ∈ ls, ∃ bv, namedGet bs (Prod.fst nv) = some bv ∧
        reflectPartialEq (Prod.snd nv) bv = some true) →
      partialEqNamed ls bs = some true := by
  intro ls
  induction ls with
  | nil => intro bs _; rw [partialEqNamed]
  | cons nv ls ih =>
    intro bs h
    obtain ⟨n, v⟩ := nv
    obtain ⟨bv, hget, heq⟩ := h (n, v) (by simp)
    rw [partialEqNamed]
    dsimp only at hget ⊢
    rw [hget]
    dsimp only
    rw [heq]
    exact ih (fun x hx => h x (by simp [hx]))

theorem mapGet_of_mem_nodup {es : List (RValue × RValue)} {k v : RValue}
    (hnd : nodupKeys es = true) (h : (k, v) ∈ es) : mapGet es k = some v := by
  induction es with
  | nil => simp at h
  | cons e rest ih =>
    obtain ⟨k0, v0⟩ := e
    rw [nodupKeys] at hnd
    simp only [Bool.and_eq_true, Bool.not_eq_true'] at hnd
    rw [mapGet]
    rcases List.mem_cons.mp h with he | he
    · simp only [Prod.mk.injEq] at he
      rw [he.1, RValue.beq_refl]
      simp [he.2]
    · have hne : RValue.beq k0 k = false := by
        by_cases hb : RValue.beq k0 k = true
        · exfalso
          have hkeq := (RValue.beq_iff k0 k).mp hb
          have hcon : (rest.any fun kv => RValue.beq (Prod.fst kv) k0) = true :=
            List.any_eq_true.mpr ⟨(k, v), he, (RValue.beq_iff k k0).mpr hkeq.symm⟩
          rw [hcon] at hnd
          simp at hnd
        · simpa using hb
      rw [if_neg (by simp [hne])]
      exact ih hnd.2 he

theorem namedGet_of_mem_nodup {fs : List (String × RValue)} {n : String} {v : RValue}
    (hnd : nodupNames fs = true) (h : (n, v) ∈ fs) : namedGet fs n = some v := by
  induction fs with
  | nil => simp at h
  | cons e rest ih =>
    obtain ⟨n0, v0⟩ := e
    rw [nodupNames] at hnd
    simp only [Bool.and_eq_true, Bool.not_eq_true'] at hnd
    rw [namedGet]
    rcases List.mem_cons.mp h with he | he
    · simp only [Prod.mk.injEq] at he
      rw [he.1]
      simp [he.2]
    · have hne : (n0 == n) = false := by
        by_cases hb : (n0 == n) = true
        · exfalso
          have hkeq : n0 = n := by simpa using hb
          have hcon : (rest.any fun nv => Prod.fst nv == n0) = true :=
            List.any_eq_true.mpr ⟨(n, v), he, by simp [hkeq]⟩
          rw [hcon] at hnd
          simp at hnd
        · simpa using hb
      rw [if_neg (by simp [hne])]
      exact ih hnd.2 he

/-- The equality capability is reflexive on well-formed values. -/
theorem partialEq_refl : ∀ a : RValue, WellFormed a = true →
    reflectPartialEq a a = some true := by
  intro a
  induction a using RValue.inductionOn with
  | hvalue tn p c =>
    intro h
    rw [WellFormed] at h
    rw [reflectPartialEq, h]
    simp
  | htuple tn fs ih =>
    intro h
    rw [WellFormed] at h
    rw [reflectPartialEq]
    rw [if_neg (by simp)]
    exact partialEqList_of_pointwise (fun _ _ _ _ => trivial)
      (List.forall₂_same.mpr (fun x hx => ih x hx (wfList_mem h x hx)))
  | harray tn es ih =>
    intro h
    rw [WellFormed] at h
    rw [reflectPartialEq]
    rw [if_neg (by simp)]
    exact partialEqList_of_pointwise (fun _ _ _ _ => trivial)
      (List.forall₂_same.mpr (fun x hx => ih x hx (wfList_mem h x hx)))
  | hlist tn es ih =>
    intro h
    rw [WellFormed] at h
    rw [reflectPartialEq]
    rw [if_neg (by simp)]
    exact partialEqList_of_pointwise (fun _ _ _ _ => trivial)
      (List.forall₂_same.mpr (fun x hx => ih x hx (wfList_mem h x hx)))
  | hmap tn es ih =>
    intro h
    rw [WellFormed] at h
    simp only [Bool.and_eq_true] at h
    rw [reflectPartialEq]
    rw [if_neg (by simp)]
    refine partialEqEntries_of_pointwise (fun kv hkv => ?_)
    refine ⟨Prod.snd kv, ?_, ?_⟩
    · obtain ⟨k, v⟩ := kv
      exact mapGet_of_mem_nodup h.1 hkv
    · exact (ih kv hkv).2 ((wfPairs_mem h.2 kv hkv).2)
  | htupleStruct tn fs ih =>
    intro h
    rw [WellFormed] at h
    rw [reflectPartialEq]
    rw [if_neg (by simp)]
    exact partialEqList_of_pointwise (fun _ _ _ _ => trivial)
      (List.forall₂_same.mpr (fun x hx => ih x hx (wfList_mem h x hx)))
  | hstruct tn fs ih =>
    intro h
    rw [WellFormed] at h
    simp only [Bool.and_eq_true] at h
    rw [reflectPartialEq]
    rw [if_neg (by simp)]
    refine partialEqNamed_of_pointwise (fun nv hnv => ?_)
    refine ⟨Prod.snd nv, ?_, ih nv hnv (wfNamed_mem h.2 nv hnv)⟩
    obtain ⟨n, v⟩ := nv
    exact namedGet_of_mem_nodup h.1 hnv
  | henumUnit tn vn =>
    intro _
    rw [reflectPartialEq]
  | henumTuple tn vn fs ih =>
    intro _
    rw [reflectPartialEq]
  | henumStruct tn vn fs ih =>
    intro _
    rw [reflectPartialEq]


/-!
Extraction lemmas for the typing relation: pointwise typing of the parts of
a well-typed composite value.
-/

theorem wtList_length : ∀ {vs : List RValue} {ts : List RType},
    wtList vs ts = true → vs.length = ts.length := by
  intro vs
  induction vs with
  | nil =>
    intro ts h
    cases ts with
    | nil => rfl
    | cons t ts => rw [wtList] at h <;> simp_all
  | cons v vs ih =>
    intro ts h
    cases ts with
    | nil => rw [wtList] at h <;> simp_all
    | cons t ts =>
      rw [wtList] at h
      simp only [Bool.and_eq_true] at h
      simp [ih h.2]

theorem wtList_get : ∀ {vs : List RValue} {ts : List RType},
    wtList vs ts = true → ∀ k (h1 : k < vs.length) (h2 : k < ts.length),
      WellTyped (vs.get ⟨k, h1⟩) (ts.get ⟨k, h2⟩) = true := by
  intro vs
  induction vs with
  | nil => intro ts h k h1 h2; simp at h1
  | cons v vs ih =>
    intro ts h k h1 h2
    cases ts with
    | nil => rw [wtList] at h <;> simp_all
    | cons t ts =>
      rw [wtList] at h
      simp only [Bool.and_eq_true] at h
      cases k with
      | zero => exact h.1
      | succ k => exact ih h.2 k (by simpa using h1) (by simpa using h2)

theorem wtAll_mem : ∀ {vs : List RValue} {t : RType},
    wtAll vs t = true → ∀ v ∈ vs, WellTyped v t = true := by
  intro vs
  induction vs with
  | nil => intro t _ v hv; simp at hv
  | cons x vs ih =>
    intro t h v hv
    rw [wtAll] at h
    simp only [Bool.and_eq_true] at h
    rcases List.mem_cons.mp hv with hv | hv
    · rw [hv]; exact h.1
    · exact ih h.2 v hv

theorem wtPairs_mem : ∀ {es : List (RValue × RValue)} {kt vt : RType},
    wtPairs es kt vt = true →
      ∀ kv ∈ es, WellTyped (Prod.fst kv) kt = true ∧ WellTyped (Prod.snd kv) vt = true := by
  intro es
  induction es with
  | nil => intro kt vt _ kv hkv; simp at hkv
  | cons e es ih =>
    intro kt vt h kv hkv
    obtain ⟨k, v⟩ := e
    rw [wtPairs] at h
    simp only [Bool.and_eq_true] at h
    rcases List.mem_cons.mp hkv with hkv | hkv
    · rw [hkv]; exact ⟨h.1.1, h.1.2⟩
    · exact ih h.2 kv hkv

/-- Field-type lookup by name in a struct type's field list. -/
def namedGetT : List (String × RType) → String → Option RType
  | [], _ => none
  | (n, t) :: rest, name => if n == name then some t else namedGetT rest name

theorem wtNamed_lookup : ∀ {fs : List (String × RValue)} {ts : List (String × RType)}
    {n : String} {v : RValue},
    wtNamed fs ts = true → namedGet fs n = some v →
      ∃ t, namedGetT ts n = some t ∧ WellTyped v t = true := by
  intro fs
  induction fs with
  | nil => intro ts n v _ hg; rw [namedGet] at hg; simp at hg
  | cons e fs ih =>
    intro ts n v h hg
    obtain ⟨n0, v0⟩ := e
    cases ts with
    | nil => rw [wtNamed] at h <;> simp_all
    | cons t ts =>
      obtain ⟨n1, t1⟩ := t
      rw [wtNamed] at h
      simp only [Bool.and_eq_true] at h
      have hn01 : n0 = n1 := by simpa using h.1.1
      rw [namedGet] at hg
      rw [namedGetT]
      by_cases hb : (n0 == n) = true
      · rw [if_pos hb] at hg
        rw [if_pos (by rw [← hn01]; exact hb)]
        refine ⟨t1, rfl, ?_⟩
        have hv : v0 = v := by simpa using hg
        rw [← hv]
        exact h.1.2
      · rw [if_neg hb] at hg
        rw [if_neg (by rw [← hn01]; exact hb)]
        exact ih h.2 hg

theorem wtNamed_names : ∀ {fs : List (String × RValue)} {ts : List (String × RType)},
    wtNamed fs ts = true → fs.map Prod.fst = ts.map Prod.fst := by
  intro fs
  induction fs with
  | nil =>
    intro ts h
    cases ts with
    | nil => rfl
    | cons t ts => rw [wtNamed] at h <;> simp_all
  | cons e fs ih =>
    intro ts h
    obtain ⟨n0, v0⟩ := e
    cases ts with
    | nil => rw [wtNamed] at h <;> simp_all
    | cons t ts =>
      obtain ⟨n1, t1⟩ := t
      rw [wtNamed] at h
      simp only [Bool.and_eq_true] at h
      have hn01 : n0 = n1 := by simpa using h.1.1
      simp [hn01, ih h.2]

/-!
Conversion lemmas between pointwise facts, `Forall₂`, and the per-shape
equality helpers.
-/

theorem forall2_imp_mem {α β : Type} {R S : α → β → Prop} :
    ∀ {l1 : List α} {l2 : List β}, List.Forall₂ R l1 l2 →
      (∀ a b, a ∈ l1 → b ∈ l2 → R a b → S a b) → List.Forall₂ S l1 l2 := by
  intro l1 l2 hf
  induction hf with
  | nil => intro _; exact List.Forall₂.nil
  | @cons a b l1' l2' hab hf' ih =>
    intro h
    exact List.Forall₂.cons (h a b (by simp) (by simp) hab)
      (ih (fun x y hx hy => h x y (by simp [hx]) (by simp [hy])))

theorem partialEqList_of_get : ∀ {ls bs : List RValue},
    ls.length = bs.length →
    (∀ k (h1 : k < ls.length) (h2 : k < bs.length),
      reflectPartialEq (ls.get ⟨k, h1⟩) (bs.get ⟨k, h2⟩) = some true) →
    partialEqList ls bs = some true := by
  intro ls
  induction ls with
  | nil =>
    intro bs hl _
    cases bs with
    | nil => rw [partialEqList]
    | cons b bs => simp at hl
  | cons a ls ih =>
    intro bs hl h
    cases bs with
    | nil => simp at hl
    | cons b bs =>
      rw [partialEqList]
      have h0 : reflectPartialEq a b = some true := h 0 (by simp) (by simp)
      rw [h0]
      exact ih (by simpa using hl)
        (fun k h1 h2 => h (k + 1) (by simpa using h1) (by simpa using h2))


/-!
Positional apply: if each positional sub-diff applies successfully to the
corresponding base field producing a value equal to the corresponding new
field, the whole field list applies successfully.
-/

theorem applyFields_triple :
    ∀ {ds : List Diff} {fs fs' : List RValue},
      ds.length = fs.length → fs.length = fs'.length →
      (∀ k (h1 : k < ds.length) (h2 : k < fs.length) (h3 : k < fs'.length),
        ∃ r, Diff.apply (ds.get ⟨k, h1⟩) (fs.get ⟨k, h2⟩) = .ok r ∧
          reflectPartialEq r (fs'.get ⟨k, h3⟩) = some true) →
      ∃ rs, applyFields ds fs = .ok rs ∧ rs.length = fs'.length ∧
        ∀ k (h1 : k < rs.length) (h2 : k < fs'.length),
          reflectPartialEq (rs.get ⟨k, h1⟩) (fs'.get ⟨k, h2⟩) = some true := by
  intro ds
  induction ds with
  | nil =>
    intro fs fs' hl1 hl2 _
    have hfs : fs = [] := List.length_eq_zero.mp (by simpa using hl1.symm)
    subst hfs
    have hfs' : fs' = [] := List.length_eq_zero.mp (by simpa using hl2.symm)
    subst hfs'
    refine ⟨[], by rw [applyFields], rfl, ?_⟩
    intro k h1 h2
    simp at h1
  | cons d ds ih =>
    intro fs fs' hl1 hl2 h
    cases fs with
    | nil => simp at hl1
    | cons f fs =>
      cases fs' with
      | nil => simp at hl2
      | cons f' fs' =>
        have h0 : ∃ r, Diff.apply d f = .ok r ∧ reflectPartialEq r f' = some true :=
          h 0 (by simp) (by simp) (by simp)
        obtain ⟨r, hr, hpe⟩ := h0
        obtain ⟨rs, hrs, hlen, hpt⟩ :=
          @ih fs fs' (by simpa using hl1) (by simpa using hl2)
            (fun k h1 h2 h3 =>
              h (k + 1) (by simpa using h1) (by simpa using h2) (by simpa using h3))
        refine ⟨r :: rs, ?_, by simpa using hlen, ?_⟩
        · rw [applyFields]
          rw [hr, bindOk, hrs, bindOk, pureOk]
        · intro k h1 h2
          cases k with
          | zero => exact hpe
          | succ k => exact hpt k (by simpa using h1) (by simpa using h2)


/-!
Named apply: applying the per-field diffs of a struct whose diff names match
the base's field names in order, with unique field names, succeeds and
rewrites each field in place.
-/

theorem applyNamedFields_frame :
    ∀ {ds : List (String × Diff)} {fs : List (String × RValue)} {n : String} {r : RValue},
      (∀ nd ∈ ds, (Prod.fst nd == n) = false) →
      applyNamedFields ds ((n, r) :: fs)
        = (fun gs => (n, r) :: gs) <$> applyNamedFields ds fs := by
  intro ds
  induction ds with
  | nil => intro fs n r _; rw [applyNamedFields, applyNamedFields, mapOk]
  | cons nd ds ih =>
    intro fs n r h
    obtain ⟨n2, d2⟩ := nd
    have hne : (n == n2) = false := by
      have := h (n2, d2) (by simp)
      simp only at this
      simp only [beq_eq_false_iff_ne] at this ⊢
      exact fun hc => this hc.symm
    rw [applyNamedFields, applyNamedFields]
    rw [namedGet, if_neg (by simp [hne])]
    cases hg : namedGet fs n2 with
    | none => rfl
    | some v =>
      dsimp only
      cases hr2 : Diff.apply d2 v with
      | error e => rw [bindErr, bindErr]; rfl
      | ok r2 =>
        rw [bindOk, bindOk]
        rw [namedSet, if_neg (by simp [hne])]
        exact ih (h · <| List.mem_cons_of_mem _ ·)

theorem applyNamed_exists :
    ∀ {ds : List (String × Diff)} {fs fs' : List (String × RValue)},
      ds.map Prod.fst = fs.map Prod.fst → nodupNames fs = true →
      List.Forall₂ (fun (nd : String × Diff) (nv : String × RValue) =>
        ∃ r, Diff.apply (Prod.snd nd) (Prod.snd nv) = .ok r ∧
          ∃ bv, namedGet fs' (Prod.fst nd) = some bv ∧
            reflectPartialEq r bv = some true) ds fs →
      ∃ gs, applyNamedFields ds fs = .ok gs ∧
        gs.map Prod.fst = fs.map Prod.fst ∧
        ∀ nv ∈ gs, ∃ bv, namedGet fs' (Prod.fst nv) = some bv ∧
          reflectPartialEq (Prod.snd nv) bv = some true := by
  intro ds
  induction ds with
  | nil =>
    intro fs fs' hnames _ hf
    cases hf with
    | nil =>
      refine ⟨[], by rw [applyNamedFields], rfl, ?_⟩
      intro nv hnv
      simp at hnv
  | cons nd ds ih =>
    intro fs fs' hnames hnd hf
    cases hf with
    | @cons _ nv _ fs0 hhead htail =>
      obtain ⟨n, d⟩ := nd
      obtain ⟨n1, v⟩ := nv
      have hn1 : n = n1 := by simpa using congrArg (fun l => l.headD "") hnames
      subst hn1
      obtain ⟨r, hr, bv, hbv, hpe⟩ := hhead
      rw [nodupNames] at hnd
      simp only [Bool.and_eq_true, Bool.not_eq_true'] at hnd
      have hnames0 : ds.map Prod.fst = fs0.map Prod.fst := by
        simpa using congrArg List.tail hnames
      rw [applyNamedFields]
      rw [namedGet, if_pos (by simp)]
      dsimp only at hr ⊢
      rw [hr, bindOk]
      rw [namedSet, if_pos (by simp)]
      have hfresh : ∀ nd2 ∈ ds, (Prod.fst nd2 == n) = false := by
        intro nd2 hnd2
        have hmem : Prod.fst nd2 ∈ fs0.map Prod.fst := by
          rw [← hnames0]
          exact List.mem_map_of_mem Prod.fst hnd2
        obtain ⟨nv2, hnv2, hfst⟩ := List.mem_map.mp hmem
        have := List.any_eq_false.mp hnd.1 nv2 hnv2
        rw [← hfst]
        simpa using this
      rw [applyNamedFields_frame hfresh]
      obtain ⟨gs0, hgs0, hgn, hgp⟩ := ih hnames0 hnd.2 htail
      refine ⟨(n, r) :: gs0, ?_, by simpa using hgn, ?_⟩
      · rw [hgs0, mapOk]
      · intro nv2 hnv2
        rcases List.mem_cons.mp hnv2 with hnv2 | hnv2
        · rw [hnv2]
          exact ⟨bv, hbv, hpe⟩
        · exact hgp nv2 hnv2


/-!
Map apply groundwork: lookup/membership interplay, insertion on an absent
key appends, removing/overwriting the head entry, and a frame rule for
applying changes whose keys avoid the head entry.
-/

theorem mem_of_mapGet : ∀ {es : List (RValue × RValue)} {k v : RValue},
    mapGet es k = some v → (k, v) ∈ es := by
  intro es
  induction es with
  | nil => intro k v h; rw [mapGet] at h; simp at h
  | cons e rest ih =>
    intro k v h
    obtain ⟨k0, v0⟩ := e
    rw [mapGet] at h
    by_cases hb : RValue.beq k0 k = true
    · rw [if_pos hb] at h
      have hk : k0 = k := (RValue.beq_iff k0 k).mp hb
      have hv : v0 = v := by simpa using h
      rw [← hk, ← hv]
      simp
    · rw [if_neg hb] at h
      exact List.mem_cons_of_mem _ (ih h)

theorem mapGet_eq_none_iff : ∀ {es : List (RValue × RValue)} {k : RValue},
    mapGet es k = none ↔ ∀ kv ∈ es, RValue.beq (Prod.fst kv) k = false := by
  intro es
  induction es with
  | nil => intro k; simp [mapGet]
  | cons e rest ih =>
    intro k
    obtain ⟨k0, v0⟩ := e
    rw [mapGet]
    constructor
    · intro h kv hkv
      by_cases hb : RValue.beq k0 k = true
      · rw [if_pos hb] at h; simp at h
      · rw [if_neg hb] at h
        rcases List.mem_cons.mp hkv with hkv | hkv
        · rw [hkv]; simpa using hb
        · exact ih.mp h kv hkv
    · intro h
      rw [if_neg (by simp [h (k0, v0) (by simp)])]
      exact ih.mpr (fun kv hkv => h kv (List.mem_cons_of_mem _ hkv))

theorem mapGet_append_none {es es' : List (RValue × RValue)} {k : RValue}
    (h1 : mapGet es k = none) (h2 : mapGet es' k = none) :
    mapGet (es ++ es') k = none := by
  rw [mapGet_eq_none_iff]
  intro kv hkv
  rcases List.mem_append.mp hkv with hm | hm
  · exact mapGet_eq_none_iff.mp h1 kv hm
  · exact mapGet_eq_none_iff.mp h2 kv hm

theorem mapInsert_append : ∀ {es : List (RValue × RValue)} {k v : RValue},
    mapGet es k = none → mapInsert es k v = es ++ [(k, v)] := by
  intro es
  induction es with
  | nil => intro k v _; rw [mapInsert]; rfl
  | cons e rest ih =>
    intro k v h
    obtain ⟨k0, v0⟩ := e
    have hb : RValue.beq k0 k = false := mapGet_eq_none_iff.mp h (k0, v0) (by simp)
    rw [mapInsert, if_neg (by simp [hb])]
    rw [mapGet, if_neg (by simp [hb])] at h
    simp [ih h]

theorem mapRemove_head {k v : RValue} {rest : List (RValue × RValue)} :
    mapRemove ((k, v) :: rest) k = rest := by
  rw [mapRemove, if_pos (RValue.beq_refl k)]

theorem mapInsert_head {k v r : RValue} {rest : List (RValue × RValue)} :
    mapInsert ((k, v) :: rest) k r = (k, r) :: rest := by
  rw [mapInsert, if_pos (RValue.beq_refl k)]

theorem nodupKeys_map_nodup : ∀ {es : List (RValue × RValue)},
    nodupKeys es = true → (es.map Prod.fst).Nodup := by
  intro es
  induction es with
  | nil => intro _; simp
  | cons e rest ih =>
    intro h
    obtain ⟨k0, v0⟩ := e
    rw [nodupKeys] at h
    simp only [Bool.and_eq_true, Bool.not_eq_true'] at h
    simp only [List.map_cons, List.nodup_cons]
    refine ⟨?_, ih h.2⟩
    intro hmem
    obtain ⟨kv, hkv, hfst⟩ := List.mem_map.mp hmem
    have := List.any_eq_false.mp h.1 kv hkv
    rw [hfst] at this
    simp [RValue.beq_refl] at this

theorem nodupKeys_filter {p : RValue × RValue → Bool} :
    ∀ {es : List (RValue × RValue)},
      nodupKeys es = true → nodupKeys (es.filter p) = true := by
  intro es
  induction es with
  | nil => intro h; simpa using h
  | cons e rest ih =>
    intro h
    obtain ⟨k0, v0⟩ := e
    rw [nodupKeys] at h
    simp only [Bool.and_eq_true, Bool.not_eq_true'] at h
    by_cases hp : p (k0, v0) = true
    · rw [List.filter_cons_of_pos hp]
      rw [nodupKeys]
      simp only [Bool.and_eq_true, Bool.not_eq_true']
      refine ⟨?_, ih h.2⟩
      refine List.any_eq_false.mpr (fun kv hkv => ?_)
      exact List.any_eq_false.mp h.1 kv (List.mem_of_mem_filter hkv)
    · rw [List.filter_cons_of_neg (by simpa using hp)]
      exact ih h.2

theorem filter_length_split {p : RValue × RValue → Bool} :
    ∀ (l : List (RValue × RValue)),
      (l.filter p).length + (l.filter (fun a => !(p a))).length = l.length := by
  intro l
  induction l with
  | nil => simp
  | cons a l ih =>
    by_cases hp : p a = true
    · rw [List.filter_cons_of_pos hp, List.filter_cons_of_neg (by simp [hp])]
      simp only [List.length_cons]
      omega
    · rw [List.filter_cons_of_neg (by simpa using hp),
        List.filter_cons_of_pos (by simpa using hp)]
      simp only [List.length_cons]
      omega

theorem applyMapChanges_frame :
    ∀ {cs : List MapDiff} {st : List (RValue × RValue)} {k v : RValue},
      (∀ c ∈ cs, RValue.beq (MapDiff.key c) k = false) →
      applyMapChanges cs ((k, v) :: st)
        = (fun es => (k, v) :: es) <$> applyMapChanges cs st := by
  intro cs
  induction cs with
  | nil => intro st k v _; rw [applyMapChanges, applyMapChanges, mapOk]
  | cons c cs ih =>
    intro st k v h
    have hk : RValue.beq (MapDiff.key c) k = false := h c (by simp)
    have hk' : RValue.beq k (MapDiff.key c) = false := by
      rw [RValue.beq_comm]; exact hk
    have htail : ∀ c' ∈ cs, RValue.beq (MapDiff.key c') k = false :=
      fun c' hc' => h c' (List.mem_cons_of_mem _ hc')
    cases c with
    | deleted k2 =>
      rw [applyMapChanges, applyMapChanges]
      rw [mapRemove, if_neg (by simpa [MapDiff.key] using hk')]
      exact ih htail
    | inserted k2 v2 =>
      rw [applyMapChanges, applyMapChanges]
      rw [mapInsert, if_neg (by simpa [MapDiff.key] using hk')]
      exact ih htail
    | modified k2 d =>
      rw [applyMapChanges, applyMapChanges]
      rw [mapGet, if_neg (by simpa [MapDiff.key] using hk')]
      cases hg : mapGet st k2 with
      | none => rfl
      | some w =>
        dsimp only
        cases hr : Diff.apply d w with
        | error e => rw [bindErr, bindErr]; rfl
        | ok r =>
          rw [bindOk, bindOk]
          rw [mapInsert, if_neg (by simpa [MapDiff.key] using hk')]
          exact ih htail

theorem diffMapEntries_key_mem {es es' : List (RValue × RValue)} {cs : List MapDiff}
    (h : diffMapEntries es es' = .ok cs) :
    ∀ c ∈ cs, ∃ v, (MapDiff.key c, v) ∈ es := by
  intro c hc
  rcases (diffMapEntries_spec h).2.2 c hc with ⟨k, v, hm, _, hcc⟩ |
      ⟨k, v, nv, d, hm, hg, hd, hnc, hcc⟩
  · exact ⟨v, by rw [hcc, MapDiff.key]; exact hm⟩
  · exact ⟨v, by rw [hcc, MapDiff.key]; exact hm⟩


/-!
The two passes of the modelled `apply_map_diff`: first the deletions and
in-place modifications coming from the old-entry walk, then the insertions
for the new-only keys.
-/

theorem applyMap_oldPass :
    ∀ {es es' : List (RValue × RValue)} {cs : List MapDiff},
      nodupKeys es = true →
      diffMapEntries es es' = .ok cs →
      (∀ k v, (k, v) ∈ es → ∀ nv d, mapGet es' k = some nv → diff v nv = .ok d →
        ∃ r, Diff.apply d v = .ok r ∧ reflectPartialEq r nv = some true) →
      ∃ st, applyMapChanges cs es = .ok st ∧
        st.map Prod.fst
          = (es.filter (fun kv => (mapGet es' (Prod.fst kv)).isSome)).map Prod.fst ∧
        ∀ kv ∈ st, ∃ nv, mapGet es' (Prod.fst kv) = some nv ∧
          reflectPartialEq (Prod.snd kv) nv = some true := by
  intro es
  induction es with
  | nil =>
    intro es' cs _ hd _
    rw [diffMapEntries] at hd
    have hcs : cs = [] := by simpa using hd.symm
    subst hcs
    refine ⟨[], by rw [applyMapChanges], by simp, ?_⟩
    intro kv hkv
    simp at hkv
  | cons e rest ih =>
    intro es' cs hnd hd hpt
    obtain ⟨k0, v0⟩ := e
    rw [nodupKeys] at hnd
    simp only [Bool.and_eq_true, Bool.not_eq_true'] at hnd
    rw [diffMapEntries] at hd
    cases hg : mapGet es' k0 with
    | none =>
      rw [hg] at hd
      dsimp only at hd
      cases hrest : diffMapEntries rest es' with
      | error e0 => rw [hrest] at hd; simp [bindErr] at hd
      | ok csr =>
        rw [hrest] at hd
        simp only [bindOk, pureOk, Except.ok.injEq] at hd
        subst hd
        obtain ⟨st, hst, hnames, hp⟩ := ih hnd.2 hrest
          (fun k v hm nv d hgk hdk => hpt k v (List.mem_cons_of_mem _ hm) nv d hgk hdk)
        refine ⟨st, ?_, ?_, hp⟩
        · rw [applyMapChanges, mapRemove_head]
          exact hst
        · rw [List.filter_cons_of_neg (by simp [hg])]
          exact hnames
    | some nv =>
      rw [hg] at hd
      dsimp only at hd
      cases hdv : diff v0 nv with
      | error e0 => rw [hdv] at hd; simp [bindErr] at hd
      | ok d =>
        rw [hdv] at hd
        cases hrest : diffMapEntries rest es' with
        | error e0 => rw [hrest] at hd; simp [bindOk, bindErr] at hd
        | ok csr =>
          rw [hrest] at hd
          simp only [bindOk] at hd
          obtain ⟨r, hr, hpe⟩ := hpt k0 v0 (by simp) nv d hg hdv
          have hfresh : ∀ c ∈ csr, RValue.beq (MapDiff.key c) k0 = false := by
            intro c hc
            obtain ⟨w, hw⟩ := diffMapEntries_key_mem hrest c hc
            simpa using List.any_eq_false.mp hnd.1 (MapDiff.key c, w) hw
          obtain ⟨st, hst, hnames, hp⟩ := ih hnd.2 hrest
            (fun k v hm nv2 d2 hgk hdk => hpt k v (List.mem_cons_of_mem _ hm) nv2 d2 hgk hdk)
          by_cases hni : d.isNoChange = true
          · rw [if_pos hni, pureOk, Except.ok.injEq] at hd
            subst hd
            have hd0 : d = Diff.noChange := isNoChange_iff.mp hni
            subst hd0
            have hrv : r = v0 := by
              rw [Diff.apply] at hr
              simpa using hr.symm
            subst hrv
            refine ⟨(k0, r) :: st, ?_, ?_, ?_⟩
            · rw [applyMapChanges_frame hfresh, hst, mapOk]
            · rw [List.filter_cons_of_pos (by simp [hg])]
              simpa using hnames
            · intro kv hkv
              rcases List.mem_cons.mp hkv with hkv | hkv
              · rw [hkv]
                exact ⟨nv, hg, hpe⟩
              · exact hp kv hkv
          · rw [if_neg hni, pureOk, Except.ok.injEq] at hd
            subst hd
            refine ⟨(k0, r) :: st, ?_, ?_, ?_⟩
            · rw [applyMapChanges]
              rw [mapGet, if_pos (RValue.beq_refl k0)]
              dsimp only
              rw [hr, bindOk, mapInsert_head]
              rw [applyMapChanges_frame hfresh, hst, mapOk]
            · rw [List.filter_cons_of_pos (by simp [hg])]
              simpa using hnames
            · intro kv hkv
              rcases List.mem_cons.mp hkv with hkv | hkv
              · rw [hkv]
                exact ⟨nv, hg, hpe⟩
              · exact hp kv hkv

theorem applyMap_inserts :
    ∀ {pairs : List (RValue × RValue)} {st : List (RValue × RValue)},
      (∀ kv ∈ pairs, mapGet st (Prod.fst kv) = none) → nodupKeys pairs = true →
      applyMapChanges
          (pairs.map (fun kv => MapDiff.inserted (Prod.fst kv) (Prod.snd kv))) st
        = .ok (st ++ pairs) := by
  intro pairs
  induction pairs with
  | nil => intro st _ _; rw [List.map_nil, applyMapChanges]; simp
  | cons kv pairs ih =>
    intro st h hnd
    obtain ⟨k, v⟩ := kv
    rw [nodupKeys] at hnd
    simp only [Bool.and_eq_true, Bool.not_eq_true'] at hnd
    rw [List.map_cons, applyMapChanges]
    rw [mapInsert_append (h (k, v) (by simp))]
    rw [ih ?_ hnd.2]
    · simp
    · intro kv2 hkv2
      refine mapGet_append_none (h kv2 (List.mem_cons_of_mem _ hkv2)) ?_
      have hb : RValue.beq (Prod.fst kv2) k = false := by
        simpa using List.any_eq_false.mp hnd.1 kv2 hkv2
      rw [mapGet, if_neg (by rw [RValue.beq_comm]; simp [hb])]
      rw [mapGet]

/-- Two maps with unique keys have the same number of shared keys counted
from either side. -/
theorem filter_isSome_length_eq {es es' : List (RValue × RValue)}
    (hnd : nodupKeys es = true) (hnd' : nodupKeys es' = true) :
    (es.filter (fun kv => (mapGet es' (Prod.fst kv)).isSome)).length
      = (es'.filter (fun kv => (mapGet es (Prod.fst kv)).isSome)).length := by
  have key : ∀ (as bs : List (RValue × RValue)), nodupKeys as = true →
      ((as.filter (fun kv => (mapGet bs (Prod.fst kv)).isSome)).map Prod.fst).Subperm
        ((bs.filter (fun kv => (mapGet as (Prod.fst kv)).isSome)).map Prod.fst) := by
    intro as bs hnda
    refine List.Nodup.subperm ?_ ?_
    · exact nodupKeys_map_nodup (nodupKeys_filter hnda)
    · intro x hx
      obtain ⟨kv, hkv, hfst⟩ := List.mem_map.mp hx
      obtain ⟨k, v⟩ := kv
      obtain ⟨hmem, hsome⟩ := List.mem_filter.mp hkv
      dsimp only at hsome hfst
      subst hfst
      obtain ⟨nv, hnv⟩ := Option.isSome_iff_exists.mp hsome
      have hbs : (k, nv) ∈ bs := mem_of_mapGet hnv
      refine List.mem_map.mpr ⟨(k, nv), List.mem_filter.mpr ⟨hbs, ?_⟩, rfl⟩
      dsimp only
      exact mapGet_isSome_of_mem hmem
  have h1 := (key es es' hnd).length_le
  have h2 := (key es' es hnd').length_le
  simp only [List.length_map] at h1 h2
  omega


/-!
Last round of small helpers for the apply-inverts-diff theorem.
-/

theorem mem_of_namedGet : ∀ {fs : List (String × RValue)} {n : String} {v : RValue},
    namedGet fs n = some v → (n, v) ∈ fs := by
  intro fs
  induction fs with
  | nil => intro n v h; rw [namedGet] at h; simp at h
  | cons e rest ih =>
    intro n v h
    obtain ⟨n0, v0⟩ := e
    rw [namedGet] at h
    by_cases hb : (n0 == n) = true
    · rw [if_pos hb] at h
      have hn : n0 = n := by simpa using hb
      have hv : v0 = v := by simpa using h
      rw [← hn, ← hv]
      simp
    · rw [if_neg hb] at h
      exact List.mem_cons_of_mem _ (ih h)

theorem forall2_swap {α β : Type} {R : α → β → Prop} :
    ∀ {l1 : List α} {l2 : List β}, List.Forall₂ R l1 l2 →
      List.Forall₂ (fun b a => R a b) l2 l1 := by
  intro l1 l2 hf
  induction hf with
  | nil => exact List.Forall₂.nil
  | cons hab _ ih => exact List.Forall₂.cons hab ih

theorem forall2_mem_left {α β : Type} {R : α → β → Prop} :
    ∀ {l1 : List α} {l2 : List β}, List.Forall₂ R l1 l2 →
      ∀ a ∈ l1, ∃ b ∈ l2, R a b := by
  intro l1 l2 hf
  induction hf with
  | nil => intro a ha; simp at ha
  | @cons x y l1' l2' hxy hf' ih =>
    intro a ha
    rcases List.mem_cons.mp ha with ha | ha
    · exact ⟨y, by simp, ha ▸ hxy⟩
    · obtain ⟨b, hb, hr⟩ := ih a ha
      exact ⟨b, List.mem_cons_of_mem _ hb, hr⟩

theorem diffMapEntries_ok_of_mem :
    ∀ {es es' : List (RValue × RValue)} {cs : List MapDiff},
      diffMapEntries es es' = .ok cs →
      ∀ k v, (k, v) ∈ es → ∀ nv, mapGet es' k = some nv → ∃ d, diff v nv = .ok d := by
  intro es
  induction es with
  | nil => intro es' cs _ k v hm; simp at hm
  | cons e rest ih =>
    intro es' cs h k v hm nv hg
    obtain ⟨k0, v0⟩ := e
    rw [diffMapEntries] at h
    rcases List.mem_cons.mp hm with hm | hm
    · simp only [Prod.mk.injEq] at hm
      obtain ⟨hk, hv⟩ := hm
      subst hk; subst hv
      rw [hg] at h
      dsimp only at h
      cases hd : diff v nv with
      | error e0 => rw [hd] at h; simp [bindErr] at h
      | ok d => exact ⟨d, rfl⟩
    · cases hg0 : mapGet es' k0 with
      | none =>
        rw [hg0] at h
        dsimp only at h
        cases hrest : diffMapEntries rest es' with
        | error e0 => rw [hrest] at h; simp [bindErr] at h
        | ok csr => exact ih hrest k v hm nv hg
      | some nv0 =>
        rw [hg0] at h
        dsimp only at h
        cases hd0 : diff v0 nv0 with
        | error e0 => rw [hd0] at h; simp [bindErr] at h
        | ok d0 =>
          rw [hd0] at h
          cases hrest : diffMapEntries rest es' with
          | error e0 => rw [hrest] at h; simp [bindOk, bindErr] at h
          | ok csr => exact ih hrest k v hm nv hg

theorem applyMapChanges_append :
    ∀ {a b : List MapDiff} {st : List (RValue × RValue)},
      applyMapChanges (a ++ b) st
        = applyMapChanges a st >>= fun st2 => applyMapChanges b st2 := by
  intro a
  induction a with
  | nil => intro b st; rw [List.nil_append, applyMapChanges, bindOk]
  | cons c a ih =>
    intro b st
    cases c with
    | deleted k =>
      rw [List.cons_append, applyMapChanges, applyMapChanges]
      exact ih
    | inserted k v =>
      rw [List.cons_append, applyMapChanges, applyMapChanges]
      exact ih
    | modified k d =>
      rw [List.cons_append, applyMapChanges, applyMapChanges]
      cases hg : mapGet st k with
      | none => dsimp only; rw [bindErr]
      | some v =>
        dsimp only
        cases hr : Diff.apply d v with
        | error e => simp only [bindErr]
        | ok r =>
          simp only [bindOk]
          exact ih


/-!
Shape inversion for the typing relation: a well-typed composite value's type
has the matching shape.
-/

theorem wellTyped_tuple_inv {tn : String} {fs : List RValue} {T : RType}
    (h : WellTyped (.tuple tn fs) T = true) : ∃ tnT ts, T = RType.tuple tnT ts := by
  cases T
  case tuple tnT ts => exact ⟨tnT, ts, rfl⟩
  all_goals (rw [WellTyped] at h <;> simp_all)

theorem wellTyped_array_inv {tn : String} {es : List RValue} {T : RType}
    (h : WellTyped (.array tn es) T = true) : ∃ tnT t n, T = RType.array tnT t n := by
  cases T
  case array tnT t n => exact ⟨tnT, t, n, rfl⟩
  all_goals (rw [WellTyped] at h <;> simp_all)

theorem wellTyped_list_inv {tn : String} {es : List RValue} {T : RType}
    (h : WellTyped (.list tn es) T = true) : ∃ tnT t, T = RType.list tnT t := by
  cases T
  case list tnT t => exact ⟨tnT, t, rfl⟩
  all_goals (rw [WellTyped] at h <;> simp_all)

theorem wellTyped_map_inv {tn : String} {es : List (RValue × RValue)} {T : RType}
    (h : WellTyped (.map tn es) T = true) : ∃ tnT kt vt, T = RType.map tnT kt vt := by
  cases T
  case map tnT kt vt => exact ⟨tnT, kt, vt, rfl⟩
  all_goals (rw [WellTyped] at h <;> simp_all)

theorem wellTyped_tupleStruct_inv {tn : String} {fs : List RValue} {T : RType}
    (h : WellTyped (.tupleStruct tn fs) T = true) :
    ∃ tnT ts, T = RType.tupleStruct tnT ts := by
  cases T
  case tupleStruct tnT ts => exact ⟨tnT, ts, rfl⟩
  all_goals (rw [WellTyped] at h <;> simp_all)

theorem wellTyped_struct_inv {tn : String} {fs : List (String × RValue)} {T : RType}
    (h : WellTyped (.struct tn fs) T = true) : ∃ tnT ts, T = RType.struct tnT ts := by
  cases T
  case struct tnT ts => exact ⟨tnT, ts, rfl⟩
  all_goals (rw [WellTyped] at h <;> simp_all)

theorem wellTyped_enumTuple_inv {tn vn : String} {fs : List RValue} {T : RType}
    (h : WellTyped (.enumTuple tn vn fs) T = true) :
    ∃ tnT vars, T = RType.enum tnT vars := by
  cases T
  case enum tnT vars => exact ⟨tnT, vars, rfl⟩
  all_goals (rw [WellTyped] at h <;> simp_all)

theorem wellTyped_enumStruct_inv {tn vn : String} {fs : List (String × RValue)} {T : RType}
    (h : WellTyped (.enumStruct tn vn fs) T = true) :
    ∃ tnT vars, T = RType.enum tnT vars := by
  cases T
  case enum tnT vars => exact ⟨tnT, vars, rfl⟩
  all_goals (rw [WellTyped] at h <;> simp_all)

/-- **C1**: for every pair of values `old` and `new` of matching type for
which `diff(old, new)` succeeds, applying the resulting diff to `old`
(`Diff::apply` with `old` as the base) yields a value observably equal, via
the equality capability (`reflect_partial_eq`), to `new`.  Modelled from the
spec for the apply bodies that are not under `src/`; `new` is required to be
well-formed (comparable leaves, unique map keys and struct field names) so
that the equality capability is available on it. -/
theorem apply_inverts_diff :
    ∀ (old : RValue) (T : RType) (new : RValue) (d : Diff),
      WellTyped old T = true → WellTyped new T = true → WellFormed new = true →
      diff old new = .ok d →
      ∃ r, Diff.apply d old = .ok r ∧ reflectPartialEq r new = some true := by
  intro old
  induction old using RValue.inductionOn with
  | hvalue tn p c =>
    intro T new d hT hT' hwf hd
    rw [diff] at hd
    by_cases htn : tn ≠ new.typeName
    · rw [if_pos htn] at hd
      simp only [Except.ok.injEq] at hd
      subst hd
      exact ⟨new, by rw [Diff.apply], partialEq_refl _ hwf⟩
    · rw [if_neg htn] at hd
      cases hpe : reflectPartialEq (RValue.value tn p c) new with
      | none => rw [hpe] at hd; simp at hd
      | some b =>
        rw [hpe] at hd
        cases b with
        | true =>
          dsimp only at hd
          simp only [Except.ok.injEq] at hd
          subst hd
          exact ⟨RValue.value tn p c, by rw [Diff.apply], hpe⟩
        | false =>
          dsimp only at hd
          simp only [Except.ok.injEq] at hd
          subst hd
          refine ⟨new, ?_, partialEq_refl _ hwf⟩
          rw [Diff.apply, applyDiffType]
  | htuple tn fs ih =>
    intro T new d hT hT' hwf hd
    cases new
    case tuple tn' fs' =>
      rw [diff] at hd
      by_cases hc : fs.length ≠ fs'.length ∨ tn ≠ tn'
      · rw [if_pos hc] at hd
        simp only [Except.ok.injEq] at hd
        subst hd
        exact ⟨.tuple tn' fs', by rw [Diff.apply], partialEq_refl _ hwf⟩
      · rw [if_neg hc] at hd
        push_neg at hc
        obtain ⟨hlen, htneq⟩ := hc
        obtain ⟨tnT, ts, rfl⟩ := wellTyped_tuple_inv hT
        rw [WellTyped] at hT hT'
        simp only [Bool.and_eq_true] at hT hT'
        have hwt : wtList fs ts = true := hT.2
        have hwt' : wtList fs' ts = true := hT'.2
        rw [WellFormed] at hwf
        cases hds : diffFields fs fs' with
        | error e => rw [hds] at hd; simp [bindErr] at hd
        | ok ds =>
          rw [hds] at hd
          simp only [bindOk] at hd
          have hspec := diffFields_spec hds
          have hdslen : ds.length = fs.length := by rw [hspec.1]; omega
          have hex : ∀ k (h1 : k < ds.length) (h2 : k < fs.length) (h3 : k < fs'.length),
              ∃ r, Diff.apply (ds.get ⟨k, h1⟩) (fs.get ⟨k, h2⟩) = .ok r ∧
                reflectPartialEq r (fs'.get ⟨k, h3⟩) = some true := by
            intro k h1 h2 h3
            have hkts : k < ts.length := by
              have := wtList_length hwt
              omega
            exact ih (fs.get ⟨k, h2⟩) (List.get_mem fs k h2) (ts.get ⟨k, hkts⟩)
              (fs'.get ⟨k, h3⟩) (ds.get ⟨k, h1⟩)
              (wtList_get hwt k h2 hkts) (wtList_get hwt' k h3 hkts)
              (wfList_mem hwf _ (List.get_mem fs' k h3))
              (hspec.2 k h2 h3 h1)
          by_cases hall : ds.all Diff.isNoChange = true
          · rw [if_pos hall, pureOk] at hd
            simp only [Except.ok.injEq] at hd
            subst hd
            refine ⟨.tuple tn fs, by rw [Diff.apply], ?_⟩
            rw [reflectPartialEq]
            rw [if_neg (by omega)]
            refine partialEqList_of_get hlen ?_
            intro k h2 h3
            have h1 : k < ds.length := by omega
            obtain ⟨r, hr, hpek⟩ := hex k h1 h2 h3
            have hdk : ds.get ⟨k, h1⟩ = Diff.noChange :=
              isNoChange_iff.mp (List.all_eq_true.mp hall _ (List.get_mem ds k h1))
            rw [hdk, Diff.apply] at hr
            have hrk : r = fs.get ⟨k, h2⟩ := by simpa using hr.symm
            rw [← hrk]
            exact hpek
          · rw [if_neg hall, pureOk] at hd
            simp only [Except.ok.injEq] at hd
            subst hd
            obtain ⟨rs, hrs, hrslen, hpt⟩ := applyFields_triple hdslen hlen hex
            refine ⟨.tuple tn rs, ?_, ?_⟩
            · rw [Diff.apply, applyDiffType, hrs, bindOk, pureOk]
            · rw [reflectPartialEq]
              rw [if_neg (by omega)]
              exact partialEqList_of_get hrslen hpt
    all_goals simp [diff] at hd
  | harray tn es ih =>
    intro T new d hT hT' hwf hd
    cases new
    case array tn' es' =>
      rw [diff] at hd
      by_cases hc : es.length ≠ es'.length ∨ tn ≠ tn'
      · rw [if_pos hc] at hd
        simp only [Except.ok.injEq] at hd
        subst hd
        exact ⟨.array tn' es', by rw [Diff.apply], partialEq_refl _ hwf⟩
      · rw [if_neg hc] at hd
        push_neg at hc
        obtain ⟨hlen, htneq⟩ := hc
        obtain ⟨tnT, t, n, rfl⟩ := wellTyped_array_inv hT
        rw [WellTyped] at hT hT'
        simp only [Bool.and_eq_true] at hT hT'
        have hwt : wtAll es t = true := hT.2
        have hwt' : wtAll es' t = true := hT'.2
        rw [WellFormed] at hwf
        cases hds : diffFields es es' with
        | error e => rw [hds] at hd; simp [bindErr] at hd
        | ok ds =>
          rw [hds] at hd
          simp only [bindOk] at hd
          have hspec := diffFields_spec hds
          have hdslen : ds.length = es.length := by rw [hspec.1]; omega
          have hex : ∀ k (h1 : k < ds.length) (h2 : k < es.length) (h3 : k < es'.length),
              ∃ r, Diff.apply (ds.get ⟨k, h1⟩) (es.get ⟨k, h2⟩) = .ok r ∧
                reflectPartialEq r (es'.get ⟨k, h3⟩) = some true := by
            intro k h1 h2 h3
            exact ih (es.get ⟨k, h2⟩) (List.get_mem es k h2) t
              (es'.get ⟨k, h3⟩) (ds.get ⟨k, h1⟩)
              (wtAll_mem hwt _ (List.get_mem es k h2))
              (wtAll_mem hwt' _ (List.get_mem es' k h3))
              (wfList_mem hwf _ (List.get_mem es' k h3))
              (hspec.2 k h2 h3 h1)
          by_cases hall : ds.all Diff.isNoChange = true
          · rw [if_pos hall, pureOk] at hd
            simp only [Except.ok.injEq] at hd
            subst hd
            refine ⟨.array tn es, by rw [Diff.apply], ?_⟩
            rw [reflectPartialEq]
            rw [if_neg (by omega)]
            refine partialEqList_of_get hlen ?_
            intro k h2 h3
            have h1 : k < ds.length := by omega
            obtain ⟨r, hr, hpek⟩ := hex k h1 h2 h3
            have hdk : ds.get ⟨k, h1⟩ = Diff.noChange :=
              isNoChange_iff.mp (List.all_eq_true.mp hall _ (List.get_mem ds k h1))
            rw [hdk, Diff.apply] at hr
            have hrk : r = es.get ⟨k, h2⟩ := by simpa using hr.symm
            rw [← hrk]
            exact hpek
          · rw [if_neg hall, pureOk] at hd
            simp only [Except.ok.injEq] at hd
            subst hd
            obtain ⟨rs, hrs, hrslen, hpt⟩ := applyFields_triple hdslen hlen hex
            refine ⟨.array tn rs, ?_, ?_⟩
            · rw [Diff.apply, applyDiffType, hrs, bindOk, pureOk]
            · rw [reflectPartialEq]
              rw [if_neg (by omega)]
              exact partialEqList_of_get hrslen hpt
    all_goals simp [diff] at hd
  | hlist tn es ih =>
    intro T new d hT hT' hwf hd
    cases new
    case list tn' es' =>
      by_cases htn : tn ≠ tn'
      · rw [diff] at hd
        rw [if_pos htn] at hd
        simp only [Except.ok.injEq] at hd
        subst hd
        exact ⟨.list tn' es', by rw [Diff.apply], partialEq_refl _ hwf⟩
      · obtain ⟨tnT, t, rfl⟩ := wellTyped_list_inv hT
        rw [WellTyped] at hT hT'
        simp only [Bool.and_eq_true] at hT hT'
        have hwt : wtAll es t = true := hT.2
        have hwt' : wtAll es' t = true := hT'.2
        rw [WellFormed] at hwf
        have hconv : ∀ a b, b ∈ es' →
            (a = b ∨ tableEq es es' (diffMatrix es es') a b = true) →
            reflectPartialEq a b = some true := by
          intro a b hb hr
          rcases hr with hr | hr
          · subst hr
            exact partialEq_refl _ (wfList_mem hwf _ hb)
          · obtain ⟨ha2, hb2⟩ := tableEq_true_mem hr
            rw [tableEq_spec ha2 hb2] at hr
            have hnc := noChangeB_iff.mp hr
            obtain ⟨r, hrr, hpe2⟩ := ih a ha2 t b Diff.noChange
              (wtAll_mem hwt a ha2) (wtAll_mem hwt' b hb2)
              (wfList_mem hwf b hb2) hnc
            rw [Diff.apply] at hrr
            have hra : r = a := by simpa using hrr.symm
            rw [← hra]
            exact hpe2
        have hdiff : diff (.list tn es) (.list tn' es')
            = .ok (if (myersScript (tableEq es es' (diffMatrix es es')) es es' 0).isEmpty
                   then Diff.noChange
                   else Diff.modified (DiffType.list tn'
                     (myersScript (tableEq es es' (diffMatrix es es')) es es' 0))) := by
          rw [diff]
          rw [if_neg htn]
          by_cases he : (myersScript (tableEq es es' (diffMatrix es es')) es es' 0).isEmpty <;>
            simp [he]
        rw [hdiff] at hd
        simp only [Except.ok.injEq] at hd
        by_cases he : (myersScript (tableEq es es' (diffMatrix es es')) es es' 0).isEmpty = true
        · rw [if_pos he] at hd
          subst hd
          refine ⟨.list tn es, by rw [Diff.apply], ?_⟩
          have hscr : myersScript (tableEq es es' (diffMatrix es es')) es es' 0 = [] := by
            simpa using he
          have hvalid := @replay_myersScript (tableEq es es' (diffMatrix es es')) es es' 0
          rw [hscr, replayList_nil_changes] at hvalid
          have hf := forall2_imp_mem hvalid (fun a b _ hb hr => hconv a b hb hr)
          rw [reflectPartialEq]
          rw [if_neg (by have := List.Forall₂.length_eq hf; omega)]
          exact partialEqList_of_pointwise (fun _ _ _ _ => trivial) hf
        · rw [if_neg he] at hd
          subst hd
          have hvalid := @replay_myersScript (tableEq es es' (diffMatrix es es')) es es' 0
          have hf := forall2_imp_mem hvalid (fun a b _ hb hr => hconv a b hb hr)
          refine ⟨.list tn (replayList
            (myersScript (tableEq es es' (diffMatrix es es')) es es' 0) es 0), ?_, ?_⟩
          · rw [Diff.apply, applyDiffType]
            rw [if_neg htn]
          · rw [reflectPartialEq]
            rw [if_neg (by have := List.Forall₂.length_eq hf; omega)]
            exact partialEqList_of_pointwise (fun _ _ _ _ => trivial) hf
    all_goals simp [diff] at hd
  | hmap tn es ih =>
    intro T new d hT hT' hwf hd
    cases new
    case map tn' es' =>
      rw [diff] at hd
      by_cases htn : tn ≠ tn'
      · rw [if_pos htn] at hd
        simp only [Except.ok.injEq] at hd
        subst hd
        exact ⟨.map tn' es', by rw [Diff.apply], partialEq_refl _ hwf⟩
      · rw [if_neg htn] at hd
        obtain ⟨tnT, kt, vt, rfl⟩ := wellTyped_map_inv hT
        rw [WellTyped] at hT hT'
        simp only [Bool.and_eq_true] at hT hT'
        have hnd : nodupKeys es = true := hT.1.2
        have hnd' : nodupKeys es' = true := hT'.1.2
        have hwtp : wtPairs es kt vt = true := hT.2
        have hwtp' : wtPairs es' kt vt = true := hT'.2
        rw [WellFormed] at hwf
        simp only [Bool.and_eq_true] at hwf
        cases hme : diffMapEntries es es' with
        | error e => rw [hme] at hd; simp [bindErr] at hd
        | ok cs0 =>
          rw [hme] at hd
          simp only [bindOk] at hd
          by_cases he : (cs0 ++ mapInsertedChanges es es').isEmpty = true
          · rw [if_pos he, pureOk] at hd
            simp only [Except.ok.injEq] at hd
            subst hd
            have happ : cs0 = [] ∧ mapInsertedChanges es es' = [] :=
              List.append_eq_nil.mp (by simpa using he)
            refine ⟨.map tn es, by rw [Diff.apply], ?_⟩
            have hpoint : ∀ kv ∈ es, ∃ nv, mapGet es' (Prod.fst kv) = some nv ∧
                reflectPartialEq (Prod.snd kv) nv = some true := by
              intro kv hkv
              obtain ⟨k, v⟩ := kv
              cases hg : mapGet es' k with
              | none =>
                exfalso
                have hmem := (diffMapEntries_spec hme).1 k v hkv hg
                rw [happ.1] at hmem
                simp at hmem
              | some nv =>
                obtain ⟨d0, hd0⟩ := diffMapEntries_ok_of_mem hme k v hkv nv hg
                have hnc : d0.isNoChange = true := by
                  by_contra hcon
                  have hmem := (diffMapEntries_spec hme).2.1 k v nv d0 hkv hg hd0
                    (by simpa using hcon)
                  rw [happ.1] at hmem
                  simp at hmem
                have hd0' : d0 = Diff.noChange := isNoChange_iff.mp hnc
                subst hd0'
                obtain ⟨r, hrr, hpe2⟩ := (ih (k, v) hkv).2 vt nv Diff.noChange
                  (wtPairs_mem hwtp (k, v) hkv).2
                  (wtPairs_mem hwtp' (k, nv) (mem_of_mapGet hg)).2
                  ((wfPairs_mem hwf.2 (k, nv) (mem_of_mapGet hg)).2) hd0
                rw [Diff.apply] at hrr
                have hrv : r = v := by simpa using hrr.symm
                rw [← hrv]
                exact ⟨nv, rfl, hpe2⟩
            rw [reflectPartialEq]
            have hfilters : es.filter (fun kv => (mapGet es' (Prod.fst kv)).isSome) = es :=
              List.filter_eq_self.mpr (fun kv hkv => by
                obtain ⟨nv, hg, _⟩ := hpoint kv hkv
                simp [hg])
            have hins : ∀ kv ∈ es', (mapGet es (Prod.fst kv)).isSome = true := by
              intro kv hkv
              by_contra hcon
              have hnone : mapGet es (Prod.fst kv) = none := by
                cases hmg : mapGet es (Prod.fst kv) with
                | none => rfl
                | some w => rw [hmg] at hcon; simp at hcon
              have hmem : MapDiff.inserted (Prod.fst kv) (Prod.snd kv)
                  ∈ mapInsertedChanges es es' :=
                mapInsertedChanges_mem.mpr
                  ⟨Prod.fst kv, Prod.snd kv, (by simpa using hkv), hnone, rfl⟩
              rw [happ.2] at hmem
              simp at hmem
            have hfilters' : es'.filter (fun kv => (mapGet es (Prod.fst kv)).isSome) = es' :=
              List.filter_eq_self.mpr hins
            have hleneq : es.length = es'.length := by
              have hfl := filter_isSome_length_eq hnd hnd'
              rw [hfilters, hfilters'] at hfl
              exact hfl
            rw [if_neg (by omega)]
            exact partialEqEntries_of_pointwise hpoint
          · rw [if_neg he, pureOk] at hd
            simp only [Except.ok.injEq] at hd
            subst hd
            have hptw : ∀ k v, (k, v) ∈ es → ∀ nv d2, mapGet es' k = some nv →
                diff v nv = .ok d2 →
                ∃ r, Diff.apply d2 v = .ok r ∧ reflectPartialEq r nv = some true := by
              intro k v hm nv d2 hg hdk
              exact (ih (k, v) hm).2 vt nv d2 (wtPairs_mem hwtp (k, v) hm).2
                (wtPairs_mem hwtp' (k, nv) (mem_of_mapGet hg)).2
                ((wfPairs_mem hwf.2 (k, nv) (mem_of_mapGet hg)).2) hdk
            obtain ⟨st, hst, hnames, hp⟩ := applyMap_oldPass hnd hme hptw
            have hstnone : ∀ kv ∈ es'.filter (fun kv => (mapGet es (Prod.fst kv)).isNone),
                mapGet st (Prod.fst kv) = none := by
              intro kv hkv
              obtain ⟨hkv', hpred⟩ := List.mem_filter.mp hkv
              have hnone : mapGet es (Prod.fst kv) = none := by
                simpa [Option.isNone_iff_eq_none] using hpred
              rw [mapGet_eq_none_iff]
              intro kv2 hkv2
              by_contra hbb
              have hbeq : RValue.beq (Prod.fst kv2) (Prod.fst kv) = true := by
                simpa using hbb
              have heq2 : Prod.fst kv2 = Prod.fst kv := (RValue.beq_iff _ _).mp hbeq
              have hmem2 : Prod.fst kv2 ∈ st.map Prod.fst :=
                List.mem_map_of_mem Prod.fst hkv2
              rw [hnames] at hmem2
              obtain ⟨kv3, hkv3, hfst3⟩ := List.mem_map.mp hmem2
              obtain ⟨hkv3es, hsome3⟩ := List.mem_filter.mp hkv3
              have hsome4 : (mapGet es (Prod.fst kv3)).isSome :=
                mapGet_isSome_of_mem (by simpa using hkv3es)
              rw [hfst3, heq2, hnone] at hsome4
              simp at hsome4
            have hinspairs := applyMap_inserts hstnone (nodupKeys_filter hnd')
            refine ⟨.map tn
              (st ++ es'.filter (fun kv => (mapGet es (Prod.fst kv)).isNone)), ?_, ?_⟩
            · rw [Diff.apply, applyDiffType, applyMapChanges_append, hst, bindOk,
                mapInsertedChanges, hinspairs, bindOk, pureOk]
            · rw [reflectPartialEq]
              have hstlen : st.length
                  = (es.filter (fun kv => (mapGet es' (Prod.fst kv)).isSome)).length := by
                have hc2 := congrArg List.length hnames
                simpa using hc2
              have hsplit := @filter_length_split
                (fun kv => (mapGet es (Prod.fst kv)).isSome) es'
              have hcong : es'.filter (fun kv => (mapGet es (Prod.fst kv)).isNone)
                  = es'.filter (fun kv => !((mapGet es (Prod.fst kv)).isSome)) := by
                refine List.filter_congr ?_
                intro kv _
                cases mapGet es (Prod.fst kv) <;> rfl
              have hlen2 := filter_isSome_length_eq hnd hnd'
              rw [if_neg (by
                rw [hcong]
                have h1 : (st ++ es'.filter
                    (fun kv => !((mapGet es (Prod.fst kv)).isSome))).length
                    = st.length + (es'.filter
                        (fun kv => !((mapGet es (Prod.fst kv)).isSome))).length := by
                  simp
                omega)]
              refine partialEqEntries_of_pointwise ?_
              intro kv hkv
              rcases List.mem_append.mp hkv with hkv | hkv
              · exact hp kv hkv
              · obtain ⟨hkv', _⟩ := List.mem_filter.mp hkv
                refine ⟨Prod.snd kv, ?_, ?_⟩
                · exact mapGet_of_mem_nodup hnd' (by simpa using hkv')
                · exact partialEq_refl _ ((wfPairs_mem hwf.2 kv hkv').2)
    all_goals simp [diff] at hd
  | htupleStruct tn fs ih =>
    intro T new d hT hT' hwf hd
    cases new
    case tupleStruct tn' fs' =>
      rw [diff] at hd
      by_cases hc : fs.length ≠ fs'.length ∨ tn ≠ tn'
      · rw [if_pos hc] at hd
        simp only [Except.ok.injEq] at hd
        subst hd
        exact ⟨.tupleStruct tn' fs', by rw [Diff.apply], partialEq_refl _ hwf⟩
      · rw [if_neg hc] at hd
        push_neg at hc
        obtain ⟨hlen, htneq⟩ := hc
        obtain ⟨tnT, ts, rfl⟩ := wellTyped_tupleStruct_inv hT
        rw [WellTyped] at hT hT'
        simp only [Bool.and_eq_true] at hT hT'
        have hwt : wtList fs ts = true := hT.2
        have hwt' : wtList fs' ts = true := hT'.2
        rw [WellFormed] at hwf
        cases hds : diffFields fs fs' with
        | error e => rw [hds] at hd; simp [bindErr] at hd
        | ok ds =>
          rw [hds] at hd
          simp only [bindOk] at hd
          have hspec := diffFields_spec hds
          have hdslen : ds.length = fs.length := by rw [hspec.1]; omega
          have hex : ∀ k (h1 : k < ds.length) (h2 : k < fs.length) (h3 : k < fs'.length),
              ∃ r, Diff.apply (ds.get ⟨k, h1⟩) (fs.get ⟨k, h2⟩) = .ok r ∧
                reflectPartialEq r (fs'.get ⟨k, h3⟩) = some true := by
            intro k h1 h2 h3
            have hkts : k < ts.length := by
              have := wtList_length hwt
              omega
            exact ih (fs.get ⟨k, h2⟩) (List.get_mem fs k h2) (ts.get ⟨k, hkts⟩)
              (fs'.get ⟨k, h3⟩) (ds.get ⟨k, h1⟩)
              (wtList_get hwt k h2 hkts) (wtList_get hwt' k h3 hkts)
              (wfList_mem hwf _ (List.get_mem fs' k h3))
              (hspec.2 k h2 h3 h1)
          by_cases hall : ds.all Diff.isNoChange = true
          · rw [if_pos hall, pureOk] at hd
            simp only [Except.ok.injEq] at hd
            subst hd
            refine ⟨.tupleStruct tn fs, by rw [Diff.apply], ?_⟩
            rw [reflectPartialEq]
            rw [if_neg (by omega)]
            refine partialEqList_of_get hlen ?_
            intro k h2 h3
            have h1 : k < ds.length := by omega
            obtain ⟨r, hr, hpek⟩ := hex k h1 h2 h3
            have hdk : ds.get ⟨k, h1⟩ = Diff.noChange :=
              isNoChange_iff.mp (List.all_eq_true.mp hall _ (List.get_mem ds k h1))
            rw [hdk, Diff.apply] at hr
            have hrk : r = fs.get ⟨k, h2⟩ := by simpa using hr.symm
            rw [← hrk]
            exact hpek
          · rw [if_neg hall, pureOk] at hd
            simp only [Except.ok.injEq] at hd
            subst hd
            obtain ⟨rs, hrs, hrslen, hpt⟩ := applyFields_triple hdslen hlen hex
            refine ⟨.tupleStruct tn rs, ?_, ?_⟩
            · rw [Diff.apply, applyDiffType, hrs, bindOk, pureOk]
            · rw [reflectPartialEq]
              rw [if_neg (by omega)]
              exact partialEqList_of_get hrslen hpt
    all_goals simp [diff] at hd
  | hstruct tn fs ih =>
    intro T new d hT hT' hwf hd
    cases new
    case struct tn' fs' =>
      rw [diff] at hd
      by_cases htn : tn ≠ tn'
      · rw [if_pos htn] at hd
        simp only [Except.ok.injEq] at hd
        subst hd
        exact ⟨.struct tn' fs', by rw [Diff.apply], partialEq_refl _ hwf⟩
      · rw [if_neg htn] at hd
        obtain ⟨tnT, ts, rfl⟩ := wellTyped_struct_inv hT
        rw [WellTyped] at hT hT'
        simp only [Bool.and_eq_true] at hT hT'
        have hndf : nodupNames fs = true := hT.1.2
        have hndf' : nodupNames fs' = true := hT'.1.2
        have hwtn : wtNamed fs ts = true := hT.2
        have hwtn' : wtNamed fs' ts = true := hT'.2
        rw [WellFormed] at hwf
        simp only [Bool.and_eq_true] at hwf
        cases hds : diffNamedFields fs fs' with
        | error e => rw [hds] at hd; simp [bindErr] at hd
        | ok ds =>
          rw [hds] at hd
          simp only [bindOk] at hd
          obtain ⟨hdnames, hdf2⟩ := diffNamedFields_spec hds
          have hpair : ∀ (nv : String × RValue), nv ∈ fs →
              ∀ (d2 : Diff) (bv : RValue), namedGet fs' (Prod.fst nv) = some bv →
                diff (Prod.snd nv) bv = .ok d2 →
                ∃ r, Diff.apply d2 (Prod.snd nv) = .ok r ∧
                  reflectPartialEq r bv = some true := by
            intro nv hnv d2 bv hbv hd2
            have hget : namedGet fs (Prod.fst nv) = some (Prod.snd nv) :=
              namedGet_of_mem_nodup hndf (by simpa using hnv)
            obtain ⟨t, hts, hvt⟩ := wtNamed_lookup hwtn hget
            obtain ⟨t2, hts2, hbt⟩ := wtNamed_lookup hwtn' hbv
            rw [hts] at hts2
            have ht12 : t = t2 := by simpa using hts2
            subst ht12
            have hbmem : (Prod.fst nv, bv) ∈ fs' := mem_of_namedGet hbv
            exact ih nv hnv t bv d2 hvt hbt
              (wfNamed_mem hwf.2 (Prod.fst nv, bv) hbmem) hd2
          have hlen1 : fs.length = fs'.length := by
            have h1 := congrArg List.length (wtNamed_names hwtn)
            have h2 := congrArg List.length (wtNamed_names hwtn')
            simp only [List.length_map] at h1 h2
            omega
          by_cases hall : (ds.map Prod.snd).all Diff.isNoChange = true
          · rw [if_pos hall, pureOk] at hd
            simp only [Except.ok.injEq] at hd
            subst hd
            refine ⟨.struct tn fs, by rw [Diff.apply], ?_⟩
            have hpoint : ∀ nv ∈ fs, ∃ bv, namedGet fs' (Prod.fst nv) = some bv ∧
                reflectPartialEq (Prod.snd nv) bv = some true := by
              intro nv hnv
              obtain ⟨nd, hnd2, hrel⟩ := forall2_mem_left hdf2 nv hnv
              obtain ⟨hname, bv, hbv, hdiffv⟩ := hrel
              have hncd : Prod.snd nd = Diff.noChange := by
                have hia := List.all_eq_true.mp hall (Prod.snd nd)
                  (List.mem_map_of_mem Prod.snd hnd2)
                exact isNoChange_iff.mp hia
              rw [hncd] at hdiffv
              obtain ⟨r, hrr, hpe2⟩ := hpair nv hnv Diff.noChange bv hbv hdiffv
              rw [Diff.apply] at hrr
              have hrv : r = Prod.snd nv := by simpa using hrr.symm
              rw [← hrv]
              exact ⟨bv, hbv, hpe2⟩
            rw [reflectPartialEq]
            rw [if_neg (by omega)]
            exact partialEqNamed_of_pointwise hpoint
          · rw [if_neg hall, pureOk] at hd
            simp only [Except.ok.injEq] at hd
            subst hd
            have hforall : List.Forall₂ (fun (nd : String × Diff) (nv : String × RValue) =>
                ∃ r, Diff.apply (Prod.snd nd) (Prod.snd nv) = .ok r ∧
                  ∃ bv, namedGet fs' (Prod.fst nd) = some bv ∧
                    reflectPartialEq r bv = some true) ds fs := by
              refine forall2_imp_mem (forall2_swap hdf2) ?_
              intro nd nv hnd2 hnv hrel
              obtain ⟨hname, bv, hbv, hdiffv⟩ := hrel
              obtain ⟨r, hrr, hpe2⟩ := hpair nv hnv (Prod.snd nd) bv hbv hdiffv
              refine ⟨r, hrr, bv, ?_, hpe2⟩
              rw [← hname]
              exact hbv
            obtain ⟨gs, hgs, hgnames, hgp⟩ := applyNamed_exists hdnames hndf hforall
            refine ⟨.struct tn gs, ?_, ?_⟩
            · rw [Diff.apply, applyDiffType, hgs, bindOk, pureOk]
            · rw [reflectPartialEq]
              have hglen : gs.length = fs.length := by
                have hc2 := congrArg List.length hgnames
                simpa using hc2
              rw [if_neg (by omega)]
              exact partialEqNamed_of_pointwise hgp
    all_goals simp [diff] at hd
  | henumUnit tn vn =>
    intro T new d hT hT' hwf hd
    cases new
    case enumUnit tn' vn' =>
      rw [diff] at hd
      by_cases hc : vn ≠ vn' ∨ tn ≠ tn'
      · rw [if_pos hc] at hd
        simp only [Except.ok.injEq] at hd
        subst hd
        exact ⟨.enumUnit tn' vn', by rw [Diff.apply], partialEq_refl _ hwf⟩
      · rw [if_neg hc] at hd
        simp only [Except.ok.injEq] at hd
        subst hd
        exact ⟨.enumUnit tn vn, by rw [Diff.apply], by rw [reflectPartialEq]⟩
    case enumTuple tn' vn' fs' =>
      rw [diff] at hd
      simp only [Except.ok.injEq] at hd
      subst hd
      exact ⟨.enumTuple tn' vn' fs', by rw [Diff.apply], partialEq_refl _ hwf⟩
    case enumStruct tn' vn' fs' =>
      rw [diff] at hd
      simp only [Except.ok.injEq] at hd
      subst hd
      exact ⟨.enumStruct tn' vn' fs', by rw [Diff.apply], partialEq_refl _ hwf⟩
    all_goals simp [diff] at hd
  | henumTuple tn vn fs ih =>
    intro T new d hT hT' hwf hd
    cases new
    case enumTuple tn' vn' fs' =>
      rw [diff] at hd
      by_cases hc : vn ≠ vn' ∨ tn ≠ tn'
      · rw [if_pos hc] at hd
        simp only [Except.ok.injEq] at hd
        subst hd
        exact ⟨.enumTuple tn' vn' fs', by rw [Diff.apply], partialEq_refl _ hwf⟩
      · rw [if_neg hc] at hd
        push_neg at hc
        obtain ⟨hvn, htneq⟩ := hc
        subst hvn
        obtain ⟨tnT, vars, rfl⟩ := wellTyped_enumTuple_inv hT
        rw [WellTyped] at hT hT'
        simp only [Bool.and_eq_true] at hT hT'
        have hT2 := hT.2
        have hT2' := hT'.2
        cases hsig : sigGet vars vn with
        | none => rw [hsig] at hT2; simp at hT2
        | some sg =>
          rw [hsig] at hT2 hT2'
          cases sg with
          | unit => simp at hT2
          | struct ts0 => simp at hT2
          | tuple ts =>
            dsimp only at hT2 hT2'
            have hlen : fs.length = fs'.length := by
              have hl1 := wtList_length hT2
              have hl2 := wtList_length hT2'
              omega
            rw [WellFormed] at hwf
            cases hds : diffFields fs fs' with
            | error e => rw [hds] at hd; simp [bindErr] at hd
            | ok ds =>
              rw [hds] at hd
              simp only [bindOk] at hd
              have hspec := diffFields_spec hds
              have hdslen : ds.length = fs.length := by rw [hspec.1]; omega
              have hex : ∀ k (h1 : k < ds.length) (h2 : k < fs.length)
                  (h3 : k < fs'.length),
                  ∃ r, Diff.apply (ds.get ⟨k, h1⟩) (fs.get ⟨k, h2⟩) = .ok r ∧
                    reflectPartialEq r (fs'.get ⟨k, h3⟩) = some true := by
                intro k h1 h2 h3
                have hkts : k < ts.length := by
                  have := wtList_length hT2
                  omega
                exact ih (fs.get ⟨k, h2⟩) (List.get_mem fs k h2) (ts.get ⟨k, hkts⟩)
                  (fs'.get ⟨k, h3⟩) (ds.get ⟨k, h1⟩)
                  (wtList_get hT2 k h2 hkts) (wtList_get hT2' k h3 hkts)
                  (wfList_mem hwf _ (List.get_mem fs' k h3))
                  (hspec.2 k h2 h3 h1)
              by_cases hall : ds.all Diff.isNoChange = true
              · rw [if_pos hall, pureOk] at hd
                simp only [Except.ok.injEq] at hd
                subst hd
                exact ⟨.enumTuple tn vn fs, by rw [Diff.apply],
                  by rw [reflectPartialEq]⟩
              · rw [if_neg hall, pureOk] at hd
                simp only [Except.ok.injEq] at hd
                subst hd
                obtain ⟨rs, hrs, hrslen, hpt⟩ := applyFields_triple hdslen hlen hex
                refine ⟨.enumTuple tn vn rs, ?_, by rw [reflectPartialEq]⟩
                rw [Diff.apply, applyDiffType, hrs, bindOk, pureOk]
    case enumUnit tn' vn' =>
      rw [diff] at hd
      simp only [Except.ok.injEq] at hd
      subst hd
      exact ⟨.enumUnit tn' vn', by rw [Diff.apply], partialEq_refl _ hwf⟩
    case enumStruct tn' vn' fs' =>
      rw [diff] at hd
      simp only [Except.ok.injEq] at hd
      subst hd
      exact ⟨.enumStruct tn' vn' fs', by rw [Diff.apply], partialEq_refl _ hwf⟩
    all_goals simp [diff] at hd
  | henumStruct tn vn fs ih =>
    intro T new d hT hT' hwf hd
    cases new
    case enumStruct tn' vn' fs' =>
      rw [diff] at hd
      by_cases hc : vn ≠ vn' ∨ tn ≠ tn'
      · rw [if_pos hc] at hd
        simp only [Except.ok.injEq] at hd
        subst hd
        exact ⟨.enumStruct tn' vn' fs', by rw [Diff.apply], partialEq_refl _ hwf⟩
      · rw [if_neg hc] at hd
        push_neg at hc
        obtain ⟨hvn, htneq⟩ := hc
        subst hvn
        obtain ⟨tnT, vars, rfl⟩ := wellTyped_enumStruct_inv hT
        rw [WellTyped] at hT hT'
        simp only [Bool.and_eq_true] at hT hT'
        have hT2 := hT.2
        have hT2' := hT'.2
        cases hsig : sigGet vars vn with
        | none => rw [hsig] at hT2; simp at hT2
        | some sg =>
          rw [hsig] at hT2 hT2'
          cases sg with
          | unit => simp at hT2
          | tuple ts0 => simp at hT2
          | struct ts =>
            dsimp only at hT2 hT2'
            simp only [Bool.and_eq_true] at hT2 hT2'
            have hndf : nodupNames fs = true := hT2.1
            have hwtn : wtNamed fs ts = true := hT2.2
            have hwtn' : wtNamed fs' ts = true := hT2'.2
            rw [WellFormed] at hwf
            simp only [Bool.and_eq_true] at hwf
            cases hds : diffNamedFields fs fs' with
            | error e => rw [hds] at hd; simp [bindErr] at hd
            | ok ds =>
              rw [hds] at hd
              simp only [bindOk] at hd
              obtain ⟨hdnames, hdf2⟩ := diffNamedFields_spec hds
              by_cases hall : (ds.map Prod.snd).all Diff.isNoChange = true
              · rw [if_pos hall, pureOk] at hd
                simp only [Except.ok.injEq] at hd
                subst hd
                exact ⟨.enumStruct tn vn fs, by rw [Diff.apply],
                  by rw [reflectPartialEq]⟩
              · rw [if_neg hall, pureOk] at hd
                simp only [Except.ok.injEq] at hd
                subst hd
                have hpair : ∀ (nv : String × RValue), nv ∈ fs →
                    ∀ (d2 : Diff) (bv : RValue),
                      namedGet fs' (Prod.fst nv) = some bv →
                      diff (Prod.snd nv) bv = .ok d2 →
                      ∃ r, Diff.apply d2 (Prod.snd nv) = .ok r ∧
                        reflectPartialEq r bv = some true := by
                  intro nv hnv d2 bv hbv hd2
                  have hget : namedGet fs (Prod.fst nv) = some (Prod.snd nv) :=
                    namedGet_of_mem_nodup hndf (by simpa using hnv)
                  obtain ⟨t, hts, hvt⟩ := wtNamed_lookup hwtn hget
                  obtain ⟨t2, hts2, hbt⟩ := wtNamed_lookup hwtn' hbv
                  rw [hts] at hts2
                  have ht12 : t = t2 := by simpa using hts2
                  subst ht12
                  have hbmem : (Prod.fst nv, bv) ∈ fs' := mem_of_namedGet hbv
                  exact ih nv hnv t bv d2 hvt hbt
                    (wfNamed_mem hwf.2 (Prod.fst nv, bv) hbmem) hd2
                have hforall : List.Forall₂
                    (fun (nd : String × Diff) (nv : String × RValue) =>
                      ∃ r, Diff.apply (Prod.snd nd) (Prod.snd nv) = .ok r ∧
                        ∃ bv, namedGet fs' (Prod.fst nd) = some bv ∧
                          reflectPartialEq r bv = some true) ds fs := by
                  refine forall2_imp_mem (forall2_swap hdf2) ?_
                  intro nd nv hnd2 hnv hrel
                  obtain ⟨hname, bv, hbv, hdiffv⟩ := hrel
                  obtain ⟨r, hrr, hpe2⟩ := hpair nv hnv (Prod.snd nd) bv hbv hdiffv
                  refine ⟨r, hrr, bv, ?_, hpe2⟩
                  rw [← hname]
                  exact hbv
                obtain ⟨gs, hgs, hgnames, hgp⟩ := applyNamed_exists hdnames hndf hforall
                refine ⟨.enumStruct tn vn gs, ?_, by rw [reflectPartialEq]⟩
                rw [Diff.apply, applyDiffType, hgs, bindOk, pureOk]
    case enumUnit tn' vn' =>
      rw [diff] at hd
      simp only [Except.ok.injEq] at hd
      subst hd
      exact ⟨.enumUnit tn' vn', by rw [Diff.apply], partialEq_refl _ hwf⟩
    case enumTuple tn' vn' fs' =>
      rw [diff] at hd
      simp only [Except.ok.injEq] at hd
      subst hd
      exact ⟨.enumTuple tn' vn' fs', by rw [Diff.apply], partialEq_refl _ hwf⟩
    all_goals simp [diff] at hd


/-- Witness for `apply_inverts_diff` at a concrete input: diffing `1, 2 : i32`
gives a `Modified(Value)` delta whose application to the base yields the new
value. -/
theorem apply_inverts_diff_witness :
    ∃ r, Diff.apply (Diff.modified (DiffType.value (RValue.value "i32" 2 true)))
        (RValue.value "i32" 1 true) = .ok r ∧
      reflectPartialEq r (RValue.value "i32" 2 true) = some true :=
  apply_inverts_diff (RValue.value "i32" 1 true) (RType.value "i32" true)
    (RValue.value "i32" 2 true)
    (Diff.modified (DiffType.value (RValue.value "i32" 2 true)))
    (by simp [WellTyped]) (by simp [WellTyped]) (by simp [WellFormed])
    (by simp [diff, reflectPartialEq, RValue.typeName])

end BevyDiff
